import Mathlib

/-!
Verification of the ryu-modern patch-apply-and-rollback engine.

This file gives a shallow embedding of the two tools that the claims are
about: `tools/fix_collections_imports.py` (the transformation engine) and
`tools/ryu_modernize.py` (backup manager, ledger, orchestrator, rollback),
and proves or refutes the frozen claims about them.

Strings are modelled as `List Char`.  The Python regular expressions used
by the source are all anchored (`re.match`) and deterministic up to one
local backtracking case (`\s+(.+)$` on an all-whitespace tail), so each is
embedded as a hand-rolled parser with exactly that semantics; the character
classes `\s` and `\w` are modelled by their ASCII parts, which is what the
processed program text exercises.
-/

set_option autoImplicit false
set_option maxRecDepth 100000

namespace RyuModern

abbrev Str := List Char

/-- Convert a Lean string literal to the `List Char` representation. -/
def str (s : String) : Str := s.toList

/-- Python whitespace (the ASCII part of the regex class `\s`, also the set
stripped by `str.strip()`). -/
def pySpace (c : Char) : Bool :=
  c == ' ' || c == '\t' || c == '\n' || c == '\r' || c == '\x0b' || c == '\x0c'

/-- Python regex word character `\w` (ASCII part), used for `\b` boundaries. -/
def isWordChar (c : Char) : Bool :=
  c.isAlphanum || c == '_'

/-- Python line-break characters recognised by `str.splitlines` (BMP set). -/
def isLineBk (c : Char) : Bool :=
  c == '\n' || c == '\r' || c == '\x0b' || c == '\x0c' ||
  c == '\x1c' || c == '\x1d' || c == '\x1e' || c == '\x85' ||
  c == '\u2028' || c == '\u2029'

/-- Test whether `p` is a leading segment of `s`. -/
def isPre : Str → Str → Bool
  | [], _ => true
  | _ :: _, [] => false
  | p :: ps, c :: cs => p == c && isPre ps cs

/-- If `p` is a leading segment of `s`, return the remainder. -/
def dropLit : Str → Str → Option Str
  | [], s => some s
  | _ :: _, [] => none
  | p :: ps, c :: cs => if p == c then dropLit ps cs else none

/-- Test whether `s` ends with `p`. -/
def endsWith (p s : Str) : Bool := isPre p.reverse s.reverse

/-- Test whether `sub` occurs as a contiguous segment of `s` (Python
`sub in s`). -/
def hasSub (sub s : Str) : Bool :=
  match s with
  | [] => sub.isEmpty
  | c :: cs => isPre sub (c :: cs) || hasSub sub cs

/-- Strip Python whitespace from the left (Python `str.lstrip()`). -/
def lstrip (s : Str) : Str := s.dropWhile pySpace

/-- Strip characters satisfying `p` from the right. -/
def rstripBy (p : Char → Bool) (s : Str) : Str :=
  (s.reverse.dropWhile p).reverse

/-- Python `str.strip()`. -/
def pyStrip (s : Str) : Str := rstripBy pySpace (lstrip s)

/-- Python `line.rstrip("\r\n")`. -/
def rstripRN (s : Str) : Str := rstripBy (fun c => c == '\r' || c == '\n') s

/-- Python `str.splitlines(keepends=True)`. -/
def splitLinesKeep : Str → List Str :=
  go []
where
  go (acc : Str) : Str → List Str
    | [] => if acc.isEmpty then [] else [acc.reverse]
    | '\r' :: '\n' :: cs => (acc.reverse ++ ['\r', '\n']) :: go [] cs
    | c :: cs =>
      if isLineBk c then (acc.reverse ++ [c]) :: go [] cs
      else go (c :: acc) cs

/-- Python `str.splitlines()` (line endings removed). -/
def splitLinesNoKeep : Str → List Str :=
  go []
where
  go (acc : Str) : Str → List Str
    | [] => if acc.isEmpty then [] else [acc.reverse]
    | '\r' :: '\n' :: cs => acc.reverse :: go [] cs
    | c :: cs =>
      if isLineBk c then acc.reverse :: go [] cs
      else go (c :: acc) cs

/-- Concatenate a list of strings (Python `"".join`). -/
def joinStr (l : List Str) : Str := l.foldr (· ++ ·) []

/-- Python `sep.join(parts)`. -/
def joinSep (sep : Str) : List Str → Str
  | [] => []
  | [x] => x
  | x :: y :: rest => x ++ sep ++ joinSep sep (y :: rest)

/-- Split on the first occurrence of a separator string, Python
`s.split(sep, 1)`; `none` when the separator does not occur. -/
def splitFirst (sep : Str) : Str → Option (Str × Str)
  | [] => if sep.isEmpty then some ([], []) else none
  | c :: cs =>
    if isPre sep (c :: cs) then some ([], (c :: cs).drop sep.length)
    else match splitFirst sep cs with
      | some (a, b) => some (c :: a, b)
      | none => none

/-- Split on every occurrence of a single character, Python
`s.split(ch)` for a one-character separator. -/
def splitChar (ch : Char) : Str → List Str
  | [] => [[]]
  | c :: cs =>
    let rest := splitChar ch cs
    if c == ch then [] :: rest
    else match rest with
      | r :: rs => (c :: r) :: rs
      | [] => [[c]]

/-- Replace the first occurrence of `tgt` by `rep`, Python
`s.replace(tgt, rep, 1)` for nonempty `tgt`. -/
def replaceFirst (tgt rep : Str) : Str → Str
  | [] => []
  | c :: cs =>
    if isPre tgt (c :: cs) then rep ++ (c :: cs).drop tgt.length
    else c :: replaceFirst tgt rep cs

/-- ASCII lowercase of a string (Python `str.lower()` on ASCII input). -/
def pyLower (s : Str) : Str := s.map Char.toLower

/-! ## Embedded regular expressions of `tools/fix_collections_imports.py`

Each anchored regex is a deterministic parser: a maximal `\s*`/`\s+` run
followed by a literal never backtracks because every literal begins with a
non-space character.  The only genuine backtracking case, `\s+(.+)$` on an
all-whitespace tail, is handled explicitly in `capRest`. -/

/-- Parse `\s+` (at least one whitespace character, maximal run). -/
def ws1 : Str → Option Str
  | [] => none
  | c :: cs => if pySpace c then some (cs.dropWhile pySpace) else none

/-- Parse `\s+` followed by the literal `lit`. -/
def wsLit (lit : Str) (s : Str) : Option Str :=
  match ws1 s with
  | none => none
  | some r => dropLit lit r

/-- Parse `\s+(.+)$` and return the captured group.  Inputs never contain a
newline here (they are `rstrip`-ped line bodies); on an all-whitespace tail
the greedy `\s+` backtracks and the group is the final character. -/
def capRest : Str → Option Str
  | [] => none
  | c :: cs =>
    if pySpace c then
      let t := cs.dropWhile pySpace
      if t.isEmpty then
        if cs.isEmpty then none
        else some [(c :: cs).getLast (List.cons_ne_nil c cs)]
      else some t
    else none

/-- A `\b` boundary placed after a word character: the remaining input must
be empty or start with a non-word character. -/
def noWordAhead : Str → Bool
  | [] => true
  | c :: _ => !isWordChar c

/-- Embeds `FROM_COLLECTIONS_RE`, the regex
`^(?P<indent>\s*)from\s+collections\s+import\s+(?P<imports>.+)$`,
returning the `indent` and `imports` groups. -/
def matchFromCollections (s : Str) : Option (Str × Str) :=
  match dropLit (str ("from")) (lstrip s) with
  | none => none
  | some r1 =>
    match wsLit (str ("collections")) r1 with
    | none => none
    | some r2 =>
      match wsLit (str ("import")) r2 with
      | none => none
      | some r3 =>
        match capRest r3 with
        | none => none
        | some g => some (s.takeWhile pySpace, g)

/-- First alternative of `COLLECTIONS_IMPORT_RE`: `import\s+collections\b`. -/
def altImportCollections (r : Str) : Bool :=
  match dropLit (str ("import")) r with
  | none => false
  | some r1 =>
    match wsLit (str ("collections")) r1 with
    | none => false
    | some r2 => noWordAhead r2

/-- Second alternative of `COLLECTIONS_IMPORT_RE`:
`from\s+collections\s+import\b`. -/
def altFromCollectionsImport (r : Str) : Bool :=
  match dropLit (str ("from")) r with
  | none => false
  | some r1 =>
    match wsLit (str ("collections")) r1 with
    | none => false
    | some r2 =>
      match wsLit (str ("import")) r2 with
      | none => false
      | some r3 => noWordAhead r3

/-- Embeds `COLLECTIONS_IMPORT_RE`, the regex
`^\s*(import\s+collections\b|from\s+collections\s+import\b)`
(as a match test). -/
def famMatch (s : Str) : Bool :=
  altImportCollections (lstrip s) || altFromCollectionsImport (lstrip s)

/-- Embeds `COLLECTIONS_ABC_IMPORT_RE`, the regex
`^\s*(import\s+collections\.abc\b|from\s+collections\.abc\s+import\b|from\s+collections\s+import\s+abc\b)`
(as a match test). -/
def abcMatch (s : Str) : Bool :=
  let r := lstrip s
  (match dropLit (str ("import")) r with
   | none => false
   | some r1 =>
     match wsLit (str ("collections.abc")) r1 with
     | none => false
     | some r2 => noWordAhead r2)
  ||
  (match dropLit (str ("from")) r with
   | none => false
   | some r1 =>
     match wsLit (str ("collections.abc")) r1 with
     | none => false
     | some r2 =>
       match wsLit (str ("import")) r2 with
       | none => false
       | some r3 => noWordAhead r3)
  ||
  (match dropLit (str ("from")) r with
   | none => false
   | some r1 =>
     match wsLit (str ("collections")) r1 with
     | none => false
     | some r2 =>
       match wsLit (str ("import")) r2 with
       | none => false
       | some r3 =>
         match wsLit (str ("abc")) r3 with
         | none => false
         | some r4 => noWordAhead r4)

/-- Embeds `IMPORT_COLLECTIONS_RE`, the regex `^\s*import\s+(.+)$`,
returning the `imports` group. -/
def matchImportLine (s : Str) : Option Str :=
  match dropLit (str ("import")) (lstrip s) with
  | none => none
  | some r1 => capRest r1

/-! ## The transformation engine of `tools/fix_collections_imports.py` -/

/-- Source `Change` record: a line number and a description. -/
structure Change where
  lineNo : Nat
  descr : Str
deriving DecidableEq, Repr

/-- Source `split_comment`. -/
def splitComment (line : Str) : Str × Str :=
  match splitFirst (str ("#")) line with
  | none => (line, [])
  | some (code, rest) => (code, '#' :: rest)

/-- Source `parse_import_items`. -/
def parseImportItems (importsPart : Str) : List Str :=
  let p := pyStrip importsPart
  let q := if isPre (str ("(")) p && endsWith (str (")")) p then (p.drop 1).dropLast else p
  ((splitChar ',' q).map pyStrip).filter (fun it => !it.isEmpty)

/-- Source `base_import_name`. -/
def baseImportName (item : Str) : Str :=
  match splitFirst (str (" as ")) item with
  | some (a, _) => pyStrip a
  | none => pyStrip item

/-- Source `process_from_collections_import`: split or replace a
`from collections import ...` line when it names `MutableMapping`. -/
def processFromCollectionsImport (line : Str) (lineNo : Nat) : List Str × List Change :=
  let lineNoEnding := rstripRN line
  match matchFromCollections lineNoEnding with
  | none => ([line], [])
  | some (indent, importsPart) =>
    let lineEnding : Str :=
      if endsWith (str ("\r\n")) line then str ("\r\n")
      else if endsWith (str ("\n")) line then str ("\n")
      else []
    let (code, comment) := splitComment importsPart
    let items := parseImportItems code
    if items.isEmpty || items.contains (str ("*")) then ([line], [])
    else
      let mutableItems := items.filter (fun it => baseImportName it == str ("MutableMapping"))
      if mutableItems.isEmpty then ([line], [])
      else
        let remainingItems := items.filter (fun it => !(baseImportName it == str ("MutableMapping")))
        if !remainingItems.isEmpty then
          ([indent ++ str ("from collections import ") ++ joinSep (str (", ")) remainingItems
              ++ comment ++ lineEnding,
            indent ++ str ("from collections.abc import ") ++ joinSep (str (", ")) mutableItems
              ++ lineEnding],
           [⟨lineNo, str ("removed MutableMapping from collections import")⟩])
        else
          ([indent ++ str ("from collections.abc import ") ++ joinSep (str (", ")) mutableItems
              ++ comment ++ lineEnding],
           [⟨lineNo, str ("replaced collections import with collections.abc for MutableMapping")⟩])

/-- Scanner for `re.sub` of a literal pattern wrapped in `\b ... \b` word
boundaries whose first and last characters are word characters: replaces
all non-overlapping occurrences left to right and reports whether any
occurrence was found (`re.search`).  `prev` is the character before the
scan position, `skip` the number of still-unemitted characters of a
matched occurrence. -/
def substAux (pat rep : Str) : Option Char → Nat → Str → Str × Bool
  | _, _, [] => ([], false)
  | _, Nat.succ n, c :: cs => substAux pat rep (some c) n cs
  | prev, 0, c :: cs =>
    let bOk : Bool := match prev with
      | none => true
      | some p => !isWordChar p
    if bOk && isPre pat (c :: cs) && noWordAhead ((c :: cs).drop pat.length)
        && !pat.isEmpty then
      let t := substAux pat rep (some c) (pat.length - 1) cs
      (rep ++ t.1, true)
    else
      let t := substAux pat rep (some c) 0 cs
      (c :: t.1, t.2)

/-- Apply one `\b`-delimited literal substitution to a whole string. -/
def pySub (pat rep line : Str) : Str × Bool := substAux pat rep none 0 line

/-- Source `REPLACEMENTS` table, in dict order: pattern body, replacement,
and the change description `replaced {pattern} with {replacement}`. -/
def replacements : List (Str × Str × Str) :=
  [ (str ("collections.MutableMapping"), str ("collections.abc.MutableMapping"),
     str ("replaced \\bcollections\\.MutableMapping\\b with collections.abc.MutableMapping")),
    (str ("collections.Iterable"), str ("collections.abc.Iterable"),
     str ("replaced \\bcollections\\.Iterable\\b with collections.abc.Iterable")),
    (str ("collections.Callable"), str ("collections.abc.Callable"),
     str ("replaced \\bcollections\\.Callable\\b with collections.abc.Callable")) ]

/-- Source `replace_collections_usage`. -/
def replaceCollectionsUsage (line : Str) (lineNo : Nat) : Str × List Change :=
  replacements.foldl
    (fun acc pr =>
      let s := pySub pr.1 pr.2.1 acc.1
      if s.2 then (s.1, acc.2 ++ [⟨lineNo, pr.2.2⟩]) else acc)
    (line, [])

/-- Source `has_collections_abc_import`. -/
def hasCollectionsAbcImport (lines : List Str) : Bool :=
  lines.any abcMatch

/-- Source `has_collections_import`. -/
def hasCollectionsImport : List Str → Bool
  | [] => false
  | line :: rest =>
    if !famMatch line then hasCollectionsImport rest
    else if isPre (str ("import ")) (lstrip line) then
      match matchImportLine line with
      | none => true
      | some importsGroup =>
        let code := (splitComment importsGroup).1
        let items := parseImportItems code
        if items.any (fun it => isPre (str ("collections")) (baseImportName it)) then true
        else hasCollectionsImport rest
    else true

/-- Insertion position used by `insert_collections_abc_import`: one past
the index of the last line matching `COLLECTIONS_IMPORT_RE`. -/
def insertAtPos (lines : List Str) : Option Nat :=
  go 0 none lines
where
  go (i : Nat) (acc : Option Nat) : List Str → Option Nat
    | [] => acc
    | l :: ls => go (i + 1) (if famMatch l then some (i + 1) else acc) ls

/-- Python `list.insert` at index `n` (with `n` at most the length). -/
def insertAtIdx (n : Nat) (x : Str) (lines : List Str) : List Str :=
  lines.take n ++ [x] ++ lines.drop n

/-- Source `insert_collections_abc_import`: insert `import collections.abc`
after the last `collections`-family import line, if any. -/
def insertCollectionsAbcImport (lines : List Str) (newline : Str) : List Str × List Change :=
  match insertAtPos lines with
  | none => (lines, [])
  | some insertAt =>
    (insertAtIdx insertAt (str ("import collections.abc") ++ newline) lines,
     [⟨insertAt + 1, str ("added import collections.abc")⟩])

/-- Pair each element with its 1-based line number. -/
def withIdxFrom (i : Nat) : List Str → List (Nat × Str)
  | [] => []
  | l :: ls => (i, l) :: withIdxFrom (i + 1) ls

/-- One iteration of the rewrite loop in `process_file`: split the line,
then run the usage substitutions over every produced line. -/
def transformLine (ln : Nat) (line : Str) : List Str × List Change :=
  let pr := processFromCollectionsImport line ln
  let rep := pr.1.map (fun nl => replaceCollectionsUsage nl ln)
  (rep.map Prod.fst, pr.2 ++ (rep.map Prod.snd).flatten)

/-- The newline style `process_file` detects for an inserted line
(`"\r\n" if "\r\n" in content else "\n"`). -/
def newlineOf (content : Str) : Str :=
  if hasSub (str ("\r\n")) content then str ("\r\n") else str ("\n")

/-- The rewritten lines accumulated by the `process_file` loop, before the
optional `import collections.abc` insertion. -/
def updatedLinesOf (content : Str) : List Str :=
  (((withIdxFrom 1 (splitLinesKeep content)).map
      (fun p => transformLine p.1 p.2)).map Prod.fst).flatten

/-- The change records accumulated by the `process_file` loop, before the
optional insertion. -/
def lineChangesOf (content : Str) : List Change :=
  (((withIdxFrom 1 (splitLinesKeep content)).map
      (fun p => transformLine p.1 p.2)).map Prod.snd).flatten

/-- The pure transformation part of `process_file` (lines 169-189 of
`fix_collections_imports.py`): content in, rewritten content and the
accumulated change records out. -/
def processContent (content : Str) : Str × List Change :=
  let lines := splitLinesKeep content
  if hasCollectionsImport lines && !hasCollectionsAbcImport lines
      && !hasCollectionsAbcImport (updatedLinesOf content) then
    let ins := insertCollectionsAbcImport (updatedLinesOf content) (newlineOf content)
    (joinStr ins.1, lineChangesOf content ++ ins.2)
  else
    (joinStr (updatedLinesOf content), lineChangesOf content)

/-- The `re.sub` scanner's match test at one scan position: the pattern is
a leading segment there and is followed by a `\b` boundary. -/
def occAt (pat s : Str) : Bool :=
  isPre pat s && noWordAhead (s.drop pat.length)

/-- Source `FileResult` (without the path, which the caller carries). -/
structure FileResult where
  changes : List Change
  updated : Bool
deriving DecidableEq, Repr

/-- Outcome of `process_file` on readable content: final content of the
file together with the reported result, honouring the early return that
reports no changes when the rewritten content is byte-identical. -/
def processFilePure (content : Str) : Str × FileResult :=
  let pc := processContent content
  if pc.1 == content then (content, ⟨[], false⟩) else (pc.1, ⟨pc.2, true⟩)

/-! ## File-system model

A file tree is a finite association list from paths (relative to the
repository root) to file contents.  `tools/ryu_modernize.py` itself never
parses as a Python module (the `new_block` expression of
`ensure_eventlet_already_handled` juxtaposes a name and a string literal,
a `SyntaxError`); its functions are embedded below according to their
written code, with that one expression modelled by its evident intent.
The ledger file at `STATE_FILE` is carried as a separate component, so a
`Ledger` value stands for the JSON object stored there. -/

abbrev Fs := List (Str × Str)

/-- Content of the file at `p`, if it exists (first binding wins). -/
def fsRead (fs : Fs) (p : Str) : Option Str :=
  match fs with
  | [] => none
  | (q, c) :: rest => if q = p then some c else fsRead rest p

/-- Does a file exist at `p`. -/
def fsHas (fs : Fs) (p : Str) : Bool := (fsRead fs p).isSome

/-- Write (create or overwrite) the file at `p`. -/
def fsSet (p c : Str) : Fs → Fs
  | [] => [(p, c)]
  | (q, d) :: rest => if q = p then (p, c) :: rest else (q, d) :: fsSet p c rest

/-- Delete the file at `p`. -/
def fsDel (p : Str) : Fs → Fs
  | [] => []
  | e :: rest => if e.1 = p then fsDel p rest else e :: fsDel p rest

/-! ## Constants of `tools/ryu_modernize.py` -/

def BACKUP_EXT : Str := str (".ryu-modernize.bak")
def REPORT_JSON : Str := str ("ryu_modernization_report.json")
def REPORT_TXT : Str := str ("ryu_modernization_report.txt")
def COLLECTIONS_LOG : Str := str ("collections_fix.log")
def wsgiPath : Str := str ("ryu/app/wsgi.py")
def hubPath : Str := str ("ryu/lib/hub.py")
def requirementsPath : Str := str ("requirements.txt")
def REQUIREMENTS_HEADER : Str := str ("# Ryu modernization compatibility requirements")

/-- Source `REQUIRED_DEPENDENCIES`, in dict order. -/
def REQUIRED_DEPENDENCIES : List (Str × Str) :=
  [ (str ("eventlet"), str (">=0.33.3")),
    (str ("dnspython"), str (">=2.2.1")),
    (str ("greenlet"), str (">=1.1.0")),
    (str ("packaging"), str (">=20.9")),
    (str ("msgpack"), str (">=1.0.0")),
    (str ("netaddr"), str (">=0.8.0")),
    (str ("oslo.config"), str (">=5.2.0")),
    (str ("routes"), str (">=2.5.1")),
    (str ("webob"), str (">=1.8.7")) ]

/-- The ledger (`.ryu-modernize-state.json` content). -/
structure Ledger where
  backups : List Str
  created_files : List Str
deriving DecidableEq, Repr

/-- Source `ChangeRecord`. -/
structure ChangeRecord where
  path : Str
  description : Str
deriving DecidableEq, Repr

/-- A durable mutating operation, recorded in program order so that
interruption mid-session can be expressed as executing a prefix. -/
inductive FsOp where
  | writeFile (p c : Str)
  | deleteFile (p : Str)
  | writeLedger (st : Ledger)
  | deleteLedger
deriving DecidableEq, Repr

/-- Session state threaded through `apply`: the tree, the on-disk ledger
file, the in-memory `state` dict, the accumulated change records, and the
trace of durable operations performed so far. -/
structure SState where
  fs : Fs
  led : Option Ledger
  st : Ledger
  changes : List ChangeRecord
  ops : List FsOp
deriving DecidableEq, Repr

/-- Perform a durable file write. -/
def sWrite (p c : Str) (s : SState) : SState :=
  { s with fs := fsSet p c s.fs, ops := s.ops ++ [.writeFile p c] }

/-- Source `save_state`: serialize the in-memory state to the ledger file. -/
def save_state (s : SState) : SState :=
  { s with led := some s.st, ops := s.ops ++ [.writeLedger s.st] }

/-- Source `load_state`: absent ledger file reads as the empty state. -/
def load_state (led : Option Ledger) : Ledger :=
  match led with
  | none => ⟨[], []⟩
  | some l => l

/-- Replay a trace of durable operations against a tree and ledger file;
`execOps (ops.take k)` is the durable state after an interruption. -/
def execOp (fl : Fs × Option Ledger) (op : FsOp) : Fs × Option Ledger :=
  match op with
  | .writeFile p c => (fsSet p c fl.1, fl.2)
  | .deleteFile p => (fsDel p fl.1, fl.2)
  | .writeLedger st => (fl.1, some st)
  | .deleteLedger => (fl.1, none)

def execOps (ops : List FsOp) (fl : Fs × Option Ledger) : Fs × Option Ledger :=
  ops.foldl execOp fl

/-- Source `ensure_backup` (`ryu_modernize.py` lines 106-115). -/
def ensure_backup (path : Str) (s : SState) : SState :=
  let backupPath := path ++ BACKUP_EXT
  if fsHas s.fs backupPath then
    if backupPath ∈ s.st.backups then s
    else { s with st := { s.st with backups := s.st.backups ++ [backupPath] } }
  else if !fsHas s.fs path then s
  else
    let s1 := sWrite backupPath ((fsRead s.fs path).getD []) s
    { s1 with st := { s1.st with backups := s1.st.backups ++ [backupPath] } }

/-- Decimal digits of `n`, least significant first (structural, so that
concrete evaluation reduces in the kernel). -/
def natDigitsAux : Nat → Nat → Str
  | 0, _ => []
  | _ + 1, 0 => []
  | fuel + 1, n + 1 => Char.ofNat (48 + (n + 1) % 10) :: natDigitsAux fuel ((n + 1) / 10)

/-- Python `str(n)` for a natural number. -/
def natToStr (n : Nat) : Str :=
  if n = 0 then [ '0' ] else (natDigitsAux n n).reverse

/-- Source `backup_path` of `fix_collections_imports.py` (lines 147-156):
first free name among `path + ext`, `path + ext + ".1"`, `path + ext + ".2"`, ….
The unbounded `while True` search is embedded with fuel `fs.length + 1`,
which always suffices (`backup_path_total` below): among that many distinct
candidate names one is free. -/
def backup_path (fs : Fs) (path backupExt : Str) : Option Str :=
  let candidate := path ++ backupExt
  if !fsHas fs candidate then some candidate
  else go (fs.length + 1) 1
where
  go : Nat → Nat → Option Str
    | 0, _ => none
    | fuel + 1, counter =>
      let candidate := path ++ backupExt ++ str (".") ++ natToStr counter
      if !fsHas fs candidate then some candidate
      else go fuel (counter + 1)

/-- Source `process_file` of `fix_collections_imports.py` with
`dry_run = False`, acting on the tree: read (a missing file models the
skipped-with-warning read failure), rewrite, and when the content changed
copy the current content to a fresh backup name and write the rewrite.
The `getD` fallback after `backup_path` is unreachable (`backup_path_total`). -/
def process_file (path backupExt : Str) (s : SState) : SState × FileResult :=
  match fsRead s.fs path with
  | none => (s, ⟨[], false⟩)
  | some content =>
    let pf := processFilePure content
    if !pf.2.updated then (s, pf.2)
    else
      let backup := (backup_path s.fs path backupExt).getD (path ++ backupExt)
      let s1 := sWrite backup content s
      let s2 := sWrite path pf.1 s1
      (s2, pf.2)

/-- Source `iter_py_files` over the subtree `dirPre`, in tree order
(modelling the `os.walk` visit order by the association-list order). -/
def iter_py_files (fs : Fs) (dirPre backupExt : Str) : List Str :=
  (fs.map Prod.fst).filter (fun p =>
    isPre dirPre p && endsWith (str (".py")) p && !endsWith backupExt p)

/-- Source `apply_collections_fix` (lines 118-140), split into its three
successive stages.  First the fixer tool runs as a subprocess over `ryu/`
with `BACKUP_EXT` (its logger creates the log file at start-up; the log
text is modelled abstractly). -/
def acfFixerStage (s : SState) : SState :=
  let s0 := sWrite COLLECTIONS_LOG (str ("collections fix log")) s
  (iter_py_files s0.fs (str ("ryu/")) BACKUP_EXT).foldl
    (fun acc p => (process_file p BACKUP_EXT acc).1) s0

/-- Then every `*.ryu-modernize.bak` file found by `rglob` is registered
in the in-memory state. -/
def acfRegisterStage (s : SState) : SState :=
  ((s.fs.map Prod.fst).filter (fun p => endsWith BACKUP_EXT p)).foldl
    (fun acc b => if b ∈ acc.st.backups then acc
      else { acc with st := { acc.st with backups := acc.st.backups ++ [b] } }) s

/-- Finally the log file is registered as created and returned when it
exists. -/
def acfLogStage (s : SState) : SState × Option Str :=
  if fsHas s.fs COLLECTIONS_LOG && !(COLLECTIONS_LOG ∈ s.st.created_files) then
    ({ s with st := { s.st with created_files := s.st.created_files ++ [COLLECTIONS_LOG] } },
     some COLLECTIONS_LOG)
  else if fsHas s.fs COLLECTIONS_LOG then (s, some COLLECTIONS_LOG)
  else (s, none)

def apply_collections_fix (s : SState) : SState × Option Str :=
  acfLogStage (acfRegisterStage (acfFixerStage s))

/-- Python `len(line) - len(line.lstrip())`. -/
def lineIndent (l : Str) : Nat := l.length - (lstrip l).length

/-- The scan for the end of a class block in `find_class_block`. -/
def scanEnd (indent : Nat) : Nat → List Str → Nat
  | e, [] => e
  | e, l :: ls =>
    if pyStrip l = ([] : Str) then scanEnd indent (e + 1) ls
    else if lineIndent l ≤ indent then e
    else scanEnd indent (e + 1) ls

/-- Source `find_class_block` (lines 143-157). -/
def find_class_block (lines : List Str) (className : Str) : Option (Nat × Nat) :=
  go 0 lines
where
  go (i : Nat) : List Str → Option (Nat × Nat)
    | [] => none
    | l :: ls =>
      if isPre (str ("class ") ++ className) l then
        some (i, scanEnd (lineIndent l) (i + 1) ls)
      else go (i + 1) ls

/-- The fourteen source fragments of `new_block` in
`ensure_eventlet_already_handled`.  In the source this expression does not
parse (string literals juxtaposed with the name `newline`); it is modelled
by its evident intent: each fragment followed by `newline`. -/
def eventletBlockLines : List Str :=
  [ str ("class _AlreadyHandledResponse(Response):"),
    str ("    # XXX: Eventlet API should not be used directly."),
    str ("    # https://github.com/benoitc/gunicorn/pull/2581"),
    str ("    from packaging import version"),
    str ("    import eventlet"),
    str ("    if version.parse(eventlet.__version__) >= version.parse(\"0.30.3\"):"),
    str ("        import eventlet.wsgi"),
    str ("        _ALREADY_HANDLED = getattr(eventlet.wsgi, \"ALREADY_HANDLED\", None)"),
    str ("    else:"),
    str ("        from eventlet.wsgi import ALREADY_HANDLED"),
    str ("        _ALREADY_HANDLED = ALREADY_HANDLED"),
    ([] : Str),
    str ("    def __call__(self, environ, start_response):"),
    str ("        return self._ALREADY_HANDLED") ]

def eventletNewBlock (newline : Str) : Str :=
  joinStr (eventletBlockLines.map (fun l => l ++ newline)) ++ newline

/-- Result of one orchestrated patch: either the next state, or the state
at the moment an uncaught Python exception leaves the patch function. -/
inductive StepRes where
  | ok (s : SState)
  | err (s : SState) (msg : Str)
deriving DecidableEq, Repr

def StepRes.state : StepRes → SState
  | .ok s => s
  | .err s _ => s

def StepRes.isErr : StepRes → Bool
  | .ok _ => false
  | .err _ _ => true

/-- Source `ensure_eventlet_already_handled` (lines 160-196).  A missing
target file makes `path.read_text` raise an uncaught `FileNotFoundError`. -/
def ensure_eventlet_already_handled (path : Str) (s : SState) : StepRes :=
  match fsRead s.fs path with
  | none => .err s (str ("FileNotFoundError"))
  | some content =>
    let lines := splitLinesKeep content
    match find_class_block lines (str ("_AlreadyHandledResponse")) with
    | none => .ok s
    | some se =>
      let blockText := joinStr ((lines.drop se.1).take (se.2 - se.1))
      if hasSub (str ("eventlet.wsgi")) blockText && hasSub (str ("ALREADY_HANDLED")) blockText then
        .ok s
      else
        let newline := if hasSub (str ("\r\n")) content then str ("\r\n") else str ("\n")
        let s1 := ensure_backup path s
        let newContent := joinStr (lines.take se.1) ++ eventletNewBlock newline
            ++ joinStr (lines.drop se.2)
        let s2 := sWrite path newContent s1
        .ok { s2 with changes := s2.changes ++
          [⟨path, str ("Updated _AlreadyHandledResponse for eventlet compatibility")⟩] }

/-- Source `ensure_dnspython_compat` (lines 199-222). -/
def ensure_dnspython_compat (path : Str) (s : SState) : StepRes :=
  match fsRead s.fs path with
  | none => .err s (str ("FileNotFoundError"))
  | some content =>
    if hasSub (str ("dnspython_compat.patch_eventlet_dnspython()")) content then .ok s
    else if !hasSub (str ("    import eventlet\n")) content then .ok s
    else
      let crlf := hasSub (str ("\r\n")) content
      let newline := if crlf then str ("\r\n") else str ("\n")
      let targetLine := if crlf then str ("    import eventlet\r\n") else str ("    import eventlet\n")
      let insertion := targetLine ++ str ("    from ryu.lib import dnspython_compat") ++ newline
          ++ str ("    dnspython_compat.patch_eventlet_dnspython()") ++ newline
      let s1 := ensure_backup path s
      let s2 := sWrite path (replaceFirst targetLine insertion content) s1
      .ok { s2 with changes := s2.changes ++
        [⟨path, str ("Inserted dnspython tlsabase compatibility hook")⟩] }

/-- Source `normalize_requirement_line` (lines 225-233). -/
def normalize_requirement_line (line : Str) : Option Str :=
  let stripped := pyStrip line
  if stripped.isEmpty || isPre (str ("#")) stripped then none
  else
    let name := (splitChar ';' stripped).headD stripped
    let tokens := [str ("=="), str (">="), str ("<="), str ("~="), str ("<"), str (">")]
    match tokens.find? (fun t => hasSub t name) with
    | some t =>
      match splitFirst t name with
      | some ab => some (pyLower (pyStrip ab.1))
      | none => some (pyLower (pyStrip name))
    | none => some (pyLower (pyStrip name))

/-- The new `requirements.txt` content computed by `update_requirements`
from the current content (empty when the file does not exist). -/
def requirementsNewContent (pathExists : Bool) (content : Str) : Str :=
  let requiredLines := [REQUIREMENTS_HEADER, ([] : Str)] ++
    REQUIRED_DEPENDENCIES.map (fun nv => nv.1 ++ nv.2)
  let lines := if pathExists then splitLinesNoKeep content else []
  let upd := lines.map (fun line =>
    match normalize_requirement_line line with
    | some name =>
      match REQUIRED_DEPENDENCIES.find? (fun nv => nv.1 = name) with
      | some nv => (nv.1 ++ nv.2, some name)
      | none => (line, (none : Option Str))
    | none => (line, none))
  let updatedLines := upd.map Prod.fst
  let existingNames := (upd.map Prod.snd).filterMap id
  let missing := REQUIRED_DEPENDENCIES.filter (fun nv => !(nv.1 ∈ existingNames))
  let updatedLines2 :=
    if !missing.isEmpty then
      (if !updatedLines.isEmpty && !(pyStrip (updatedLines.getLastD [])).isEmpty
       then updatedLines ++ [([] : Str)] else updatedLines) ++ requiredLines
    else updatedLines
  rstripBy pySpace (joinSep (str ("
")) updatedLines2) ++ str ("
")

/-- Source `update_requirements` (lines 236-275). -/
def update_requirements (path : Str) (s : SState) : SState :=
  let pathExists := fsHas s.fs path
  let content := (fsRead s.fs path).getD []
  let newContent := requirementsNewContent pathExists content
  if newContent == content then s
  else
    let s1 := if pathExists then ensure_backup path s
      else { s with st := { s.st with created_files := s.st.created_files ++ [path] } }
    let s2 := sWrite path newContent s1
    { s2 with changes := s2.changes ++
      [⟨path, str ("Updated requirements with modernization-compatible versions")⟩] }

/-- Outcome of the external test command (`run_tests` result dict); an
environment input to the session. -/
structure TestsR where
  command : Str
  status : Str
  output : Str
deriving DecidableEq, Repr

/-- Environment inputs of one `apply` run: test skipping and outcome, the
timestamp, the python-version issue and the dependency audit (all read
from the environment by the source, never from the tree). -/
structure ApplyParams where
  skipTests : Bool
  testsResult : TestsR
  timestamp : Str
  pythonIssueMsg : Str
  deps : List (Str × Str × Str)
deriving DecidableEq, Repr

/-- Rendered JSON report text.  The exact serialization is not significant
for any claim; modelled as a concatenation of the report fields. -/
def reportJsonText (prm : ApplyParams) (changes : List ChangeRecord) (tests : TestsR) : Str :=
  str ("json-report ") ++ prm.timestamp ++ prm.pythonIssueMsg
    ++ joinStr (prm.deps.map (fun d => d.1 ++ d.2.1 ++ d.2.2))
    ++ joinStr (changes.map (fun c => c.path ++ str (": ") ++ c.description))
    ++ tests.command ++ tests.status ++ tests.output

/-- Rendered plain-text report.  As for `reportJsonText`, modelled
abstractly. -/
def reportTxtText (prm : ApplyParams) (changes : List ChangeRecord) (tests : TestsR) : Str :=
  str ("text-report ") ++ reportJsonText prm changes tests

/-- Source `write_report` (lines 296-371): back up or register each report
artifact, then write both. -/
def write_report (prm : ApplyParams) (tests : TestsR) (s : SState) : SState :=
  let s1 := if fsHas s.fs REPORT_JSON then ensure_backup REPORT_JSON s
    else { s with st := { s.st with created_files := s.st.created_files ++ [REPORT_JSON] } }
  let s2 := if fsHas s1.fs REPORT_TXT then ensure_backup REPORT_TXT s1
    else { s1 with st := { s1.st with created_files := s1.st.created_files ++ [REPORT_TXT] } }
  let s3 := sWrite REPORT_JSON (reportJsonText prm s2.changes tests) s2
  sWrite REPORT_TXT (reportTxtText prm s3.changes tests) s3

/-- Source `apply` (lines 399-436): load the state, run the collections
fix, the eventlet and dnspython patches (whose uncaught exceptions abort
the session), the requirements update, the optional tests, write the
report, and only then save the ledger file. -/
def apply (fs0 : Fs) (led0 : Option Ledger) (prm : ApplyParams) : StepRes :=
  let s0 : SState := ⟨fs0, led0, load_state led0, [], []⟩
  let acf := apply_collections_fix s0
  let s1 := match acf.2 with
    | some lp => { acf.1 with changes := acf.1.changes ++
        [⟨lp, str ("Collections import fix log generated")⟩] }
    | none => acf.1
  match ensure_eventlet_already_handled wsgiPath s1 with
  | .err s msg => .err s msg
  | .ok s2 =>
    match ensure_dnspython_compat hubPath s2 with
    | .err s msg => .err s msg
    | .ok s3 =>
      let s4 := update_requirements requirementsPath s3
      let tests := if prm.skipTests then (⟨[], str ("skipped"), []⟩ : TestsR)
        else prm.testsResult
      let s5 := write_report prm tests s4
      .ok (save_state s5)

/-- Source restore step of `rollback`: skip a missing backup, otherwise
copy the backup's content onto the name obtained by dropping the
`BACKUP_EXT` suffix and delete the backup. -/
def restore_one (fs : Fs) (bak : Str) : Fs :=
  if !fsHas fs bak then fs
  else
    let original := bak.take (bak.length - BACKUP_EXT.length)
    fsDel bak (fsSet original ((fsRead fs bak).getD []) fs)

/-- Result of `rollback`: the exit code, whether the no-ledger no-op path
was taken, and the resulting tree and ledger file. -/
structure RollbackOut where
  exitCode : Nat
  nothingToDo : Bool
  fs : Fs
  led : Option Ledger
deriving DecidableEq, Repr

/-- Source `rollback` (lines 374-396). -/
def rollback (fs0 : Fs) (led0 : Option Ledger) : RollbackOut :=
  match led0 with
  | none => ⟨0, true, fs0, none⟩
  | some st =>
    let fs1 := st.backups.foldl restore_one fs0
    let fs2 := st.created_files.foldl (fun fs c => if fsHas fs c then fsDel c fs else fs) fs1
    ⟨0, false, fs2, none⟩

/-- Does an operation touch the ledger file. -/
def isLedgerOp : FsOp → Bool
  | .writeLedger _ => true
  | .deleteLedger => true
  | _ => false

/-! ## Concrete scenarios used to settle the claims -/

/-- Environment inputs used by the concrete sessions: tests skipped. -/
def defaultParams : ApplyParams :=
  ⟨true, ⟨[], str ("skipped"), []⟩, str ("2024-01-01T00:00:00+00:00"), [], []⟩

/-- C1 failing input: a file whose single `from collections import ...`
line carries no trailing newline. -/
def c1Input : Str := str ("from collections import OrderedDict, MutableMapping")

/-- C2 scenario: a second back-to-back session.  `ryu/a.py` carries a
stale plain-name backup from the first session and needs fixing again. -/
def c2File : Str := str ("ryu/a.py")
def c2PreContent : Str := str ("import collections\nx = collections.Iterable\n")
def c2OldBackup : Str := str ("OLD ORIGINAL CONTENT")
def c2Fs : Fs :=
  [ (c2File, c2PreContent),
    (c2File ++ BACKUP_EXT, c2OldBackup),
    (wsgiPath, str ("x = 1\n")),
    (hubPath, str ("y = 2\n")) ]
def c2Led : Ledger := ⟨[c2File ++ BACKUP_EXT], []⟩
def c2Applied : SState := (apply c2Fs (some c2Led) defaultParams).state
def c2RolledBack : RollbackOut := rollback c2Applied.fs c2Applied.led

/-- C3 scenario: a second back-to-back session in which
`requirements.txt` is mutated again while its plain-name backup from the
first session is still on disk. -/
def c3Fs : Fs :=
  [ (requirementsPath, []),
    (requirementsPath ++ BACKUP_EXT, str ("old backup")),
    (wsgiPath, str ("x = 1\n")),
    (hubPath, str ("y = 2\n")) ]
def c3Led : Ledger := ⟨[requirementsPath ++ BACKUP_EXT], []⟩
def c3Applied : SState := (apply c3Fs (some c3Led) defaultParams).state
def c3S0 : SState := ⟨c3Fs, some c3Led, c3Led, [], []⟩

/-- C4 scenario: `wsgi.py` needs the eventlet patch (file A) and `hub.py`
needs the dnspython patch (file B). -/
def c4Fs : Fs :=
  [ (wsgiPath, str ("class _AlreadyHandledResponse(Response):\n    pass\n")),
    (hubPath, str ("def f():\n    import eventlet\n")) ]
def c4Applied : SState := (apply c4Fs none defaultParams).state

/-- C4: the durable state after the process is interrupted right after
file A's backup was created and A was mutated (the first three durable
operations), before file B is touched. -/
def c4Interrupted : Fs × Option Ledger := execOps (c4Applied.ops.take 3) (c4Fs, none)

/-- C5 scenario: the eventlet patch's target file `ryu/app/wsgi.py` does
not exist; the dnspython patch's target does and needs patching. -/
def c5Fs : Fs :=
  [ (hubPath, str ("def f():\n    import eventlet\n")) ]
def c5Res : StepRes := apply c5Fs none defaultParams

/-- C9 witness scenario: an already-migrated file. -/
def c9Content : Str := str ("from collections.abc import MutableMapping\n")
def c9S : SState := ⟨[(str ("ryu/x.py"), c9Content)], none, ⟨[], []⟩, [], []⟩

/-- C10 witness scenario: an empty tree. -/
def c10S : SState := ⟨[], none, ⟨[], []⟩, [], []⟩

/-- C7 witness scenario: a file importing `collections` but never
`collections.abc`. -/
def c7Content : Str :=
  str ("import collections\nx = collections.OrderedDict()\n")

/-- Restore-correctness invariant carried through `apply`, relative to the
pre-session tree `fs0`: no pre-session file has disappeared; every
non-backup path is untouched, backed up, or registered as created; every
registered backup ends in the suffix and (unless its original is a created
file) holds the pre-session bytes of an original that existed; every
backup file on disk is registered; and every created file is new and is
not a backup. -/
def RbInv (fs0 fs : Fs) (st : Ledger) : Prop :=
  (∀ q, fsRead fs q = none → fsRead fs0 q = none) ∧
  (∀ q, endsWith BACKUP_EXT q = false →
    fsRead fs q = fsRead fs0 q ∨ (q ++ BACKUP_EXT) ∈ st.backups ∨ q ∈ st.created_files) ∧
  (∀ b ∈ st.backups, ∃ q, b = q ++ BACKUP_EXT ∧ endsWith BACKUP_EXT q = false ∧
    (q ∈ st.created_files ∨ (fsRead fs b = fsRead fs0 q ∧ fsRead fs0 q ≠ none))) ∧
  (∀ b, endsWith BACKUP_EXT b = true → fsRead fs b ≠ none → b ∈ st.backups) ∧
  (∀ p ∈ st.created_files, endsWith BACKUP_EXT p = false ∧ fsRead fs0 p = none) ∧
  st.backups.Nodup ∧
  (∀ b ∈ st.backups, fsRead fs b ≠ none)

/-- Invariant of the collections-fixer stage, before any backup is
registered: the remaining files and their backup names are untouched,
every mutated non-log file left its pre-session bytes in its plain-name
backup, every backup file on disk holds such bytes, no pre-session file
disappeared, and the fixer log exists. -/
def FixInv (fs0 fs : Fs) (rem : List Str) : Prop :=
  (∀ p ∈ rem, fsRead fs p = fsRead fs0 p ∧ fsRead fs (p ++ BACKUP_EXT) = none) ∧
  (∀ q, endsWith BACKUP_EXT q = false → ¬ q = COLLECTIONS_LOG →
    fsRead fs q = fsRead fs0 q ∨
      (fsRead fs (q ++ BACKUP_EXT) = fsRead fs0 q ∧ fsRead fs0 q ≠ none)) ∧
  (∀ b, endsWith BACKUP_EXT b = true →
    fsRead fs b = none ∨ ∃ q, b = q ++ BACKUP_EXT ∧ endsWith BACKUP_EXT q = false ∧
      fsRead fs b = fsRead fs0 q ∧ fsRead fs0 q ≠ none) ∧
  (∀ q, fsRead fs q = none → fsRead fs0 q = none) ∧
  fsRead fs COLLECTIONS_LOG ≠ none

/-- The parsed import items of a from-collections line body, as
`process_from_collections_import` computes them. -/
def importItems (imports : Str) : List Str :=
  parseImportItems (splitComment imports).1

/-- The items that the splitting rule moves to `collections.abc`. -/
def mutableOf (imports : Str) : List Str :=
  (importItems imports).filter (fun it => baseImportName it == str ("MutableMapping"))

/-- The items that the splitting rule keeps in the original statement. -/
def remainingOf (imports : Str) : List Str :=
  (importItems imports).filter (fun it => !(baseImportName it == str ("MutableMapping")))

/-- A single-line from-collections import statement built from its
indentation, its imports text, and its line ending. -/
def fromLine (indent imports ending : Str) : Str :=
  indent ++ str ("from collections import ") ++ imports ++ ending

end RyuModern

namespace RyuModern

/-! # Theorems -/

/-! ## General lemmas about the string and file-system helpers -/

theorem isPre_self_append (p t : Str) : isPre p (p ++ t) = true := by
  induction p with
  | nil => rfl
  | cons c cs ih => simp [isPre, ih]

theorem isPre_length_le (p s : Str) (h : isPre p s = true) : p.length ≤ s.length := by
  induction p generalizing s with
  | nil => simp
  | cons c cs ih =>
    cases s with
    | nil => simp [isPre] at h
    | cons d ds =>
      simp [isPre] at h
      have := ih ds h.2
      simp [List.length_cons]
      omega

theorem isPre_append_right (a p t : Str) (h : isPre a p = true) :
    isPre a (p ++ t) = true := by
  induction a generalizing p with
  | nil => rfl
  | cons c cs ih =>
    cases p with
    | nil => simp [isPre] at h
    | cons d ds =>
      simp [isPre] at h ⊢
      exact ⟨h.1, ih ds h.2⟩

theorem dropLit_append (l r : Str) : dropLit l (l ++ r) = some r := by
  induction l with
  | nil => rfl
  | cons c cs ih => simp [dropLit, ih]

theorem dropLit_sound (l s r : Str) (h : dropLit l s = some r) : s = l ++ r := by
  induction l generalizing s with
  | nil =>
    simp [dropLit] at h
    simp [h]
  | cons c cs ih =>
    cases s with
    | nil => simp [dropLit] at h
    | cons d ds =>
      by_cases hcd : c = d
      · subst hcd
        simp [dropLit] at h
        simp [ih ds h]
      · simp [dropLit, hcd] at h

theorem hasSub_of_isPre (b s : Str) (h : isPre b s = true) : hasSub b s = true := by
  cases s with
  | nil =>
    cases b with
    | nil => rfl
    | cons x xs => simp [isPre] at h
  | cons d ds => simp [hasSub, h]

theorem hasSub_append_left (b s a : Str) (h : hasSub b s = true) :
    hasSub b (a ++ s) = true := by
  induction a with
  | nil => simpa
  | cons x xs ih =>
    simp only [List.cons_append, hasSub]
    simp only [Bool.or_eq_true] at ih ⊢
    exact Or.inr ih

theorem hasSub_append_mid (a b c : Str) : hasSub b ((a ++ b) ++ c) = true := by
  rw [List.append_assoc]
  exact hasSub_append_left b (b ++ c) a (hasSub_of_isPre _ _ (isPre_self_append b c))

theorem fsRead_fsSet_self (p c : Str) (fs : Fs) : fsRead (fsSet p c fs) p = some c := by
  induction fs with
  | nil => simp [fsSet, fsRead]
  | cons e rest ih =>
    by_cases h : e.1 = p
    · simp [fsSet, h, fsRead]
    · simp [fsSet, h, fsRead, ih]

theorem fsRead_fsSet_ne (p c q : Str) (fs : Fs) (h : q ≠ p) :
    fsRead (fsSet p c fs) q = fsRead fs q := by
  have hpq : ¬(p = q) := fun hh => h hh.symm
  induction fs with
  | nil => simp [fsSet, fsRead, hpq]
  | cons e rest ih =>
    by_cases he : e.1 = p
    · have he1 : ¬(e.1 = q) := fun hh => hpq (he.symm.trans hh)
      simp [fsSet, he, fsRead, hpq, he1]
    · by_cases hq : e.1 = q
      · simp [fsSet, he, fsRead, hq, h]
      · simp [fsSet, he, fsRead, hq, ih]

theorem fsRead_fsDel_ne (p q : Str) (fs : Fs) (h : q ≠ p) :
    fsRead (fsDel p fs) q = fsRead fs q := by
  have hpq : ¬(p = q) := fun hh => h hh.symm
  induction fs with
  | nil => rfl
  | cons e rest ih =>
    by_cases he : e.1 = p
    · simp [fsDel, he, fsRead, hpq, ih]
    · by_cases hq : e.1 = q
      · simp [fsDel, he, fsRead, hq, h]
      · simp [fsDel, he, fsRead, hq, ih]

theorem fsRead_fsDel_self (p : Str) (fs : Fs) : fsRead (fsDel p fs) p = none := by
  induction fs with
  | nil => rfl
  | cons e rest ih =>
    by_cases he : e.1 = p
    · simp [fsDel, he, ih]
    · simp [fsDel, he, fsRead, ih]

theorem fsRead_none_of_not_mem (fs : Fs) (q : Str) (h : q ∉ fs.map Prod.fst) :
    fsRead fs q = none := by
  induction fs with
  | nil => rfl
  | cons e rest ih =>
    have he : ¬(e.1 = q) := fun hh => h (List.mem_map.mpr ⟨e, List.mem_cons_self e rest, hh⟩)
    have hrest : q ∉ rest.map Prod.fst := fun hm => by
      rw [List.map_cons] at h
      exact h (List.mem_cons_of_mem _ hm)
    simp [fsRead, he, ih hrest]

theorem mem_of_fsRead_some (fs : Fs) (q : Str) (c : Str) (h : fsRead fs q = some c) :
    q ∈ fs.map Prod.fst := by
  by_contra hmem
  rw [fsRead_none_of_not_mem fs q hmem] at h
  exact Option.noConfusion h

/-! ## Structure of the fixer stage and the orchestrator -/

theorem fsRead_isSome_of_mem (fs : Fs) (q : Str) (h : q ∈ fs.map Prod.fst) :
    (fsRead fs q).isSome = true := by
  induction fs with
  | nil => simp at h
  | cons e rest ih =>
    by_cases he : e.1 = q
    · simp [fsRead, he]
    · rw [List.map_cons] at h
      rcases List.mem_cons.mp h with h1 | h2
      · exact absurd h1.symm he
      · simp [fsRead, he, ih h2]

theorem backup_path_go_shape (fs : Fs) (p ext : Str) (fuel ctr : Nat) :
    ∃ t, (backup_path.go fs p ext fuel ctr).getD (p ++ ext) = (p ++ ext) ++ t := by
  induction fuel generalizing ctr with
  | zero => exact ⟨[], (List.append_nil _).symm⟩
  | succ n ih =>
    simp only [backup_path.go]
    by_cases h : fsHas fs (p ++ ext ++ str (".") ++ natToStr ctr) = false
    · rw [if_pos (by simpa [List.append_assoc] using h)]
      exact ⟨str (".") ++ natToStr ctr, by simp [List.append_assoc]⟩
    · rw [if_neg (by simpa [List.append_assoc] using h)]
      exact ih (ctr + 1)

theorem backup_path_shape (fs : Fs) (p ext : Str) :
    ∃ t, (backup_path fs p ext).getD (p ++ ext) = (p ++ ext) ++ t := by
  unfold backup_path
  by_cases h : fsHas fs (p ++ ext)
  · simpa [h] using backup_path_go_shape fs p ext (fs.length + 1) 1
  · exact ⟨[], by simp [h]⟩

theorem process_file_meta (p ext : Str) (s : SState) :
    (process_file p ext s).1.led = s.led ∧ (process_file p ext s).1.st = s.st ∧
    (process_file p ext s).1.changes = s.changes := by
  unfold process_file
  cases h : fsRead s.fs p with
  | none => exact ⟨rfl, rfl, rfl⟩
  | some content =>
    by_cases hu : (processFilePure content).2.updated
    · simp [hu, sWrite]
    · simp [hu]

theorem process_file_fs_other (p ext q : Str) (s : SState) (hqp : q ≠ p)
    (hq : ∀ t, q ≠ (p ++ ext) ++ t) :
    fsRead (process_file p ext s).1.fs q = fsRead s.fs q := by
  unfold process_file
  cases h : fsRead s.fs p with
  | none => rfl
  | some content =>
    by_cases hu : (processFilePure content).2.updated
    · obtain ⟨t, ht⟩ := backup_path_shape s.fs p ext
      simp only [hu, Bool.not_true, Bool.false_eq_true, if_false, sWrite]
      rw [fsRead_fsSet_ne _ _ _ _ hqp, ht, fsRead_fsSet_ne _ _ _ _ (hq t)]
    · simp [hu]

theorem process_file_ops_shape (p ext : Str) (s : SState) :
    ∃ news, (process_file p ext s).1.ops = s.ops ++ news ∧
      ∀ op ∈ news, ∃ c, op = FsOp.writeFile p c ∨
        ∃ t, op = FsOp.writeFile ((p ++ ext) ++ t) c := by
  unfold process_file
  cases h : fsRead s.fs p with
  | none => exact ⟨[], by simp, by simp⟩
  | some content =>
    by_cases hu : (processFilePure content).2.updated
    · obtain ⟨t, ht⟩ := backup_path_shape s.fs p ext
      simp only [hu, Bool.not_true, Bool.false_eq_true, if_false, sWrite]
      refine ⟨[FsOp.writeFile ((backup_path s.fs p ext).getD (p ++ ext)) content,
               FsOp.writeFile p (processFilePure content).1], by simp, ?_⟩
      intro op hop
      rcases List.mem_cons.mp hop with h1 | h2
      · exact ⟨content, Or.inr ⟨t, by rw [h1, ht]⟩⟩
      · rcases List.mem_cons.mp h2 with h3 | h4
        · exact ⟨(processFilePure content).1, Or.inl h3⟩
        · simp at h4
    · exact ⟨[], by simp [hu], by simp⟩

theorem foldl_process_file_fs_other (files : List Str) (ext q : Str) (s : SState)
    (hq : ∀ p ∈ files, q ≠ p ∧ ∀ t, q ≠ (p ++ ext) ++ t) :
    fsRead ((files.foldl (fun acc p => (process_file p ext acc).1) s).fs) q
      = fsRead s.fs q := by
  induction files generalizing s with
  | nil => rfl
  | cons p ps ih =>
    simp only [List.foldl_cons]
    rw [ih _ (fun r hr => hq r (List.mem_cons_of_mem _ hr))]
    exact process_file_fs_other p ext q s (hq p (List.mem_cons_self _ _)).1
      (hq p (List.mem_cons_self _ _)).2

theorem foldl_process_file_meta (files : List Str) (ext : Str) (s : SState) :
    (files.foldl (fun acc p => (process_file p ext acc).1) s).led = s.led ∧
    (files.foldl (fun acc p => (process_file p ext acc).1) s).st = s.st ∧
    (files.foldl (fun acc p => (process_file p ext acc).1) s).changes = s.changes := by
  induction files generalizing s with
  | nil => exact ⟨rfl, rfl, rfl⟩
  | cons p ps ih =>
    simp only [List.foldl_cons]
    obtain ⟨h1, h2, h3⟩ := process_file_meta p ext s
    obtain ⟨g1, g2, g3⟩ := ih ((process_file p ext s).1)
    exact ⟨g1.trans h1, g2.trans h2, g3.trans h3⟩

theorem foldl_process_file_ops (files : List Str) (ext : Str) (s : SState) :
    ∃ news, (files.foldl (fun acc p => (process_file p ext acc).1) s).ops = s.ops ++ news ∧
      ∀ op ∈ news, ∃ p, p ∈ files ∧ ∃ c, op = FsOp.writeFile p c ∨
        ∃ t, op = FsOp.writeFile ((p ++ ext) ++ t) c := by
  induction files generalizing s with
  | nil => exact ⟨[], by simp, by simp⟩
  | cons p ps ih =>
    simp only [List.foldl_cons]
    obtain ⟨n1, hn1, hs1⟩ := process_file_ops_shape p ext s
    obtain ⟨n2, hn2, hs2⟩ := ih ((process_file p ext s).1)
    refine ⟨n1 ++ n2, by rw [hn2, hn1, List.append_assoc], ?_⟩
    intro op hop
    rcases List.mem_append.mp hop with h1 | h2
    · exact ⟨p, List.mem_cons_self _ _, hs1 op h1⟩
    · obtain ⟨r, hr, hc⟩ := hs2 op h2
      exact ⟨r, List.mem_cons_of_mem _ hr, hc⟩

/-- Registration folds only touch the in-memory state. -/
theorem foldl_register_shape (baks : List Str) (s : SState) :
    ((baks.foldl (fun acc b =>
        if b ∈ acc.st.backups then acc
        else { acc with st := { acc.st with backups := acc.st.backups ++ [b] } }) s).fs = s.fs) ∧
    ((baks.foldl (fun acc b =>
        if b ∈ acc.st.backups then acc
        else { acc with st := { acc.st with backups := acc.st.backups ++ [b] } }) s).ops = s.ops) ∧
    ((baks.foldl (fun acc b =>
        if b ∈ acc.st.backups then acc
        else { acc with st := { acc.st with backups := acc.st.backups ++ [b] } }) s).led = s.led) ∧
    ((baks.foldl (fun acc b =>
        if b ∈ acc.st.backups then acc
        else { acc with st := { acc.st with backups := acc.st.backups ++ [b] } }) s).changes
      = s.changes) ∧
    ((baks.foldl (fun acc b =>
        if b ∈ acc.st.backups then acc
        else { acc with st := { acc.st with backups := acc.st.backups ++ [b] } }) s).st.created_files
      = s.st.created_files) := by
  induction baks generalizing s with
  | nil => exact ⟨rfl, rfl, rfl, rfl, rfl⟩
  | cons b bs ih =>
    simp only [List.foldl_cons]
    by_cases hb : b ∈ s.st.backups
    · simpa [hb] using ih s
    · simpa [hb] using ih { s with st := { s.st with backups := s.st.backups ++ [b] } }

theorem acfRegisterStage_shape (s : SState) :
    (acfRegisterStage s).fs = s.fs ∧ (acfRegisterStage s).ops = s.ops ∧
    (acfRegisterStage s).led = s.led ∧ (acfRegisterStage s).changes = s.changes ∧
    (acfRegisterStage s).st.created_files = s.st.created_files :=
  foldl_register_shape _ s

theorem acfLogStage_shape (s : SState) :
    ((acfLogStage s).1.fs = s.fs ∧ (acfLogStage s).1.ops = s.ops ∧
     (acfLogStage s).1.led = s.led ∧ (acfLogStage s).1.changes = s.changes ∧
     (acfLogStage s).1.st.backups = s.st.backups) := by
  unfold acfLogStage
  split
  · exact ⟨rfl, rfl, rfl, rfl, rfl⟩
  · split
    · exact ⟨rfl, rfl, rfl, rfl, rfl⟩
    · exact ⟨rfl, rfl, rfl, rfl, rfl⟩

theorem acfFixerStage_meta (s : SState) :
    (acfFixerStage s).led = s.led ∧ (acfFixerStage s).st = s.st ∧
    (acfFixerStage s).changes = s.changes := by
  unfold acfFixerStage
  obtain ⟨m1, m2, m3⟩ := foldl_process_file_meta
    (iter_py_files (sWrite COLLECTIONS_LOG (str ("collections fix log")) s).fs
      (str ("ryu/")) BACKUP_EXT) BACKUP_EXT
    (sWrite COLLECTIONS_LOG (str ("collections fix log")) s)
  exact ⟨m1, m2, m3⟩

theorem acf_led (s : SState) : (apply_collections_fix s).1.led = s.led := by
  unfold apply_collections_fix
  rw [(acfLogStage_shape _).2.2.1, (acfRegisterStage_shape _).2.2.1,
    (acfFixerStage_meta s).1]

theorem iter_py_files_pre (fs : Fs) (d ext p : Str) (h : p ∈ iter_py_files fs d ext) :
    isPre d p = true ∧ p ∈ fs.map Prod.fst := by
  unfold iter_py_files at h
  have h1 := List.of_mem_filter h
  simp only [Bool.and_eq_true] at h1
  exact ⟨h1.1.1, List.mem_of_mem_filter h⟩

theorem acfFixerStage_fs_absent (s : SState) (q : Str)
    (hlog : q ≠ COLLECTIONS_LOG)
    (habsent : fsRead s.fs q = none)
    (hnb : hasSub BACKUP_EXT q = false) :
    fsRead (acfFixerStage s).fs q = none := by
  unfold acfFixerStage
  have h0 : fsRead (sWrite COLLECTIONS_LOG (str ("collections fix log")) s).fs q = none := by
    simpa [sWrite, fsRead_fsSet_ne _ _ _ _ hlog] using habsent
  rw [foldl_process_file_fs_other _ _ _ _ ?_]
  · exact h0
  · intro p hp
    constructor
    · intro hqe
      subst hqe
      have := fsRead_isSome_of_mem _ _ (iter_py_files_pre _ _ _ _ hp).2
      rw [h0] at this
      exact Bool.noConfusion this
    · intro t hqe
      have : hasSub BACKUP_EXT q = true := by
        rw [hqe]
        exact hasSub_append_mid p BACKUP_EXT t
      rw [hnb] at this
      exact Bool.noConfusion this

theorem acfFixerStage_ops (s : SState) :
    ∃ news, (acfFixerStage s).ops = s.ops ++ news ∧
      ∀ op ∈ news, ∃ q c, op = FsOp.writeFile q c ∧
        (q = COLLECTIONS_LOG ∨ isPre (str ("ryu/")) q = true) := by
  unfold acfFixerStage
  obtain ⟨n2, hn2, hs2⟩ := foldl_process_file_ops
    (iter_py_files (sWrite COLLECTIONS_LOG (str ("collections fix log")) s).fs
      (str ("ryu/")) BACKUP_EXT) BACKUP_EXT
    (sWrite COLLECTIONS_LOG (str ("collections fix log")) s)
  refine ⟨[FsOp.writeFile COLLECTIONS_LOG (str ("collections fix log"))] ++ n2, ?_, ?_⟩
  · rw [hn2]
    simp [sWrite]
  · intro op hop
    rcases List.mem_append.mp hop with h1 | h2
    · rcases List.mem_singleton.mp h1 with rfl
      exact ⟨COLLECTIONS_LOG, str ("collections fix log"), rfl, Or.inl rfl⟩
    · obtain ⟨p, hp, c, hc⟩ := hs2 op h2
      have hpre := (iter_py_files_pre _ _ _ _ hp).1
      rcases hc with h3 | ⟨t, h3⟩
      · exact ⟨p, c, h3, Or.inr hpre⟩
      · refine ⟨(p ++ BACKUP_EXT) ++ t, c, h3, Or.inr ?_⟩
        rw [List.append_assoc]
        exact isPre_append_right _ _ _ hpre

theorem acf_state_ops (s : SState) :
    ∃ news, (apply_collections_fix s).1.ops = s.ops ++ news ∧
      ∀ op ∈ news, ∃ q c, op = FsOp.writeFile q c ∧
        (q = COLLECTIONS_LOG ∨ isPre (str ("ryu/")) q = true) := by
  unfold apply_collections_fix
  rw [(acfLogStage_shape _).2.1, (acfRegisterStage_shape _).2.1]
  exact acfFixerStage_ops s

theorem acf_fs_absent (s : SState) (q : Str)
    (hlog : q ≠ COLLECTIONS_LOG)
    (habsent : fsRead s.fs q = none)
    (hnb : hasSub BACKUP_EXT q = false) :
    fsRead (apply_collections_fix s).1.fs q = none := by
  unfold apply_collections_fix
  rw [(acfLogStage_shape _).1, (acfRegisterStage_shape _).1]
  exact acfFixerStage_fs_absent s q hlog habsent hnb

theorem ensure_eventlet_err (path : Str) (s : SState) (h : fsRead s.fs path = none) :
    ensure_eventlet_already_handled path s = .err s (str ("FileNotFoundError")) := by
  unfold ensure_eventlet_already_handled
  rw [h]

/-- C5 amended: if the eventlet patch's target `ryu/app/wsgi.py` is
missing, `apply` aborts with the uncaught read error: the session does not
complete, the later patches never run (no write to `requirements.txt` or
either report occurs), and the ledger file is never touched. -/
theorem C5_missing_target_aborts (fs0 : Fs) (led0 : Option Ledger) (prm : ApplyParams)
    (h : fsRead fs0 wsgiPath = none) :
    (apply fs0 led0 prm).isErr = true ∧
    (apply fs0 led0 prm).state.led = led0 ∧
    (∀ op ∈ (apply fs0 led0 prm).state.ops, isLedgerOp op = false) ∧
    (∀ c, FsOp.writeFile requirementsPath c ∉ (apply fs0 led0 prm).state.ops) ∧
    (∀ c, FsOp.writeFile REPORT_JSON c ∉ (apply fs0 led0 prm).state.ops) ∧
    (∀ c, FsOp.writeFile REPORT_TXT c ∉ (apply fs0 led0 prm).state.ops) := by
  have hlog : wsgiPath ≠ COLLECTIONS_LOG := by decide
  have hnb : hasSub BACKUP_EXT wsgiPath = false := by decide
  set s0 : SState := ⟨fs0, led0, load_state led0, [], []⟩ with hs0
  have hfs : fsRead (apply_collections_fix s0).1.fs wsgiPath = none :=
    acf_fs_absent s0 wsgiPath hlog h hnb
  have hled : (apply_collections_fix s0).1.led = led0 := acf_led s0
  obtain ⟨news, hops, hshape⟩ := acf_state_ops s0
  have hopsprop : ∀ op ∈ (apply_collections_fix s0).1.ops,
      isLedgerOp op = false ∧ (∀ c, op ≠ FsOp.writeFile requirementsPath c) ∧
      (∀ c, op ≠ FsOp.writeFile REPORT_JSON c) ∧
      (∀ c, op ≠ FsOp.writeFile REPORT_TXT c) := by
    intro op hop
    rw [hops] at hop
    rcases List.mem_append.mp hop with h1 | h2
    · simp [hs0] at h1
    · obtain ⟨q, c, rfl, hq⟩ := hshape op h2
      refine ⟨rfl, ?_, ?_, ?_⟩ <;> intro c' he <;>
        (injection he with he1 _) <;> subst he1 <;>
        rcases hq with hq | hq
      · exact absurd hq (by decide)
      · exact absurd hq (by decide)
      · exact absurd hq (by decide)
      · exact absurd hq (by decide)
      · exact absurd hq (by decide)
      · exact absurd hq (by decide)
  unfold apply
  rw [← hs0]
  cases hacf : (apply_collections_fix s0).2 with
  | none =>
    simp only [hacf]
    rw [ensure_eventlet_err _ _ hfs]
    exact ⟨rfl, hled, fun op hop => (hopsprop op hop).1,
      fun c hc => (hopsprop _ hc).2.1 c rfl,
      fun c hc => (hopsprop _ hc).2.2.1 c rfl,
      fun c hc => (hopsprop _ hc).2.2.2 c rfl⟩
  | some lp =>
    simp only [hacf]
    rw [ensure_eventlet_err wsgiPath
      { (apply_collections_fix s0).1 with
          changes := (apply_collections_fix s0).1.changes ++
            [⟨lp, str ("Collections import fix log generated")⟩] } hfs]
    exact ⟨rfl, hled, fun op hop => (hopsprop op hop).1,
      fun c hc => (hopsprop _ hc).2.1 c rfl,
      fun c hc => (hopsprop _ hc).2.2.1 c rfl,
      fun c hc => (hopsprop _ hc).2.2.2 c rfl⟩

/-- C5 amended witness: the concrete missing-target session aborts with no
ledger write. -/
theorem C5_missing_target_aborts_witness :
    fsRead c5Fs wsgiPath = none ∧
    (apply c5Fs none defaultParams).isErr = true ∧
    (apply c5Fs none defaultParams).state.led = none :=
  ⟨by decide,
   (C5_missing_target_aborts c5Fs none defaultParams (by decide)).1,
   (C5_missing_target_aborts c5Fs none defaultParams (by decide)).2.1⟩

/-! ## The ledger file is written exactly once, at the end of `apply` -/

theorem ensure_backup_spec (p : Str) (s : SState) :
    (fsHas s.fs (p ++ BACKUP_EXT) = true ∧ (p ++ BACKUP_EXT) ∈ s.st.backups ∧
      ensure_backup p s = s) ∨
    (fsHas s.fs (p ++ BACKUP_EXT) = true ∧ (p ++ BACKUP_EXT) ∉ s.st.backups ∧
      ensure_backup p s
        = { s with st := { s.st with backups := s.st.backups ++ [p ++ BACKUP_EXT] } }) ∨
    (fsHas s.fs (p ++ BACKUP_EXT) = false ∧ fsHas s.fs p = false ∧
      ensure_backup p s = s) ∨
    (fsHas s.fs (p ++ BACKUP_EXT) = false ∧ fsHas s.fs p = true ∧
      ensure_backup p s
        = { sWrite (p ++ BACKUP_EXT) ((fsRead s.fs p).getD []) s with
            st := { s.st with backups := s.st.backups ++ [p ++ BACKUP_EXT] } }) := by
  by_cases h1 : fsHas s.fs (p ++ BACKUP_EXT)
  · by_cases h2 : (p ++ BACKUP_EXT) ∈ s.st.backups
    · exact Or.inl ⟨h1, h2, by unfold ensure_backup; simp [h1, h2]⟩
    · exact Or.inr (Or.inl ⟨h1, h2, by unfold ensure_backup; simp [h1, h2]⟩)
  · by_cases h3 : fsHas s.fs p
    · refine Or.inr (Or.inr (Or.inr ⟨by simpa using h1, h3, ?_⟩))
      unfold ensure_backup
      simp [h1, h3, sWrite]
    · exact Or.inr (Or.inr (Or.inl ⟨by simpa using h1, by simpa using h3,
        by unfold ensure_backup; simp [h1, h3]⟩))

theorem ensure_backup_ops_led (p : Str) (s : SState) :
    (∃ news, (ensure_backup p s).ops = s.ops ++ news ∧
      ∀ op ∈ news, isLedgerOp op = false) ∧
    (ensure_backup p s).led = s.led ∧ (ensure_backup p s).changes = s.changes := by
  rcases ensure_backup_spec p s with ⟨_, _, he⟩ | ⟨_, _, he⟩ | ⟨_, _, he⟩ | ⟨_, _, he⟩ <;>
    rw [he]
  · exact ⟨⟨[], by simp, by simp⟩, rfl, rfl⟩
  · exact ⟨⟨[], by simp, by simp⟩, rfl, rfl⟩
  · exact ⟨⟨[], by simp, by simp⟩, rfl, rfl⟩
  · refine ⟨⟨[FsOp.writeFile (p ++ BACKUP_EXT) ((fsRead s.fs p).getD [])], ?_, ?_⟩, rfl, rfl⟩
    · simp [sWrite]
    · intro op hop
      rcases List.mem_singleton.mp hop with rfl
      rfl

theorem sWrite_ops_led (p x : Str) (s1 s : SState)
    (h1 : ∃ news, s1.ops = s.ops ++ news ∧ ∀ op ∈ news, isLedgerOp op = false)
    (hled : s1.led = s.led) :
    (∃ news, (sWrite p x s1).ops = s.ops ++ news ∧ ∀ op ∈ news, isLedgerOp op = false) ∧
    (sWrite p x s1).led = s.led := by
  obtain ⟨n1, hn1, hs1⟩ := h1
  refine ⟨⟨n1 ++ [FsOp.writeFile p x], ?_, ?_⟩, by simpa [sWrite] using hled⟩
  · simp [sWrite, hn1]
  · intro op hop
    rcases List.mem_append.mp hop with ha | hb
    · exact hs1 op ha
    · rcases List.mem_singleton.mp hb with rfl
      rfl

theorem ensure_eventlet_ok_ops_led (path : Str) (s s2 : SState)
    (hok : ensure_eventlet_already_handled path s = .ok s2) :
    (∃ news, s2.ops = s.ops ++ news ∧ ∀ op ∈ news, isLedgerOp op = false) ∧
    s2.led = s.led := by
  unfold ensure_eventlet_already_handled at hok
  cases hread : fsRead s.fs path with
  | none => rw [hread] at hok; exact absurd hok (by simp)
  | some content =>
    rw [hread] at hok
    dsimp only at hok
    cases hfind : find_class_block (splitLinesKeep content) (str ("_AlreadyHandledResponse")) with
    | none =>
      rw [hfind] at hok
      dsimp only at hok
      injection hok with h2
      subst h2
      exact ⟨⟨[], by simp, by simp⟩, rfl⟩
    | some se =>
      rw [hfind] at hok
      dsimp only at hok
      split at hok
      · injection hok with h2
        subst h2
        exact ⟨⟨[], by simp, by simp⟩, rfl⟩
      · injection hok with h2
        subst h2
        obtain ⟨⟨n1, hn1, hs1⟩, hled, _⟩ := ensure_backup_ops_led path s
        exact sWrite_ops_led _ _ _ s ⟨n1, hn1, hs1⟩ hled

theorem ensure_dnspython_ok_ops_led (path : Str) (s s2 : SState)
    (hok : ensure_dnspython_compat path s = .ok s2) :
    (∃ news, s2.ops = s.ops ++ news ∧ ∀ op ∈ news, isLedgerOp op = false) ∧
    s2.led = s.led := by
  unfold ensure_dnspython_compat at hok
  cases hread : fsRead s.fs path with
  | none => rw [hread] at hok; exact absurd hok (by simp)
  | some content =>
    rw [hread] at hok
    dsimp only at hok
    split at hok
    · injection hok with h2
      subst h2
      exact ⟨⟨[], by simp, by simp⟩, rfl⟩
    · split at hok
      · injection hok with h2
        subst h2
        exact ⟨⟨[], by simp, by simp⟩, rfl⟩
      · injection hok with h2
        subst h2
        obtain ⟨⟨n1, hn1, hs1⟩, hled, _⟩ := ensure_backup_ops_led path s
        exact sWrite_ops_led _ _ _ s ⟨n1, hn1, hs1⟩ hled

theorem update_requirements_ops_led (path : Str) (s : SState) :
    (∃ news, (update_requirements path s).ops = s.ops ++ news ∧
      ∀ op ∈ news, isLedgerOp op = false) ∧
    (update_requirements path s).led = s.led := by
  unfold update_requirements
  dsimp only
  split
  · exact ⟨⟨[], by simp, by simp⟩, rfl⟩
  · split
    · obtain ⟨⟨n1, hn1, hs1⟩, hled, _⟩ := ensure_backup_ops_led path s
      exact sWrite_ops_led _ _ _ s ⟨n1, hn1, hs1⟩ hled
    · exact sWrite_ops_led _ _ _ s ⟨[], by simp, by simp⟩ rfl

theorem sWrite2_ops_led (p1 x1 p2 x2 : Str) (s1 s : SState)
    (h1 : ∃ news, s1.ops = s.ops ++ news ∧ ∀ op ∈ news, isLedgerOp op = false)
    (hled : s1.led = s.led) :
    (∃ news, (sWrite p2 x2 (sWrite p1 x1 s1)).ops = s.ops ++ news ∧
      ∀ op ∈ news, isLedgerOp op = false) ∧
    (sWrite p2 x2 (sWrite p1 x1 s1)).led = s.led := by
  have step1 := sWrite_ops_led p1 x1 s1 s h1 hled
  exact sWrite_ops_led p2 x2 _ s step1.1 step1.2

theorem write_report_ops_led (prm : ApplyParams) (tests : TestsR) (s : SState) :
    (∃ news, (write_report prm tests s).ops = s.ops ++ news ∧
      ∀ op ∈ news, isLedgerOp op = false) ∧
    (write_report prm tests s).led = s.led := by
  unfold write_report
  dsimp only
  split
  · obtain ⟨⟨n1, hn1, hs1⟩, hled1, _⟩ := ensure_backup_ops_led REPORT_JSON s
    split
    · obtain ⟨⟨n2, hn2, hs2⟩, hled2, _⟩ :=
        ensure_backup_ops_led REPORT_TXT (ensure_backup REPORT_JSON s)
      refine sWrite2_ops_led _ _ _ _ _ s ⟨n1 ++ n2, ?_, ?_⟩ (hled2.trans hled1)
      · rw [hn2, hn1, List.append_assoc]
      · intro op hop
        rcases List.mem_append.mp hop with ha | hb
        · exact hs1 op ha
        · exact hs2 op hb
    · exact sWrite2_ops_led _ _ _ _ _ s ⟨n1, hn1, hs1⟩ hled1
  · split
    · obtain ⟨⟨n2, hn2, hs2⟩, hled2, _⟩ := ensure_backup_ops_led REPORT_TXT
        { s with st := { s.st with created_files := s.st.created_files ++ [REPORT_JSON] } }
      exact sWrite2_ops_led _ _ _ _ _ s ⟨n2, hn2, hs2⟩ hled2
    · exact sWrite2_ops_led _ _ _ _ _ s ⟨[], by simp, by simp⟩ rfl

theorem execOps_led_of_no_ledger (ops : List FsOp) (fl : Fs × Option Ledger)
    (h : ∀ op ∈ ops, isLedgerOp op = false) : (execOps ops fl).2 = fl.2 := by
  induction ops generalizing fl with
  | nil => rfl
  | cons op rest ih =>
    have hop := h op (List.mem_cons_self _ _)
    cases op with
    | writeFile p c => exact (ih _ (fun o ho => h o (List.mem_cons_of_mem _ ho)))
    | deleteFile p => exact (ih _ (fun o ho => h o (List.mem_cons_of_mem _ ho)))
    | writeLedger st => exact absurd hop (by simp [isLedgerOp])
    | deleteLedger => exact absurd hop (by simp [isLedgerOp])

theorem nonledger_trans (s1 s2 s3 : SState)
    (h12 : ∃ n, s2.ops = s1.ops ++ n ∧ ∀ op ∈ n, isLedgerOp op = false)
    (h23 : ∃ n, s3.ops = s2.ops ++ n ∧ ∀ op ∈ n, isLedgerOp op = false) :
    ∃ n, s3.ops = s1.ops ++ n ∧ ∀ op ∈ n, isLedgerOp op = false := by
  obtain ⟨n1, e1, f1⟩ := h12
  obtain ⟨n2, e2, f2⟩ := h23
  refine ⟨n1 ++ n2, by rw [e2, e1, List.append_assoc], ?_⟩
  intro op hop
  rcases List.mem_append.mp hop with h | h
  · exact f1 op h
  · exact f2 op h

set_option maxHeartbeats 2000000 in
/-- C4 amended: once `apply` completes, the session's durable trace
contains exactly one ledger write, and it is the very last operation;
interrupting the session at any earlier point (executing a strict prefix
of the trace) leaves the on-disk ledger exactly as it was before the
session. -/
theorem C4_ledger_saved_once_at_end (fs0 : Fs) (led0 : Option Ledger) (prm : ApplyParams)
    (s : SState) (hok : apply fs0 led0 prm = .ok s) :
    s.ops.filter isLedgerOp = [FsOp.writeLedger s.st] ∧
    s.ops.getLast? = some (FsOp.writeLedger s.st) ∧
    s.led = some s.st ∧
    (∀ k, k < s.ops.length → (execOps (s.ops.take k) (fs0, led0)).2 = led0) := by
  unfold apply at hok
  dsimp only at hok
  set s0 : SState := ⟨fs0, led0, load_state led0, [], []⟩ with hs0
  have hs1 : ∀ s1 : SState,
      s1.ops = (apply_collections_fix s0).1.ops → s1.led = (apply_collections_fix s0).1.led →
      ∀ s2, ensure_eventlet_already_handled wsgiPath s1 = .ok s2 →
      ∀ s3, ensure_dnspython_compat hubPath s2 = .ok s3 →
      s = save_state (write_report prm
        (if prm.skipTests then (⟨[], str ("skipped"), []⟩ : TestsR) else prm.testsResult)
        (update_requirements requirementsPath s3)) →
      s.ops.filter isLedgerOp = [FsOp.writeLedger s.st] ∧
      s.ops.getLast? = some (FsOp.writeLedger s.st) ∧
      s.led = some s.st ∧
      (∀ k, k < s.ops.length → (execOps (s.ops.take k) (fs0, led0)).2 = led0) := by
    intro s1 hops1 hled1 s2 hev s3 hdns hfin
    obtain ⟨newsA, hA, hAf⟩ := acf_state_ops s0
    have hops1' : ∃ n, s1.ops = s0.ops ++ n ∧ ∀ op ∈ n, isLedgerOp op = false := by
      refine ⟨newsA, hops1.trans hA, ?_⟩
      intro op hop
      obtain ⟨q, c, rfl, _⟩ := hAf op hop
      rfl
    have hev' := ensure_eventlet_ok_ops_led wsgiPath s1 s2 hev
    have hdns' := ensure_dnspython_ok_ops_led hubPath s2 s3 hdns
    have hupd := update_requirements_ops_led requirementsPath s3
    have hwr := write_report_ops_led prm
      (if prm.skipTests then (⟨[], str ("skipped"), []⟩ : TestsR) else prm.testsResult)
      (update_requirements requirementsPath s3)
    set s5 := write_report prm
      (if prm.skipTests then (⟨[], str ("skipped"), []⟩ : TestsR) else prm.testsResult)
      (update_requirements requirementsPath s3) with hs5
    have hchain : ∃ n, s5.ops = s0.ops ++ n ∧ ∀ op ∈ n, isLedgerOp op = false :=
      nonledger_trans s0 (update_requirements requirementsPath s3) s5
        (nonledger_trans s0 s3 _
          (nonledger_trans s0 s2 s3
            (nonledger_trans s0 s1 s2 hops1' hev'.1) hdns'.1) hupd.1) hwr.1
    obtain ⟨pre, hpre, hprf⟩ := hchain
    have hops0 : s0.ops = [] := rfl
    rw [hops0, List.nil_append] at hpre
    have hsops : s.ops = pre ++ [FsOp.writeLedger s5.st] := by
      rw [hfin]
      show s5.ops ++ [FsOp.writeLedger s5.st] = pre ++ [FsOp.writeLedger s5.st]
      rw [hpre]
    have hsst : s.st = s5.st := by rw [hfin]; rfl
    have hsled : s.led = some s5.st := by rw [hfin]; rfl
    refine ⟨?_, ?_, ?_, ?_⟩
    · rw [hsops, hsst, List.filter_append]
      rw [List.filter_eq_nil_iff.mpr (fun op hop => by simp [hprf op hop])]
      simp [isLedgerOp]
    · rw [hsops, hsst]
      simp
    · rw [hsled, hsst]
    · intro k hk
      rw [hsops] at hk
      simp only [List.length_append, List.length_singleton] at hk
      have hkle : k ≤ pre.length := by omega
      rw [hsops, List.take_append_of_le_length hkle]
      have : ∀ op ∈ pre.take k, isLedgerOp op = false :=
        fun op hop => hprf op (List.mem_of_mem_take hop)
      exact execOps_led_of_no_ledger _ _ this
  cases hacf : (apply_collections_fix s0).2 with
  | none =>
    rw [hacf] at hok
    dsimp only at hok
    cases hev : ensure_eventlet_already_handled wsgiPath (apply_collections_fix s0).1 with
    | err se msg => rw [hev] at hok; exact absurd hok (by simp)
    | ok s2 =>
      rw [hev] at hok
      dsimp only at hok
      cases hdns : ensure_dnspython_compat hubPath s2 with
      | err se msg => rw [hdns] at hok; exact absurd hok (by simp)
      | ok s3 =>
        rw [hdns] at hok
        dsimp only at hok
        injection hok with hfin
        exact hs1 (apply_collections_fix s0).1 rfl rfl s2 hev s3 hdns hfin.symm
  | some lp =>
    rw [hacf] at hok
    dsimp only at hok
    cases hev : ensure_eventlet_already_handled wsgiPath
        { (apply_collections_fix s0).1 with
          changes := (apply_collections_fix s0).1.changes ++
            [⟨lp, str ("Collections import fix log generated")⟩] } with
    | err se msg => rw [hev] at hok; exact absurd hok (by simp)
    | ok s2 =>
      rw [hev] at hok
      dsimp only at hok
      cases hdns : ensure_dnspython_compat hubPath s2 with
      | err se msg => rw [hdns] at hok; exact absurd hok (by simp)
      | ok s3 =>
        rw [hdns] at hok
        dsimp only at hok
        injection hok with hfin
        exact hs1 { (apply_collections_fix s0).1 with
            changes := (apply_collections_fix s0).1.changes ++
              [⟨lp, str ("Collections import fix log generated")⟩] }
          rfl rfl s2 hev s3 hdns hfin.symm

/-- C4 amended witness: the concrete completed session saves the ledger
exactly once. -/
theorem C4_ledger_saved_once_at_end_witness :
    apply c4Fs none defaultParams = .ok c4Applied ∧
    c4Applied.ops.filter isLedgerOp = [FsOp.writeLedger c4Applied.st] :=
  ⟨by decide,
   (C4_ledger_saved_once_at_end c4Fs none defaultParams c4Applied (by decide)).1⟩

/-! ## Collision-free naming in the fixer's backup_path -/

theorem natDigitsAux_eq (fuel n : Nat) (h : n ≤ fuel) :
    natDigitsAux fuel n = (Nat.digits 10 n).map (fun d => Char.ofNat (48 + d)) := by
  induction fuel generalizing n with
  | zero =>
    interval_cases n
    simp [natDigitsAux]
  | succ m ih =>
    cases n with
    | zero => simp [natDigitsAux]
    | succ k =>
      rw [natDigitsAux, Nat.digits_def' (by norm_num : (1 : Nat) < 10) (Nat.succ_pos k)]
      rw [List.map_cons]
      congr 1
      exact ih ((k + 1) / 10) (by
        have := Nat.div_lt_self (Nat.succ_pos k) (by norm_num : (1 : Nat) < 10)
        omega)

theorem digitChar_inj (a b : Nat) (ha : a < 10) (hb : b < 10)
    (h : Char.ofNat (48 + a) = Char.ofNat (48 + b)) : a = b := by
  interval_cases a <;> interval_cases b <;> simp_all

theorem mapDigits_inj (l1 l2 : List Nat) (h1 : ∀ d ∈ l1, d < 10) (h2 : ∀ d ∈ l2, d < 10)
    (h : l1.map (fun d => Char.ofNat (48 + d)) = l2.map (fun d => Char.ofNat (48 + d))) :
    l1 = l2 := by
  induction l1 generalizing l2 with
  | nil => cases l2 with
    | nil => rfl
    | cons b bs => simp at h
  | cons a as ih =>
    cases l2 with
    | nil => simp at h
    | cons b bs =>
      simp only [List.map_cons, List.cons.injEq] at h
      have hab := digitChar_inj a b (h1 a (List.mem_cons_self _ _))
        (h2 b (List.mem_cons_self _ _)) h.1
      rw [hab, ih bs (fun d hd => h1 d (List.mem_cons_of_mem _ hd))
        (fun d hd => h2 d (List.mem_cons_of_mem _ hd)) h.2]

theorem natToStr_inj (m k : Nat) (h : natToStr m = natToStr k) : m = k := by
  unfold natToStr at h
  by_cases hm : m = 0 <;> by_cases hk : k = 0
  · rw [hm, hk]
  · rw [if_pos hm, if_neg hk] at h
    rw [natDigitsAux_eq k k (le_refl k)] at h
    have hne : Nat.digits 10 k ≠ [] := Nat.digits_ne_nil_iff_ne_zero.mpr hk
    have : (Nat.digits 10 k).map (fun d => Char.ofNat (48 + d)) = ['0'] := by
      have := congrArg List.reverse h
      simpa using this.symm
    rcases hdig : Nat.digits 10 k with _ | ⟨d, ds⟩
    · exact absurd hdig hne
    · rw [hdig] at this
      cases ds with
      | nil =>
        simp only [List.map_cons, List.map_nil, List.cons.injEq] at this
        have hd10 : d < 10 := Nat.digits_lt_base (by norm_num) (by rw [hdig]; exact List.mem_cons_self _ _)
        have hd0 : d = 0 := digitChar_inj d 0 hd10 (by norm_num) (by simpa using this.1)
        have hofd := Nat.ofDigits_digits 10 k
        rw [hdig, hd0] at hofd
        have : k = 0 := by simpa [Nat.ofDigits] using hofd.symm
        exact absurd this hk
      | cons e es => simp at this
  · rw [if_neg hm, if_pos hk] at h
    rw [natDigitsAux_eq m m (le_refl m)] at h
    have hne : Nat.digits 10 m ≠ [] := Nat.digits_ne_nil_iff_ne_zero.mpr hm
    have : (Nat.digits 10 m).map (fun d => Char.ofNat (48 + d)) = ['0'] := by
      have := congrArg List.reverse h
      simpa using this
    rcases hdig : Nat.digits 10 m with _ | ⟨d, ds⟩
    · exact absurd hdig hne
    · rw [hdig] at this
      cases ds with
      | nil =>
        simp only [List.map_cons, List.map_nil, List.cons.injEq] at this
        have hd10 : d < 10 := Nat.digits_lt_base (by norm_num) (by rw [hdig]; exact List.mem_cons_self _ _)
        have hd0 : d = 0 := digitChar_inj d 0 hd10 (by norm_num) (by simpa using this.1)
        have hofd := Nat.ofDigits_digits 10 m
        rw [hdig, hd0] at hofd
        have : m = 0 := by simpa [Nat.ofDigits] using hofd.symm
        exact absurd this hm
      | cons e es => simp at this
  · rw [if_neg hm, if_neg hk] at h
    rw [natDigitsAux_eq m m (le_refl m), natDigitsAux_eq k k (le_refl k)] at h
    have hrev := congrArg List.reverse h
    simp only [List.reverse_reverse] at hrev
    have hdig := mapDigits_inj _ _
      (fun d hd => Nat.digits_lt_base (by norm_num) hd)
      (fun d hd => Nat.digits_lt_base (by norm_num) hd) hrev
    calc m = Nat.ofDigits 10 (Nat.digits 10 m) := (Nat.ofDigits_digits 10 m).symm
    _ = Nat.ofDigits 10 (Nat.digits 10 k) := by rw [hdig]
    _ = k := Nat.ofDigits_digits 10 k

theorem mem_keys_of_fsHas (fs : Fs) (q : Str) (h : fsHas fs q = true) :
    q ∈ fs.map Prod.fst := by
  by_contra hmem
  rw [fsHas, fsRead_none_of_not_mem fs q hmem] at h
  simp at h

theorem backup_path_go_none (fs : Fs) (p ext : Str) (fuel ctr : Nat)
    (h : backup_path.go fs p ext fuel ctr = none) :
    ∀ i, ctr ≤ i → i < ctr + fuel → fsHas fs (p ++ ext ++ str (".") ++ natToStr i) = true := by
  induction fuel generalizing ctr with
  | zero => intro i h1 h2; omega
  | succ m ih =>
    intro i h1 h2
    rw [backup_path.go] at h
    by_cases hc : fsHas fs (p ++ ext ++ str (".") ++ natToStr ctr)
    · rcases Nat.eq_or_lt_of_le h1 with rfl | hlt
      · exact hc
      · rw [if_neg (by simpa using hc)] at h
        exact ih (ctr + 1) h i hlt (by omega)
    · rw [if_pos (by simpa using hc)] at h
      exact absurd h (by simp)

theorem backup_path_total (fs : Fs) (p ext : Str) : backup_path fs p ext ≠ none := by
  unfold backup_path
  by_cases h1 : fsHas fs (p ++ ext)
  · rw [if_neg (by simpa using h1)]
    intro hnone
    have hall := backup_path_go_none fs p ext (fs.length + 1) 1 hnone
    have hinj : Function.Injective (fun k : Nat => p ++ ext ++ str (".") ++ natToStr (k + 1)) := by
      intro a b hab
      simp only [List.append_assoc] at hab
      have h2 := List.append_cancel_left hab
      have h3 := List.append_cancel_left h2
      have h4 := List.append_cancel_left h3
      exact Nat.succ_injective (natToStr_inj _ _ h4)
    set L := (List.range (fs.length + 1)).map
      (fun k => p ++ ext ++ str (".") ++ natToStr (k + 1)) with hL
    have hnodup : L.Nodup := (List.nodup_range _).map hinj
    have hsub : ∀ x ∈ L, x ∈ fs.map Prod.fst := by
      intro x hx
      rw [hL] at hx
      obtain ⟨k, hk, rfl⟩ := List.mem_map.mp hx
      have hk2 := List.mem_range.mp hk
      exact mem_keys_of_fsHas fs _ (hall (k + 1) (by omega) (by omega))
    have hcard : L.length ≤ (fs.map Prod.fst).length := by
      calc L.length = L.toFinset.card := (List.toFinset_card_of_nodup hnodup).symm
      _ ≤ (fs.map Prod.fst).toFinset.card := by
          apply Finset.card_le_card
          intro x hx
          exact List.mem_toFinset.mpr (hsub x (List.mem_toFinset.mp hx))
      _ ≤ (fs.map Prod.fst).length := List.toFinset_card_le _
    rw [hL] at hcard
    simp at hcard
  · rw [if_pos (by simpa using h1)]
    simp

theorem backup_path_go_free (fs : Fs) (p ext : Str) (fuel ctr : Nat) (c : Str)
    (h : backup_path.go fs p ext fuel ctr = some c) : fsRead fs c = none := by
  induction fuel generalizing ctr with
  | zero => rw [backup_path.go] at h; exact absurd h (by simp)
  | succ m ih =>
    rw [backup_path.go] at h
    by_cases hc : fsHas fs (p ++ ext ++ str (".") ++ natToStr ctr)
    · rw [if_neg (by simpa using hc)] at h
      exact ih (ctr + 1) h
    · rw [if_pos (by simpa using hc)] at h
      injection h with h2
      subst h2
      simpa [fsHas, Option.isSome_iff_ne_none] using hc

theorem backup_path_free (fs : Fs) (p ext c : Str) (h : backup_path fs p ext = some c) :
    fsRead fs c = none := by
  unfold backup_path at h
  by_cases h1 : fsHas fs (p ++ ext)
  · rw [if_neg (by simpa using h1)] at h
    exact backup_path_go_free fs p ext (fs.length + 1) 1 c h
  · rw [if_pos (by simpa using h1)] at h
    injection h with h2
    subst h2
    simpa [fsHas, Option.isSome_iff_ne_none] using h1

/-- C3 amended: backups never overwrite one another, but the two backup
managers behave differently.  The fixer's `backup_path` search always
returns a name that is free on disk, so a second back-to-back session's
backup coexists with the first under a distinct numeric-suffix name; the
orchestrator's `ensure_backup`, however, creates no new backup at all when
the plain-name backup already exists: it reuses the stale backup and
leaves the tree unchanged. -/
theorem C3_backup_naming (fs : Fs) (p ext c : Str) (s : SState) :
    (backup_path fs p ext ≠ none) ∧
    (backup_path fs p ext = some c → fsRead fs c = none) ∧
    (backup_path fs p ext = some c → fsHas fs (p ++ ext) = true → c ≠ p ++ ext) ∧
    (fsHas s.fs (p ++ BACKUP_EXT) = true → (ensure_backup p s).fs = s.fs) := by
  refine ⟨backup_path_total fs p ext, backup_path_free fs p ext c, ?_, ?_⟩
  · intro h hex heq
    have := backup_path_free fs p ext c h
    rw [heq] at this
    rw [fsHas, this] at hex
    simp at hex
  · intro hex
    rcases ensure_backup_spec p s with ⟨_, _, he⟩ | ⟨_, _, he⟩ | ⟨h1, _, _⟩ | ⟨h1, _, _⟩
    · rw [he]
    · rw [he]
    · rw [hex] at h1; exact absurd h1 (by simp)
    · rw [hex] at h1; exact absurd h1 (by simp)

/-- C3 amended witness: on the concrete second-session tree, `backup_path`
finds the fresh `.1` name while `ensure_backup` leaves the tree alone. -/
theorem C3_backup_naming_witness :
    backup_path c3Fs requirementsPath BACKUP_EXT
      = some (requirementsPath ++ BACKUP_EXT ++ str (".") ++ natToStr 1) ∧
    fsRead c3Fs (requirementsPath ++ BACKUP_EXT ++ str (".") ++ natToStr 1) = none ∧
    fsHas c3S0.fs (requirementsPath ++ BACKUP_EXT) = true ∧
    (ensure_backup requirementsPath c3S0).fs = c3S0.fs :=
  ⟨by decide,
   (C3_backup_naming c3Fs requirementsPath BACKUP_EXT
     (requirementsPath ++ BACKUP_EXT ++ str (".") ++ natToStr 1) c3S0).2.1 (by decide),
   by decide,
   (C3_backup_naming c3Fs requirementsPath BACKUP_EXT
     (requirementsPath ++ BACKUP_EXT ++ str (".") ++ natToStr 1) c3S0).2.2.2 (by decide)⟩

/-! ## Parse inversion for the from-collections import line -/

theorem dropWhile_append_of_head (p : Char → Bool) (xs rest : Str)
    (hxs : ∀ c ∈ xs, p c = true)
    (hrest : ∀ c, rest.head? = some c → p c = false) :
    (xs ++ rest).dropWhile p = rest := by
  induction xs with
  | nil =>
    cases rest with
    | nil => rfl
    | cons c cs => simp [List.dropWhile, hrest c rfl]
  | cons c cs ih =>
    simp only [List.cons_append, List.dropWhile]
    rw [hxs c (List.mem_cons_self _ _)]
    exact ih (fun d hd => hxs d (List.mem_cons_of_mem _ hd))

theorem takeWhile_append_of_head (p : Char → Bool) (xs rest : Str)
    (hxs : ∀ c ∈ xs, p c = true)
    (hrest : ∀ c, rest.head? = some c → p c = false) :
    (xs ++ rest).takeWhile p = xs := by
  induction xs with
  | nil =>
    cases rest with
    | nil => rfl
    | cons c cs => simp [List.takeWhile, hrest c rfl]
  | cons c cs ih =>
    simp only [List.cons_append, List.takeWhile]
    rw [hxs c (List.mem_cons_self _ _)]
    show c :: List.takeWhile p (cs ++ rest) = c :: cs
    rw [ih (fun d hd => hxs d (List.mem_cons_of_mem _ hd))]

theorem head_cons_pred (p : Char → Bool) (c : Char) (cs : Str) (hp : p c = false) :
    ∀ d, ((c :: cs) : Str).head? = some d → p d = false := by
  intro d hd
  injection hd with h
  rw [← h]
  exact hp

theorem dropWhile_eq_self_of_head (p : Char → Bool) (rest : Str)
    (hrest : ∀ c, rest.head? = some c → p c = false) :
    rest.dropWhile p = rest := by
  cases rest with
  | nil => rfl
  | cons c cs => simp [List.dropWhile, hrest c rfl]

/-- The embedded `FROM_COLLECTIONS_RE` on a well-formed single-space line:
the captured groups are exactly the indentation and the imports text. -/
theorem matchFrom_build (indent imports : Str)
    (hind : ∀ c ∈ indent, pySpace c = true)
    (hne : imports ≠ [])
    (hhead : ∀ c, imports.head? = some c → pySpace c = false) :
    matchFromCollections (indent ++ str ("from collections import ") ++ imports)
      = some (indent, imports) := by
  have hδ : indent ++ str ("from collections import ") ++ imports
      = indent ++ (str ("from") ++ (' ' :: (str ("collections")
          ++ (' ' :: (str ("import") ++ (' ' :: imports)))))) := by
    rw [List.append_assoc]
    rfl
  have hlstrip : lstrip (indent ++ (str ("from") ++ (' ' :: (str ("collections")
        ++ (' ' :: (str ("import") ++ (' ' :: imports))))))) = str ("from")
        ++ (' ' :: (str ("collections") ++ (' ' :: (str ("import") ++ (' ' :: imports))))) :=
    dropWhile_append_of_head pySpace indent _ hind
      (head_cons_pred pySpace 'f' _ (by decide))
  have hcol : wsLit (str ("collections")) (' ' :: (str ("collections")
        ++ (' ' :: (str ("import") ++ (' ' :: imports)))))
      = some (' ' :: (str ("import") ++ (' ' :: imports))) := by
    unfold wsLit ws1
    dsimp only
    rw [if_pos (show pySpace ' ' = true by decide)]
    rw [dropWhile_eq_self_of_head pySpace
      (str ("collections") ++ (' ' :: (str ("import") ++ (' ' :: imports))))
      (fun d hd => head_cons_pred pySpace 'c' _ (by decide) d hd)]
    dsimp only
    exact dropLit_append _ _
  have himp : wsLit (str ("import")) (' ' :: (str ("import") ++ (' ' :: imports)))
      = some (' ' :: imports) := by
    unfold wsLit ws1
    dsimp only
    rw [if_pos (show pySpace ' ' = true by decide)]
    rw [dropWhile_eq_self_of_head pySpace
      (str ("import") ++ (' ' :: imports))
      (fun d hd => head_cons_pred pySpace 'i' _ (by decide) d hd)]
    dsimp only
    exact dropLit_append _ _
  have hcap : capRest (' ' :: imports) = some imports := by
    unfold capRest
    dsimp only
    rw [if_pos (show pySpace ' ' = true by decide)]
    rw [dropWhile_eq_self_of_head pySpace imports hhead]
    cases himports : imports with
    | nil => exact absurd himports hne
    | cons c cs => simp
  have htake : (indent ++ (str ("from") ++ (' ' :: (str ("collections")
        ++ (' ' :: (str ("import") ++ (' ' :: imports))))))).takeWhile pySpace = indent :=
    takeWhile_append_of_head pySpace indent _ hind
      (head_cons_pred pySpace 'f' _ (by decide))
  rw [hδ]
  unfold matchFromCollections
  rw [show lstrip (indent ++ (str ("from") ++ (' ' :: (str ("collections")
        ++ (' ' :: (str ("import") ++ (' ' :: imports))))))) = str ("from")
        ++ (' ' :: (str ("collections") ++ (' ' :: (str ("import") ++ (' ' :: imports)))))
      from hlstrip]
  rw [dropLit_append]
  dsimp only
  rw [hcol]
  dsimp only
  rw [himp]
  dsimp only
  rw [hcap]
  dsimp only
  rw [htake]

theorem reverse_head_mem (l : Str) (h : l ≠ []) :
    ∃ c rest, l.reverse = c :: rest ∧ c ∈ l := by
  cases hr : l.reverse with
  | nil =>
    have : l = [] := by simpa using congrArg List.reverse hr
    exact absurd this h
  | cons c rest =>
    refine ⟨c, rest, rfl, ?_⟩
    have : c ∈ l.reverse := by rw [hr]; exact List.mem_cons_self _ _
    exact List.mem_reverse.mp this

theorem rstripRN_append (a e : Str) (c : Char) (rest : Str)
    (ha : a.reverse = c :: rest) (hc : (c == '\r' || c == '\n') = false)
    (he : ∀ d ∈ e, (d == '\r' || d == '\n') = true) :
    rstripRN (a ++ e) = a := by
  unfold rstripRN rstripBy
  rw [List.reverse_append]
  rw [dropWhile_append_of_head _ e.reverse a.reverse
    (fun d hd => he d (List.mem_reverse.mp hd))
    (fun d hd => by rw [ha] at hd; injection hd with h; rw [← h]; exact hc)]
  rw [List.reverse_reverse]

theorem endsWith_append_self (p a : Str) : endsWith p (a ++ p) = true := by
  unfold endsWith
  rw [List.reverse_append]
  exact isPre_self_append _ _

theorem endsWith_rn_false (s : Str) (c : Char) (rest : Str)
    (hs : s.reverse = c :: rest) (hc : ¬ c = '\n') :
    endsWith (str ("\r\n")) s = false := by
  unfold endsWith
  rw [show (str ("\r\n")).reverse = ['\n', '\r'] from rfl, hs]
  have hb : ('\n' == c) = false := by
    simp only [beq_eq_false_iff_ne, ne_eq]
    exact fun h => hc h.symm
  simp [isPre, hb]

theorem endsWith_n_false (s : Str) (c : Char) (rest : Str)
    (hs : s.reverse = c :: rest) (hc : ¬ c = '\n') :
    endsWith (str ("\n")) s = false := by
  unfold endsWith
  rw [show (str ("\n")).reverse = ['\n'] from rfl, hs]
  have hb : ('\n' == c) = false := by
    simp only [beq_eq_false_iff_ne, ne_eq]
    exact fun h => hc h.symm
  simp [isPre, hb]

theorem endsWith_rn_false_snd (s : Str) (c : Char) (rest : Str)
    (hs : s.reverse = '\n' :: c :: rest) (hc : ¬ c = '\r') :
    endsWith (str ("\r\n")) s = false := by
  unfold endsWith
  rw [show (str ("\r\n")).reverse = ['\n', '\r'] from rfl, hs]
  have hb : ('\r' == c) = false := by
    simp only [beq_eq_false_iff_ne, ne_eq]
    exact fun h => hc h.symm
  simp [isPre, hb]

/-- Reduction of `process_from_collections_import` on a well-formed
single-line `from collections import ...` statement: the statement parses,
the line-ending style is recognised and re-attached, and the outcome is
decided by the parsed import items. -/
theorem processFrom_line_cases (indent imports ending : Str) (n : Nat)
    (hind : ∀ c ∈ indent, pySpace c = true)
    (hne : imports ≠ [])
    (hhead : ∀ c, imports.head? = some c → pySpace c = false)
    (hclean : ∀ c ∈ imports, (c == '\r' || c == '\n') = false)
    (hend : ending = [] ∨ ending = str ("\n") ∨ ending = str ("\r\n")) :
    processFromCollectionsImport (fromLine indent imports ending) n =
      (if (importItems imports).isEmpty || (importItems imports).contains (str ("*")) then
        ([fromLine indent imports ending], [])
      else if (mutableOf imports).isEmpty then
        ([fromLine indent imports ending], [])
      else if !(remainingOf imports).isEmpty then
        ([indent ++ str ("from collections import ")
            ++ joinSep (str (", ")) (remainingOf imports)
            ++ (splitComment imports).2 ++ ending,
          indent ++ str ("from collections.abc import ")
            ++ joinSep (str (", ")) (mutableOf imports) ++ ending],
         [⟨n, str ("removed MutableMapping from collections import")⟩])
      else
        ([indent ++ str ("from collections.abc import ")
            ++ joinSep (str (", ")) (mutableOf imports)
            ++ (splitComment imports).2 ++ ending],
         [⟨n, str ("replaced collections import with collections.abc for MutableMapping")⟩])) := by
  obtain ⟨c, rest, hrev, hcmem⟩ := reverse_head_mem imports hne
  have hcc : (c == '\r' || c == '\n') = false := hclean c hcmem
  have hcn : ¬ c = '\n' := by
    intro hEq; rw [hEq] at hcc; exact absurd hcc (by decide)
  have hcr : ¬ c = '\r' := by
    intro hEq; rw [hEq] at hcc; exact absurd hcc (by decide)
  have harev : ((indent ++ str ("from collections import ")) ++ imports).reverse
      = c :: (rest ++ (indent ++ str ("from collections import ")).reverse) := by
    rw [List.reverse_append, hrev]; rfl
  have hever : ∀ d ∈ ending, (d == '\r' || d == '\n') = true := by
    intro d hd
    rcases hend with h | h | h <;> subst h
    · cases hd
    · rw [show str ("\n") = ['\n'] from rfl] at hd
      rw [List.mem_singleton.mp hd]; rfl
    · rw [show str ("\r\n") = ['\r', '\n'] from rfl] at hd
      rcases List.mem_pair.mp hd with h' | h' <;> (rw [h']; rfl)
  have hfl : fromLine indent imports ending
      = ((indent ++ str ("from collections import ")) ++ imports) ++ ending := rfl
  have hstrip : rstripRN (fromLine indent imports ending)
      = (indent ++ str ("from collections import ")) ++ imports := by
    rw [hfl]
    exact rstripRN_append _ _ c _ harev hcc hever
  have hle : (if endsWith (str ("\r\n")) (fromLine indent imports ending) then str ("\r\n")
      else if endsWith (str ("\n")) (fromLine indent imports ending) then str ("\n")
      else ([] : Str)) = ending := by
    rcases hend with h | h | h <;> subst h
    · have hrev0 : (fromLine indent imports []).reverse
          = c :: (rest ++ (indent ++ str ("from collections import ")).reverse) := by
        rw [hfl, List.append_nil]; exact harev
      rw [endsWith_rn_false _ c _ hrev0 hcn, endsWith_n_false _ c _ hrev0 hcn]
      simp
    · have hrev1 : (fromLine indent imports (str ("\n"))).reverse
          = '\n' :: c :: (rest ++ (indent ++ str ("from collections import ")).reverse) := by
        rw [hfl, List.reverse_append, harev]; rfl
      have h2 : endsWith (str ("\n")) (fromLine indent imports (str ("\n"))) = true := by
        rw [hfl]; exact endsWith_append_self _ _
      rw [endsWith_rn_false_snd _ c _ hrev1 hcr, h2]
      simp
    · have h1 : endsWith (str ("\r\n")) (fromLine indent imports (str ("\r\n"))) = true := by
        rw [hfl]; exact endsWith_append_self _ _
      rw [h1]
      simp
  obtain ⟨cd, cm, hsc⟩ : ∃ a b, splitComment imports = (a, b) := ⟨_, _, rfl⟩
  have hit : importItems imports = parseImportItems cd := by
    unfold importItems; rw [hsc]
  have hmu : mutableOf imports
      = (parseImportItems cd).filter (fun it => baseImportName it == str ("MutableMapping")) := by
    unfold mutableOf importItems; rw [hsc]
  have hre : remainingOf imports
      = (parseImportItems cd).filter (fun it => !(baseImportName it == str ("MutableMapping"))) := by
    unfold remainingOf importItems; rw [hsc]
  have hcm : (splitComment imports).2 = cm := by rw [hsc]
  simp only [processFromCollectionsImport]
  rw [hstrip, matchFrom_build indent imports hind hne hhead]
  dsimp only
  rw [hle, hsc]
  dsimp only
  rw [hit, hmu, hre]

/-- C6: for a well-formed single-line `from collections import ...`
statement (trimmed after the keyword, no embedded CR or LF, one of the
three line-ending styles), the engine's splitting rule (i) returns the
line byte-identical with no change records when the parsed import list is
empty, contains a wildcard, or names no `MutableMapping` import; (ii) when
some but not all named imports are `MutableMapping` imports, emits two
statements — the remaining imports stay in the `collections` statement,
which keeps the trailing comment, and the moved imports go to a
`collections.abc` statement — both with the original indentation and line
ending, recording one change; (iii) when all named imports are
`MutableMapping` imports, replaces the whole statement by a single
`collections.abc` statement carrying the comment, the indentation and the
line ending, recording one change. -/
theorem C6_single_line_split (indent imports ending : Str) (n : Nat)
    (hind : ∀ c ∈ indent, pySpace c = true)
    (hne : imports ≠ [])
    (hhead : ∀ c, imports.head? = some c → pySpace c = false)
    (hclean : ∀ c ∈ imports, (c == '\r' || c == '\n') = false)
    (hend : ending = [] ∨ ending = str ("\n") ∨ ending = str ("\r\n")) :
    (((importItems imports).isEmpty || (importItems imports).contains (str ("*"))
        || (mutableOf imports).isEmpty) = true →
      processFromCollectionsImport (fromLine indent imports ending) n
        = ([fromLine indent imports ending], []))
    ∧ ((importItems imports).contains (str ("*")) = false →
       (mutableOf imports).isEmpty = false →
       (remainingOf imports).isEmpty = false →
      processFromCollectionsImport (fromLine indent imports ending) n
        = ([indent ++ str ("from collections import ")
              ++ joinSep (str (", ")) (remainingOf imports)
              ++ (splitComment imports).2 ++ ending,
            indent ++ str ("from collections.abc import ")
              ++ joinSep (str (", ")) (mutableOf imports) ++ ending],
           [⟨n, str ("removed MutableMapping from collections import")⟩]))
    ∧ ((importItems imports).contains (str ("*")) = false →
       (mutableOf imports).isEmpty = false →
       (remainingOf imports).isEmpty = true →
      processFromCollectionsImport (fromLine indent imports ending) n
        = ([indent ++ str ("from collections.abc import ")
              ++ joinSep (str (", ")) (mutableOf imports)
              ++ (splitComment imports).2 ++ ending],
           [⟨n, str ("replaced collections import with collections.abc for MutableMapping")⟩])) := by
  have hred := processFrom_line_cases indent imports ending n hind hne hhead hclean hend
  refine ⟨fun h1 => ?_, fun hw hm hr => ?_, fun hw hm hr => ?_⟩
  · rw [hred]
    by_cases hab : ((importItems imports).isEmpty
        || (importItems imports).contains (str ("*"))) = true
    · rw [if_pos hab]
    · have hab' : ((importItems imports).isEmpty
          || (importItems imports).contains (str ("*"))) = false := by
        simpa using hab
      have hc : (mutableOf imports).isEmpty = true := by
        rw [hab'] at h1; simpa using h1
      rw [if_neg hab, hc]
      simp
  · have hie : (importItems imports).isEmpty = false := by
      cases h0 : importItems imports with
      | nil =>
        exfalso
        have hmz : mutableOf imports = [] := by unfold mutableOf; rw [h0]; rfl
        rw [hmz] at hm; exact absurd hm (by decide)
      | cons x xs => rfl
    rw [hred, hie, hw, hm, hr]
    simp
  · have hie : (importItems imports).isEmpty = false := by
      cases h0 : importItems imports with
      | nil =>
        exfalso
        have hmz : mutableOf imports = [] := by unfold mutableOf; rw [h0]; rfl
        rw [hmz] at hm; exact absurd hm (by decide)
      | cons x xs => rfl
    rw [hred, hie, hw, hm, hr]
    simp

/-- C6 witness: the partial-move case on the concrete statement
`"  from collections import OrderedDict, MutableMapping  # keep\n"`: the
engine emits the remaining import with the comment and a separate
`collections.abc` statement, both indented, both with the original line
ending, and records one change. -/
theorem C6_witness :
    processFromCollectionsImport
        (fromLine (str ("  ")) (str ("OrderedDict, MutableMapping  # keep")) (str ("\n"))) 7
      = ([str ("  from collections import OrderedDict# keep\n"),
          str ("  from collections.abc import MutableMapping\n")],
         [⟨7, str ("removed MutableMapping from collections import")⟩]) := by
  have h := (C6_single_line_split (str ("  "))
      (str ("OrderedDict, MutableMapping  # keep")) (str ("\n")) 7
      (by decide) (by decide)
      (by
        intro c hc
        rw [show (str ("OrderedDict, MutableMapping  # keep")).head?
            = some 'O' from rfl] at hc
        injection hc with h2
        rw [← h2]
        decide)
      (by decide) (Or.inr (Or.inl rfl))).2.1 (by decide) (by decide) (by decide)
  rw [h]
  decide

/-! ## Lemmas about the `re.sub` scanner and the import regexes,
leading to C7: the usage substitutions never destroy a
`COLLECTIONS_IMPORT_RE` or `COLLECTIONS_ABC_IMPORT_RE` match, the
rewrite loop therefore keeps a `collections`-family import line alive,
and the insertion goes exactly one past the last such line. -/

theorem bool_or_left {a b : Bool} (h : a = true) : (a || b) = true := by
  rw [h]; rfl

theorem bool_or_right {a b : Bool} (h : b = true) : (a || b) = true := by
  rw [h]; cases a <;> rfl

theorem pySpace_not_word (c : Char) (h : pySpace c = true) : isWordChar c = false := by
  simp only [pySpace, Bool.or_eq_true, beq_iff_eq] at h
  rcases h with ((((h | h) | h) | h) | h) | h <;> subst h <;> decide

theorem pySpace_ne (c p0 : Char) (h : pySpace c = true) (hp : pySpace p0 = false) :
    ¬ c = p0 := by
  intro hEq
  rw [hEq] at h
  rw [h] at hp
  exact absurd hp (by decide)

theorem isPre_append_cancel (u v w : Str) : isPre (u ++ v) (u ++ w) = isPre v w := by
  induction u with
  | nil => rfl
  | cons c cs ih => simp [isPre, ih]

theorem head_pred_of_eq (p : Char → Bool) (rest : Str) (c : Char)
    (h : rest.head? = some c) (hp : p c = false) :
    ∀ d, rest.head? = some d → p d = false := by
  intro d hd
  rw [h] at hd
  injection hd with h2
  rw [← h2]
  exact hp

theorem wsLit_build (lit w rest : Str) (hw : ∀ c ∈ w, pySpace c = true) (hne : w ≠ [])
    (hh : ∀ c, (lit ++ rest).head? = some c → pySpace c = false) :
    wsLit lit (w ++ (lit ++ rest)) = some rest := by
  cases w with
  | nil => exact absurd rfl hne
  | cons d w2 =>
    unfold wsLit ws1
    rw [show (d :: w2) ++ (lit ++ rest) = d :: (w2 ++ (lit ++ rest)) from rfl]
    dsimp only
    rw [if_pos (hw d (List.mem_cons_self _ _))]
    rw [dropWhile_append_of_head pySpace w2 (lit ++ rest)
      (fun c hc => hw c (List.mem_cons_of_mem _ hc)) hh]
    exact dropLit_append _ _

theorem ws1_sound (r r2 : Str) (h : ws1 r = some r2) :
    ∃ w, r = w ++ r2 ∧ w ≠ [] ∧ ∀ c ∈ w, pySpace c = true := by
  cases r with
  | nil => exact Option.noConfusion h
  | cons c cs =>
    unfold ws1 at h
    dsimp only at h
    by_cases hc : pySpace c = true
    · rw [if_pos hc] at h
      injection h with h2
      refine ⟨c :: cs.takeWhile pySpace, ?_, by simp, ?_⟩
      · rw [← h2]
        show c :: cs = (c :: cs.takeWhile pySpace) ++ cs.dropWhile pySpace
        rw [List.cons_append, List.takeWhile_append_dropWhile]
      · intro d hd
        rcases List.mem_cons.mp hd with rfl | hd2
        · exact hc
        · exact List.mem_takeWhile_imp hd2
    · rw [if_neg hc] at h
      exact Option.noConfusion h

theorem wsLit_sound (lit r r2 : Str) (h : wsLit lit r = some r2) :
    ∃ w, r = w ++ (lit ++ r2) ∧ w ≠ [] ∧ ∀ c ∈ w, pySpace c = true := by
  unfold wsLit at h
  cases hw : ws1 r with
  | none => rw [hw] at h; exact Option.noConfusion h
  | some r1 =>
    rw [hw] at h
    obtain ⟨w, hr, hne, hsp⟩ := ws1_sound r r1 hw
    exact ⟨w, by rw [hr, dropLit_sound lit r1 r2 h], hne, hsp⟩

theorem noOcc_append (pat b u v : Str)
    (hu : ∀ x y, u = x ++ y → y ≠ [] → occAt pat (y ++ (v ++ b)) = false)
    (hv : ∀ x y, v = x ++ y → y ≠ [] → occAt pat (y ++ b) = false) :
    ∀ x y, u ++ v = x ++ y → y ≠ [] → occAt pat (y ++ b) = false := by
  intro x y hxy hne
  rcases List.append_eq_append_iff.mp hxy with ⟨a2, hx, hv2⟩ | ⟨c2, hu2, hy⟩
  · exact hv a2 y hv2 hne
  · by_cases hc : c2 = []
    · subst hc
      rw [List.nil_append] at hy
      exact hv [] y (by rw [hy, List.nil_append]) hne
    · have h := hu x c2 hu2 hc
      rw [hy, List.append_assoc]
      exact h

theorem noOcc_of_heads (p0 : Char) (ps b a : Str)
    (h : ∀ c ∈ a, ¬ c = p0) :
    ∀ x y, a = x ++ y → y ≠ [] → occAt (p0 :: ps) (y ++ b) = false := by
  intro x y hxy hne
  cases y with
  | nil => exact absurd rfl hne
  | cons c cs =>
    have hc : c ∈ a := by
      rw [hxy]; exact List.mem_append_right _ (List.mem_cons_self _ _)
    have hpc : (p0 == c) = false := by
      rw [beq_eq_false_iff_ne]
      exact fun h2 => (h c hc) h2.symm
    unfold occAt
    rw [show isPre (p0 :: ps) ((c :: cs) ++ b) = ((p0 == c) && isPre ps (cs ++ b)) from rfl,
        hpc]
    rfl

theorem noOcc_spaces (τ b w : Str) (hw : ∀ c ∈ w, pySpace c = true) :
    ∀ x y, w = x ++ y → y ≠ [] → occAt (str ("collections.") ++ τ) (y ++ b) = false := by
  rw [show str ("collections.") ++ τ = 'c' :: (str ("ollections.") ++ τ) from rfl]
  exact noOcc_of_heads 'c' _ b w (fun c hc => pySpace_ne c 'c' (hw c hc) (by decide))

theorem noOcc_import (τ b : Str) :
    ∀ x y, str ("import") = x ++ y → y ≠ [] →
      occAt (str ("collections.") ++ τ) (y ++ b) = false := by
  rw [show str ("collections.") ++ τ = 'c' :: (str ("ollections.") ++ τ) from rfl]
  exact noOcc_of_heads 'c' _ b _ (by decide)

theorem noOcc_from (τ b : Str) :
    ∀ x y, str ("from") = x ++ y → y ≠ [] →
      occAt (str ("collections.") ++ τ) (y ++ b) = false := by
  rw [show str ("collections.") ++ τ = 'c' :: (str ("ollections.") ++ τ) from rfl]
  exact noOcc_of_heads 'c' _ b _ (by decide)

theorem noOcc_collections (τ b : Str)
    (hJ : occAt (str ("collections.") ++ τ) (str ("collections") ++ b) = false) :
    ∀ x y, str ("collections") = x ++ y → y ≠ [] →
      occAt (str ("collections.") ++ τ) (y ++ b) = false := by
  intro x y hxy hne
  have hy : y ∈ (str ("collections")).tails := by
    rw [List.mem_tails]
    exact ⟨x, hxy.symm⟩
  rw [show (str ("collections")).tails
      = [str ("collections"), str ("ollections"), str ("llections"), str ("lections"),
         str ("ections"), str ("ctions"), str ("tions"), str ("ions"), str ("ons"),
         str ("ns"), str ("s"), []] from rfl] at hy
  simp only [List.mem_cons, List.not_mem_nil, or_false] at hy
  rcases hy with rfl | rfl | rfl | rfl | rfl | rfl | rfl | rfl | rfl | rfl | rfl | rfl
  · exact hJ
  · rfl
  · rfl
  · rfl
  · rfl
  · rfl
  · rfl
  · rfl
  · rfl
  · rfl
  · rfl
  · exact absurd rfl hne

theorem noOcc_collections_ws (τ b : Str)
    (hb : ∃ c0 b2, b = c0 :: b2 ∧ pySpace c0 = true) :
    ∀ x y, str ("collections") = x ++ y → y ≠ [] →
      occAt (str ("collections.") ++ τ) (y ++ b) = false := by
  apply noOcc_collections
  obtain ⟨c0, b2, rfl, hsp⟩ := hb
  unfold occAt
  have h1 : isPre (str ("collections.") ++ τ) (str ("collections") ++ (c0 :: b2)) = false := by
    rw [show str ("collections.") ++ τ = str ("collections") ++ ('.' :: τ) from rfl,
        isPre_append_cancel]
    show (('.' == c0) && isPre τ b2) = false
    rw [show ('.' == c0) = false from by
      rw [beq_eq_false_iff_ne]
      exact fun h2 => pySpace_ne c0 '.' hsp (by decide) h2.symm]
    rfl
  rw [h1]
  rfl

theorem noOcc_collections_abc (h0 : Char) (τ2 b : Str) (hh : (h0 == 'a') = false)
    (hb : noWordAhead b = true) :
    ∀ x y, str ("collections.abc") = x ++ y → y ≠ [] →
      occAt (str ("collections.") ++ (h0 :: τ2)) (y ++ b) = false := by
  intro x y hxy hne
  have hy : y ∈ (str ("collections.abc")).tails := by
    rw [List.mem_tails]
    exact ⟨x, hxy.symm⟩
  rw [show (str ("collections.abc")).tails
      = [str ("collections.abc"), str ("ollections.abc"), str ("llections.abc"),
         str ("lections.abc"), str ("ections.abc"), str ("ctions.abc"), str ("tions.abc"),
         str ("ions.abc"), str ("ons.abc"), str ("ns.abc"), str ("s.abc"), str (".abc"),
         str ("abc"), str ("bc"), str ("c"), []] from rfl] at hy
  simp only [List.mem_cons, List.not_mem_nil, or_false] at hy
  rcases hy with rfl | rfl | rfl | rfl | rfl | rfl | rfl | rfl | rfl | rfl | rfl | rfl
    | rfl | rfl | rfl | rfl
  · unfold occAt
    have h1 : isPre (str ("collections.") ++ (h0 :: τ2))
        (str ("collections.abc") ++ b) = false := by
      rw [show str ("collections.abc") ++ b
          = str ("collections.") ++ (str ("abc") ++ b) from rfl,
          isPre_append_cancel]
      show ((h0 == 'a') && isPre τ2 (str ("bc") ++ b)) = false
      rw [hh]
      rfl
    rw [h1]
    rfl
  · rfl
  · rfl
  · rfl
  · rfl
  · rfl
  · rfl
  · rfl
  · rfl
  · rfl
  · rfl
  · rfl
  · rfl
  · rfl
  · unfold occAt
    have h1 : isPre (str ("collections.") ++ (h0 :: τ2)) (str ("c") ++ b) = false := by
      cases b with
      | nil => rfl
      | cons c0 b2 =>
        show (('c' == 'c') && (('o' == c0) && isPre (str ("llections.") ++ (h0 :: τ2)) b2))
            = false
        rw [show ('o' == c0) = false from by
          rw [beq_eq_false_iff_ne]
          intro h2
          have hb2 : (!isWordChar c0) = true := hb
          rw [← h2] at hb2
          exact absurd hb2 (by decide)]
        rfl
    rw [h1]
    rfl
  · exact absurd rfl hne

theorem noOcc_abc (τ b : Str) (hb : noWordAhead b = true) :
    ∀ x y, str ("abc") = x ++ y → y ≠ [] →
      occAt (str ("collections.") ++ τ) (y ++ b) = false := by
  intro x y hxy hne
  have hy : y ∈ (str ("abc")).tails := by
    rw [List.mem_tails]
    exact ⟨x, hxy.symm⟩
  rw [show (str ("abc")).tails = [str ("abc"), str ("bc"), str ("c"), []] from rfl] at hy
  simp only [List.mem_cons, List.not_mem_nil, or_false] at hy
  rcases hy with rfl | rfl | rfl | rfl
  · rfl
  · rfl
  · unfold occAt
    have h1 : isPre (str ("collections.") ++ τ) (str ("c") ++ b) = false := by
      cases b with
      | nil => rfl
      | cons c0 b2 =>
        show (('c' == 'c') && (('o' == c0) && isPre (str ("llections.") ++ τ) b2)) = false
        rw [show ('o' == c0) = false from by
          rw [beq_eq_false_iff_ne]
          intro h2
          have hb2 : (!isWordChar c0) = true := hb
          rw [← h2] at hb2
          exact absurd hb2 (by decide)]
        rfl
    rw [h1]
    rfl
  · exact absurd rfl hne

theorem substAux_step_no_match (pat rep : Str) (prev : Option Char) (c : Char) (cs : Str)
    (h : occAt pat (c :: cs) = false) :
    substAux pat rep prev 0 (c :: cs)
      = (c :: (substAux pat rep (some c) 0 cs).1, (substAux pat rep (some c) 0 cs).2) := by
  unfold occAt at h
  rcases Bool.and_eq_false_iff.mp h with h1 | h1
  · simp [substAux, h1]
  · simp [substAux, h1]

theorem substAux_step_match (pat rep : Str) (prev : Option Char) (c : Char) (cs : Str)
    (hprev : prev = none ∨ ∃ p, prev = some p ∧ isWordChar p = false)
    (hocc : occAt pat (c :: cs) = true)
    (hne : pat.isEmpty = false) :
    substAux pat rep prev 0 (c :: cs)
      = (rep ++ (substAux pat rep (some c) (pat.length - 1) cs).1, true) := by
  unfold occAt at hocc
  rcases Bool.and_eq_true_iff.mp hocc with ⟨h1, h2⟩
  rcases hprev with rfl | ⟨p, rfl, hp⟩
  · simp [substAux, h1, h2, hne]
  · simp [substAux, h1, h2, hne, hp]

theorem substAux_prefix_inert (pat rep b : Str) :
    ∀ (a : Str) (prev : Option Char) (d : Char),
      (∀ x y, a = x ++ y → y ≠ [] → occAt pat (y ++ b) = false) →
      a.getLast? = some d →
      substAux pat rep prev 0 (a ++ b)
        = (a ++ (substAux pat rep (some d) 0 b).1, (substAux pat rep (some d) 0 b).2) := by
  intro a
  induction a with
  | nil =>
    intro prev d h hd
    exact Option.noConfusion hd
  | cons c cs ih =>
    intro prev d h hd
    have hcond : occAt pat ((c :: cs) ++ b) = false := h [] (c :: cs) rfl (by simp)
    rw [show (c :: cs) ++ b = c :: (cs ++ b) from rfl] at hcond
    rw [show (c :: cs) ++ b = c :: (cs ++ b) from rfl,
        substAux_step_no_match pat rep prev c (cs ++ b) hcond]
    cases cs with
    | nil =>
      have hdc : d = c := by
        rw [List.getLast?_singleton] at hd
        injection hd with h2
        exact h2.symm
      subst hdc
      rfl
    | cons c2 cs2 =>
      have hd2 : (c2 :: cs2).getLast? = some d := by
        rw [List.getLast?_cons_cons] at hd
        exact hd
      rw [ih (some c) d (fun x y hxy hne => h (c :: x) y (by rw [hxy]; rfl) hne) hd2]
      rfl

theorem famMatch_build_imp (w0 w1 t : Str)
    (h0 : ∀ c ∈ w0, pySpace c = true) (h1 : ∀ c ∈ w1, pySpace c = true)
    (hw1 : w1 ≠ []) (ht : noWordAhead t = true) :
    famMatch (w0 ++ str ("import") ++ w1 ++ str ("collections") ++ t) = true := by
  have hδ : w0 ++ str ("import") ++ w1 ++ str ("collections") ++ t
      = w0 ++ (str ("import") ++ (w1 ++ (str ("collections") ++ t))) := by
    simp [List.append_assoc]
  have hl : lstrip (w0 ++ (str ("import") ++ (w1 ++ (str ("collections") ++ t))))
      = str ("import") ++ (w1 ++ (str ("collections") ++ t)) :=
    dropWhile_append_of_head pySpace w0 _ h0
      (head_pred_of_eq pySpace _ 'i' rfl (by decide))
  rw [hδ]
  unfold famMatch
  rw [hl]
  apply bool_or_left
  unfold altImportCollections
  rw [dropLit_append]
  dsimp only
  rw [wsLit_build (str ("collections")) w1 t h1 hw1
    (head_pred_of_eq pySpace _ 'c' rfl (by decide))]
  dsimp only
  exact ht

theorem famMatch_build_from (w0 w1 w2 t : Str)
    (h0 : ∀ c ∈ w0, pySpace c = true) (h1 : ∀ c ∈ w1, pySpace c = true)
    (h2 : ∀ c ∈ w2, pySpace c = true)
    (hw1 : w1 ≠ []) (hw2 : w2 ≠ []) (ht : noWordAhead t = true) :
    famMatch (w0 ++ str ("from") ++ w1 ++ str ("collections") ++ w2 ++ str ("import") ++ t)
      = true := by
  have hδ : w0 ++ str ("from") ++ w1 ++ str ("collections") ++ w2 ++ str ("import") ++ t
      = w0 ++ (str ("from") ++ (w1 ++ (str ("collections")
          ++ (w2 ++ (str ("import") ++ t))))) := by
    simp [List.append_assoc]
  have hl : lstrip (w0 ++ (str ("from") ++ (w1 ++ (str ("collections")
        ++ (w2 ++ (str ("import") ++ t))))))
      = str ("from") ++ (w1 ++ (str ("collections") ++ (w2 ++ (str ("import") ++ t)))) :=
    dropWhile_append_of_head pySpace w0 _ h0
      (head_pred_of_eq pySpace _ 'f' rfl (by decide))
  rw [hδ]
  unfold famMatch
  rw [hl]
  apply bool_or_right
  unfold altFromCollectionsImport
  rw [dropLit_append]
  dsimp only
  rw [wsLit_build (str ("collections")) w1 (w2 ++ (str ("import") ++ t)) h1 hw1
    (head_pred_of_eq pySpace _ 'c' rfl (by decide))]
  dsimp only
  rw [wsLit_build (str ("import")) w2 t h2 hw2
    (head_pred_of_eq pySpace _ 'i' rfl (by decide))]
  dsimp only
  exact ht

theorem abcMatch_build_imp (w0 w1 t : Str)
    (h0 : ∀ c ∈ w0, pySpace c = true) (h1 : ∀ c ∈ w1, pySpace c = true)
    (hw1 : w1 ≠ []) (ht : noWordAhead t = true) :
    abcMatch (w0 ++ str ("import") ++ w1 ++ str ("collections.abc") ++ t) = true := by
  have hδ : w0 ++ str ("import") ++ w1 ++ str ("collections.abc") ++ t
      = w0 ++ (str ("import") ++ (w1 ++ (str ("collections.abc") ++ t))) := by
    simp [List.append_assoc]
  have hl : lstrip (w0 ++ (str ("import") ++ (w1 ++ (str ("collections.abc") ++ t))))
      = str ("import") ++ (w1 ++ (str ("collections.abc") ++ t)) :=
    dropWhile_append_of_head pySpace w0 _ h0
      (head_pred_of_eq pySpace _ 'i' rfl (by decide))
  rw [hδ]
  unfold abcMatch
  dsimp only
  rw [hl]
  apply bool_or_left
  apply bool_or_left
  rw [dropLit_append]
  dsimp only
  rw [wsLit_build (str ("collections.abc")) w1 t h1 hw1
    (head_pred_of_eq pySpace _ 'c' rfl (by decide))]
  dsimp only
  exact ht

theorem abcMatch_build_from (w0 w1 w2 t : Str)
    (h0 : ∀ c ∈ w0, pySpace c = true) (h1 : ∀ c ∈ w1, pySpace c = true)
    (h2 : ∀ c ∈ w2, pySpace c = true)
    (hw1 : w1 ≠ []) (hw2 : w2 ≠ []) (ht : noWordAhead t = true) :
    abcMatch (w0 ++ str ("from") ++ w1 ++ str ("collections.abc") ++ w2
        ++ str ("import") ++ t) = true := by
  have hδ : w0 ++ str ("from") ++ w1 ++ str ("collections.abc") ++ w2 ++ str ("import") ++ t
      = w0 ++ (str ("from") ++ (w1 ++ (str ("collections.abc")
          ++ (w2 ++ (str ("import") ++ t))))) := by
    simp [List.append_assoc]
  have hl : lstrip (w0 ++ (str ("from") ++ (w1 ++ (str ("collections.abc")
        ++ (w2 ++ (str ("import") ++ t))))))
      = str ("from") ++ (w1 ++ (str ("collections.abc") ++ (w2 ++ (str ("import") ++ t)))) :=
    dropWhile_append_of_head pySpace w0 _ h0
      (head_pred_of_eq pySpace _ 'f' rfl (by decide))
  rw [hδ]
  unfold abcMatch
  dsimp only
  rw [hl]
  apply bool_or_left
  apply bool_or_right
  rw [dropLit_append]
  dsimp only
  rw [wsLit_build (str ("collections.abc")) w1 (w2 ++ (str ("import") ++ t)) h1 hw1
    (head_pred_of_eq pySpace _ 'c' rfl (by decide))]
  dsimp only
  rw [wsLit_build (str ("import")) w2 t h2 hw2
    (head_pred_of_eq pySpace _ 'i' rfl (by decide))]
  dsimp only
  exact ht

theorem abcMatch_build_from_abc (w0 w1 w2 w3 t : Str)
    (h0 : ∀ c ∈ w0, pySpace c = true) (h1 : ∀ c ∈ w1, pySpace c = true)
    (h2 : ∀ c ∈ w2, pySpace c = true) (h3 : ∀ c ∈ w3, pySpace c = true)
    (hw1 : w1 ≠ []) (hw2 : w2 ≠ []) (hw3 : w3 ≠ []) (ht : noWordAhead t = true) :
    abcMatch (w0 ++ str ("from") ++ w1 ++ str ("collections") ++ w2 ++ str ("import")
        ++ w3 ++ str ("abc") ++ t) = true := by
  have hδ : w0 ++ str ("from") ++ w1 ++ str ("collections") ++ w2 ++ str ("import")
        ++ w3 ++ str ("abc") ++ t
      = w0 ++ (str ("from") ++ (w1 ++ (str ("collections") ++ (w2 ++ (str ("import")
          ++ (w3 ++ (str ("abc") ++ t))))))) := by
    simp [List.append_assoc]
  have hl : lstrip (w0 ++ (str ("from") ++ (w1 ++ (str ("collections")
        ++ (w2 ++ (str ("import") ++ (w3 ++ (str ("abc") ++ t))))))))
      = str ("from") ++ (w1 ++ (str ("collections") ++ (w2 ++ (str ("import")
          ++ (w3 ++ (str ("abc") ++ t)))))) :=
    dropWhile_append_of_head pySpace w0 _ h0
      (head_pred_of_eq pySpace _ 'f' rfl (by decide))
  rw [hδ]
  unfold abcMatch
  dsimp only
  rw [hl]
  apply bool_or_right
  rw [dropLit_append]
  dsimp only
  rw [wsLit_build (str ("collections")) w1 (w2 ++ (str ("import")
      ++ (w3 ++ (str ("abc") ++ t)))) h1 hw1
    (head_pred_of_eq pySpace _ 'c' rfl (by decide))]
  dsimp only
  rw [wsLit_build (str ("import")) w2 (w3 ++ (str ("abc") ++ t)) h2 hw2
    (head_pred_of_eq pySpace _ 'i' rfl (by decide))]
  dsimp only
  rw [wsLit_build (str ("abc")) w3 t h3 hw3
    (head_pred_of_eq pySpace _ 'a' rfl (by decide))]
  dsimp only
  exact ht

theorem famMatch_decomp (s : Str) (h : famMatch s = true) :
    (∃ w0 w1 t, s = w0 ++ str ("import") ++ w1 ++ str ("collections") ++ t
       ∧ (∀ c ∈ w0, pySpace c = true) ∧ (∀ c ∈ w1, pySpace c = true)
       ∧ w1 ≠ [] ∧ noWordAhead t = true)
    ∨ (∃ w0 w1 w2 t,
        s = w0 ++ str ("from") ++ w1 ++ str ("collections") ++ w2 ++ str ("import") ++ t
       ∧ (∀ c ∈ w0, pySpace c = true) ∧ (∀ c ∈ w1, pySpace c = true)
       ∧ (∀ c ∈ w2, pySpace c = true) ∧ w1 ≠ [] ∧ w2 ≠ [] ∧ noWordAhead t = true) := by
  have hsplit : s.takeWhile pySpace ++ lstrip s = s := List.takeWhile_append_dropWhile pySpace s
  unfold famMatch at h
  rcases Bool.or_eq_true_iff.mp h with h1 | h1
  · left
    unfold altImportCollections at h1
    cases hd : dropLit (str ("import")) (lstrip s) with
    | none => rw [hd] at h1; dsimp only at h1; exact absurd h1 (by decide)
    | some r1 =>
      rw [hd] at h1
      dsimp only at h1
      cases hw : wsLit (str ("collections")) r1 with
      | none => rw [hw] at h1; dsimp only at h1; exact absurd h1 (by decide)
      | some r2 =>
        rw [hw] at h1
        dsimp only at h1
        obtain ⟨w, hr1, hwne, hwsp⟩ := wsLit_sound _ r1 r2 hw
        have hls := dropLit_sound _ _ _ hd
        refine ⟨s.takeWhile pySpace, w, r2, ?_,
          fun c hc => List.mem_takeWhile_imp hc, hwsp, hwne, h1⟩
        conv_lhs => rw [← hsplit]
        rw [hls, hr1]
        simp [List.append_assoc]
  · right
    unfold altFromCollectionsImport at h1
    cases hd : dropLit (str ("from")) (lstrip s) with
    | none => rw [hd] at h1; dsimp only at h1; exact absurd h1 (by decide)
    | some r1 =>
      rw [hd] at h1
      dsimp only at h1
      cases hw : wsLit (str ("collections")) r1 with
      | none => rw [hw] at h1; dsimp only at h1; exact absurd h1 (by decide)
      | some r2 =>
        rw [hw] at h1
        dsimp only at h1
        cases hw2 : wsLit (str ("import")) r2 with
        | none => rw [hw2] at h1; dsimp only at h1; exact absurd h1 (by decide)
        | some r3 =>
          rw [hw2] at h1
          dsimp only at h1
          obtain ⟨w, hr1, hwne, hwsp⟩ := wsLit_sound _ r1 r2 hw
          obtain ⟨v, hr2, hvne, hvsp⟩ := wsLit_sound _ r2 r3 hw2
          have hls := dropLit_sound _ _ _ hd
          refine ⟨s.takeWhile pySpace, w, v, r3, ?_,
            fun c hc => List.mem_takeWhile_imp hc, hwsp, hvsp, hwne, hvne, h1⟩
          conv_lhs => rw [← hsplit]
          rw [hls, hr1, hr2]
          simp [List.append_assoc]

theorem abcMatch_decomp (s : Str) (h : abcMatch s = true) :
    (∃ w0 w1 t, s = w0 ++ str ("import") ++ w1 ++ str ("collections.abc") ++ t
       ∧ (∀ c ∈ w0, pySpace c = true) ∧ (∀ c ∈ w1, pySpace c = true)
       ∧ w1 ≠ [] ∧ noWordAhead t = true)
    ∨ (∃ w0 w1 w2 t,
        s = w0 ++ str ("from") ++ w1 ++ str ("collections.abc") ++ w2 ++ str ("import") ++ t
       ∧ (∀ c ∈ w0, pySpace c = true) ∧ (∀ c ∈ w1, pySpace c = true)
       ∧ (∀ c ∈ w2, pySpace c = true) ∧ w1 ≠ [] ∧ w2 ≠ [] ∧ noWordAhead t = true)
    ∨ (∃ w0 w1 w2 w3 t,
        s = w0 ++ str ("from") ++ w1 ++ str ("collections") ++ w2 ++ str ("import")
            ++ w3 ++ str ("abc") ++ t
       ∧ (∀ c ∈ w0, pySpace c = true) ∧ (∀ c ∈ w1, pySpace c = true)
       ∧ (∀ c ∈ w2, pySpace c = true) ∧ (∀ c ∈ w3, pySpace c = true)
       ∧ w1 ≠ [] ∧ w2 ≠ [] ∧ w3 ≠ [] ∧ noWordAhead t = true) := by
  have hsplit : s.takeWhile pySpace ++ lstrip s = s := List.takeWhile_append_dropWhile pySpace s
  unfold abcMatch at h
  dsimp only at h
  rcases Bool.or_eq_true_iff.mp h with h12 | h3
  · rcases Bool.or_eq_true_iff.mp h12 with h1 | h2
    · left
      cases hd : dropLit (str ("import")) (lstrip s) with
      | none => rw [hd] at h1; dsimp only at h1; exact absurd h1 (by decide)
      | some r1 =>
        rw [hd] at h1
        dsimp only at h1
        cases hw : wsLit (str ("collections.abc")) r1 with
        | none => rw [hw] at h1; dsimp only at h1; exact absurd h1 (by decide)
        | some r2 =>
          rw [hw] at h1
          dsimp only at h1
          obtain ⟨w, hr1, hwne, hwsp⟩ := wsLit_sound _ r1 r2 hw
          have hls := dropLit_sound _ _ _ hd
          refine ⟨s.takeWhile pySpace, w, r2, ?_,
            fun c hc => List.mem_takeWhile_imp hc, hwsp, hwne, h1⟩
          conv_lhs => rw [← hsplit]
          rw [hls, hr1]
          simp [List.append_assoc]
    · right; left
      cases hd : dropLit (str ("from")) (lstrip s) with
      | none => rw [hd] at h2; dsimp only at h2; exact absurd h2 (by decide)
      | some r1 =>
        rw [hd] at h2
        dsimp only at h2
        cases hw : wsLit (str ("collections.abc")) r1 with
        | none => rw [hw] at h2; dsimp only at h2; exact absurd h2 (by decide)
        | some r2 =>
          rw [hw] at h2
          dsimp only at h2
          cases hw2 : wsLit (str ("import")) r2 with
          | none => rw [hw2] at h2; dsimp only at h2; exact absurd h2 (by decide)
          | some r3 =>
            rw [hw2] at h2
            dsimp only at h2
            obtain ⟨w, hr1, hwne, hwsp⟩ := wsLit_sound _ r1 r2 hw
            obtain ⟨v, hr2, hvne, hvsp⟩ := wsLit_sound _ r2 r3 hw2
            have hls := dropLit_sound _ _ _ hd
            refine ⟨s.takeWhile pySpace, w, v, r3, ?_,
              fun c hc => List.mem_takeWhile_imp hc, hwsp, hvsp, hwne, hvne, h2⟩
            conv_lhs => rw [← hsplit]
            rw [hls, hr1, hr2]
            simp [List.append_assoc]
  · right; right
    cases hd : dropLit (str ("from")) (lstrip s) with
    | none => rw [hd] at h3; dsimp only at h3; exact absurd h3 (by decide)
    | some r1 =>
      rw [hd] at h3
      dsimp only at h3
      cases hw : wsLit (str ("collections")) r1 with
      | none => rw [hw] at h3; dsimp only at h3; exact absurd h3 (by decide)
      | some r2 =>
        rw [hw] at h3
        dsimp only at h3
        cases hw2 : wsLit (str ("import")) r2 with
        | none => rw [hw2] at h3; dsimp only at h3; exact absurd h3 (by decide)
        | some r3 =>
          rw [hw2] at h3
          dsimp only at h3
          cases hw3 : wsLit (str ("abc")) r3 with
          | none => rw [hw3] at h3; dsimp only at h3; exact absurd h3 (by decide)
          | some r4 =>
            rw [hw3] at h3
            dsimp only at h3
            obtain ⟨w, hr1, hwne, hwsp⟩ := wsLit_sound _ r1 r2 hw
            obtain ⟨v, hr2, hvne, hvsp⟩ := wsLit_sound _ r2 r3 hw2
            obtain ⟨u, hr3, hune, husp⟩ := wsLit_sound _ r3 r4 hw3
            have hls := dropLit_sound _ _ _ hd
            refine ⟨s.takeWhile pySpace, w, v, u, r4, ?_,
              fun c hc => List.mem_takeWhile_imp hc, hwsp, hvsp, husp, hwne, hvne, hune, h3⟩
            conv_lhs => rw [← hsplit]
            rw [hls, hr1, hr2, hr3]
            simp [List.append_assoc]

theorem substAux_head_nonword (p0 : Char) (ps rep : Str) (hw : isWordChar p0 = true) :
    ∀ (t : Str) (prev : Option Char), noWordAhead t = true →
      noWordAhead ((substAux (p0 :: ps) rep prev 0 t).1) = true := by
  intro t prev ht
  cases t with
  | nil => rfl
  | cons c cs =>
    have hc : (p0 == c) = false := by
      rw [beq_eq_false_iff_ne]
      intro hEq
      have ht2 : (!isWordChar c) = true := ht
      rw [← hEq] at ht2
      rw [hw] at ht2
      exact absurd ht2 (by decide)
    have hocc : occAt (p0 :: ps) (c :: cs) = false := by
      unfold occAt
      rw [show isPre (p0 :: ps) (c :: cs) = ((p0 == c) && isPre ps cs) from rfl, hc]
      rfl
    rw [substAux_step_no_match (p0 :: ps) rep prev c cs hocc]
    exact ht

theorem pySub_fam (τ z : Str) (hz : famMatch z = true) :
    famMatch (pySub (str ("collections.") ++ τ) (str ("collections.abc.") ++ τ) z).1
      = true := by
  unfold pySub
  rcases famMatch_decomp z hz with
    ⟨w0, w1, t, hdec, h0, h1, hw1, ht⟩ | ⟨w0, w1, w2, t, hdec, h0, h1, h2, hw1, hw2, ht⟩
  · subst hdec
    obtain ⟨d, hd⟩ : ∃ d, w1.getLast? = some d := by
      cases hgl : w1.getLast? with
      | none => exact absurd (List.getLast?_eq_none_iff.mp hgl) hw1
      | some d => exact ⟨d, rfl⟩
    have hdsp : pySpace d = true := h1 d (List.mem_of_getLast?_eq_some hd)
    have hlast : (w0 ++ str ("import") ++ w1).getLast? = some d := by
      rw [List.getLast?_append, hd]
      rfl
    have hno : ∀ x y, w0 ++ str ("import") ++ w1 = x ++ y → y ≠ [] →
        occAt (str ("collections.") ++ τ) (y ++ (str ("collections") ++ t)) = false :=
      noOcc_append (str ("collections.") ++ τ) (str ("collections") ++ t)
        (w0 ++ str ("import")) w1
        (noOcc_append (str ("collections.") ++ τ) (w1 ++ (str ("collections") ++ t))
          w0 (str ("import"))
          (noOcc_spaces τ _ w0 h0)
          (noOcc_import τ _))
        (noOcc_spaces τ _ w1 h1)
    cases hJ : occAt (str ("collections.") ++ τ) (str ("collections") ++ t) with
    | true =>
      rw [show w0 ++ str ("import") ++ w1 ++ str ("collections") ++ t
          = (w0 ++ str ("import") ++ w1) ++ (str ("collections") ++ t) from by
        simp [List.append_assoc]]
      obtain ⟨X, hX⟩ : ∃ X, substAux (str ("collections.") ++ τ)
            (str ("collections.abc.") ++ τ) (some d) 0 (str ("collections") ++ t)
          = ((str ("collections.abc.") ++ τ) ++ X, true) := by
        refine ⟨(substAux (str ("collections.") ++ τ) (str ("collections.abc.") ++ τ)
            (some 'c') ((str ("collections.") ++ τ).length - 1)
            (str ("ollections") ++ t)).1, ?_⟩
        rw [show str ("collections") ++ t = 'c' :: (str ("ollections") ++ t) from rfl]
        exact substAux_step_match _ _ (some d) 'c' (str ("ollections") ++ t)
          (Or.inr ⟨d, rfl, pySpace_not_word d hdsp⟩) hJ rfl
      rw [substAux_prefix_inert (str ("collections.") ++ τ) (str ("collections.abc.") ++ τ)
          (str ("collections") ++ t) (w0 ++ str ("import") ++ w1) none d hno hlast]
      dsimp only
      rw [hX]
      dsimp only
      rw [show (w0 ++ str ("import") ++ w1) ++ ((str ("collections.abc.") ++ τ) ++ X)
          = w0 ++ str ("import") ++ w1 ++ str ("collections") ++ ((str (".abc.") ++ τ) ++ X)
          from by
        rw [show str ("collections.abc.") ++ τ
            = str ("collections") ++ (str (".abc.") ++ τ) from rfl]
        simp [List.append_assoc]]
      exact famMatch_build_imp w0 w1 ((str (".abc.") ++ τ) ++ X) h0 h1 hw1 rfl
    | false =>
      have hno4 : ∀ x y, w0 ++ str ("import") ++ w1 ++ str ("collections") = x ++ y →
          y ≠ [] → occAt (str ("collections.") ++ τ) (y ++ t) = false :=
        noOcc_append (str ("collections.") ++ τ) t
          (w0 ++ str ("import") ++ w1) (str ("collections"))
          hno
          (noOcc_collections τ t hJ)
      have hlast4 : (w0 ++ str ("import") ++ w1 ++ str ("collections")).getLast?
          = some 's' := by
        rw [List.getLast?_append]
        rfl
      rw [substAux_prefix_inert (str ("collections.") ++ τ) (str ("collections.abc.") ++ τ)
          t (w0 ++ str ("import") ++ w1 ++ str ("collections")) none 's' hno4 hlast4]
      dsimp only
      have hnw : noWordAhead ((substAux (str ("collections.") ++ τ)
          (str ("collections.abc.") ++ τ) (some 's') 0 t).1) = true :=
        substAux_head_nonword 'c' (str ("ollections.") ++ τ)
          (str ("collections.abc.") ++ τ) (by decide) t (some 's') ht
      exact famMatch_build_imp w0 w1 _ h0 h1 hw1 hnw
  · subst hdec
    have hb : ∃ c0 b2, w2 ++ (str ("import") ++ t) = c0 :: b2 ∧ pySpace c0 = true := by
      cases w2 with
      | nil => exact absurd rfl hw2
      | cons c0 w2b =>
        exact ⟨c0, w2b ++ (str ("import") ++ t), rfl, h2 c0 (List.mem_cons_self _ _)⟩
    have hno6 : ∀ x y, w0 ++ str ("from") ++ w1 ++ str ("collections") ++ w2
          ++ str ("import") = x ++ y → y ≠ [] →
        occAt (str ("collections.") ++ τ) (y ++ t) = false :=
      noOcc_append (str ("collections.") ++ τ) t
        (w0 ++ str ("from") ++ w1 ++ str ("collections") ++ w2) (str ("import"))
        (noOcc_append (str ("collections.") ++ τ) (str ("import") ++ t)
          (w0 ++ str ("from") ++ w1 ++ str ("collections")) w2
          (noOcc_append (str ("collections.") ++ τ) (w2 ++ (str ("import") ++ t))
            (w0 ++ str ("from") ++ w1) (str ("collections"))
            (noOcc_append (str ("collections.") ++ τ)
              (str ("collections") ++ (w2 ++ (str ("import") ++ t)))
              (w0 ++ str ("from")) w1
              (noOcc_append (str ("collections.") ++ τ)
                (w1 ++ (str ("collections") ++ (w2 ++ (str ("import") ++ t))))
                w0 (str ("from"))
                (noOcc_spaces τ _ w0 h0)
                (noOcc_from τ _))
              (noOcc_spaces τ _ w1 h1))
            (noOcc_collections_ws τ _ hb))
          (noOcc_spaces τ _ w2 h2))
        (noOcc_import τ _)
    have hlast6 : (w0 ++ str ("from") ++ w1 ++ str ("collections") ++ w2
        ++ str ("import")).getLast? = some 't' := by
      rw [List.getLast?_append]
      rfl
    rw [substAux_prefix_inert (str ("collections.") ++ τ) (str ("collections.abc.") ++ τ) t
        (w0 ++ str ("from") ++ w1 ++ str ("collections") ++ w2 ++ str ("import"))
        none 't' hno6 hlast6]
    dsimp only
    have hnw : noWordAhead ((substAux (str ("collections.") ++ τ)
        (str ("collections.abc.") ++ τ) (some 't') 0 t).1) = true :=
      substAux_head_nonword 'c' (str ("ollections.") ++ τ)
        (str ("collections.abc.") ++ τ) (by decide) t (some 't') ht
    exact famMatch_build_from w0 w1 w2 _ h0 h1 h2 hw1 hw2 hnw

theorem pySub_abc (hA : Char) (τ2 z : Str) (hh : (hA == 'a') = false)
    (hz : abcMatch z = true) :
    abcMatch (pySub (str ("collections.") ++ (hA :: τ2))
      (str ("collections.abc.") ++ (hA :: τ2)) z).1 = true := by
  unfold pySub
  rcases abcMatch_decomp z hz with
    ⟨w0, w1, t, hdec, h0, h1, hw1, ht⟩
    | ⟨w0, w1, w2, t, hdec, h0, h1, h2, hw1, hw2, ht⟩
    | ⟨w0, w1, w2, w3, t, hdec, h0, h1, h2, h3, hw1, hw2, hw3, ht⟩
  · subst hdec
    have hnoA : ∀ x y, w0 ++ str ("import") ++ w1 ++ str ("collections.abc") = x ++ y →
        y ≠ [] → occAt (str ("collections.") ++ (hA :: τ2)) (y ++ t) = false :=
      noOcc_append (str ("collections.") ++ (hA :: τ2)) t
        (w0 ++ str ("import") ++ w1) (str ("collections.abc"))
        (noOcc_append (str ("collections.") ++ (hA :: τ2))
          (str ("collections.abc") ++ t)
          (w0 ++ str ("import")) w1
          (noOcc_append (str ("collections.") ++ (hA :: τ2))
            (w1 ++ (str ("collections.abc") ++ t))
            w0 (str ("import"))
            (noOcc_spaces (hA :: τ2) _ w0 h0)
            (noOcc_import (hA :: τ2) _))
          (noOcc_spaces (hA :: τ2) _ w1 h1))
        (noOcc_collections_abc hA τ2 t hh ht)
    have hlastA : (w0 ++ str ("import") ++ w1 ++ str ("collections.abc")).getLast?
        = some 'c' := by
      rw [List.getLast?_append]
      rfl
    rw [substAux_prefix_inert (str ("collections.") ++ (hA :: τ2))
        (str ("collections.abc.") ++ (hA :: τ2)) t
        (w0 ++ str ("import") ++ w1 ++ str ("collections.abc")) none 'c' hnoA hlastA]
    dsimp only
    have hnw : noWordAhead ((substAux (str ("collections.") ++ (hA :: τ2))
        (str ("collections.abc.") ++ (hA :: τ2)) (some 'c') 0 t).1) = true :=
      substAux_head_nonword 'c' (str ("ollections.") ++ (hA :: τ2))
        (str ("collections.abc.") ++ (hA :: τ2)) (by decide) t (some 'c') ht
    exact abcMatch_build_imp w0 w1 _ h0 h1 hw1 hnw
  · subst hdec
    have hbB : noWordAhead (w2 ++ (str ("import") ++ t)) = true := by
      cases w2 with
      | nil => exact absurd rfl hw2
      | cons c0 w2b =>
        show (!isWordChar c0) = true
        rw [pySpace_not_word c0 (h2 c0 (List.mem_cons_self _ _))]
        rfl
    have hnoB : ∀ x y, w0 ++ str ("from") ++ w1 ++ str ("collections.abc") ++ w2
          ++ str ("import") = x ++ y → y ≠ [] →
        occAt (str ("collections.") ++ (hA :: τ2)) (y ++ t) = false :=
      noOcc_append (str ("collections.") ++ (hA :: τ2)) t
        (w0 ++ str ("from") ++ w1 ++ str ("collections.abc") ++ w2) (str ("import"))
        (noOcc_append (str ("collections.") ++ (hA :: τ2)) (str ("import") ++ t)
          (w0 ++ str ("from") ++ w1 ++ str ("collections.abc")) w2
          (noOcc_append (str ("collections.") ++ (hA :: τ2))
            (w2 ++ (str ("import") ++ t))
            (w0 ++ str ("from") ++ w1) (str ("collections.abc"))
            (noOcc_append (str ("collections.") ++ (hA :: τ2))
              (str ("collections.abc") ++ (w2 ++ (str ("import") ++ t)))
              (w0 ++ str ("from")) w1
              (noOcc_append (str ("collections.") ++ (hA :: τ2))
                (w1 ++ (str ("collections.abc") ++ (w2 ++ (str ("import") ++ t))))
                w0 (str ("from"))
                (noOcc_spaces (hA :: τ2) _ w0 h0)
                (noOcc_from (hA :: τ2) _))
              (noOcc_spaces (hA :: τ2) _ w1 h1))
            (noOcc_collections_abc hA τ2 _ hh hbB))
          (noOcc_spaces (hA :: τ2) _ w2 h2))
        (noOcc_import (hA :: τ2) _)
    have hlastB : (w0 ++ str ("from") ++ w1 ++ str ("collections.abc") ++ w2
        ++ str ("import")).getLast? = some 't' := by
      rw [List.getLast?_append]
      rfl
    rw [substAux_prefix_inert (str ("collections.") ++ (hA :: τ2))
        (str ("collections.abc.") ++ (hA :: τ2)) t
        (w0 ++ str ("from") ++ w1 ++ str ("collections.abc") ++ w2 ++ str ("import"))
        none 't' hnoB hlastB]
    dsimp only
    have hnw : noWordAhead ((substAux (str ("collections.") ++ (hA :: τ2))
        (str ("collections.abc.") ++ (hA :: τ2)) (some 't') 0 t).1) = true :=
      substAux_head_nonword 'c' (str ("ollections.") ++ (hA :: τ2))
        (str ("collections.abc.") ++ (hA :: τ2)) (by decide) t (some 't') ht
    exact abcMatch_build_from w0 w1 w2 _ h0 h1 h2 hw1 hw2 hnw
  · subst hdec
    have hbC : ∃ c0 b2, w2 ++ (str ("import") ++ (w3 ++ (str ("abc") ++ t)))
        = c0 :: b2 ∧ pySpace c0 = true := by
      cases w2 with
      | nil => exact absurd rfl hw2
      | cons c0 w2b =>
        exact ⟨c0, w2b ++ (str ("import") ++ (w3 ++ (str ("abc") ++ t))), rfl,
          h2 c0 (List.mem_cons_self _ _)⟩
    have hnoC : ∀ x y, w0 ++ str ("from") ++ w1 ++ str ("collections") ++ w2
          ++ str ("import") ++ w3 ++ str ("abc") = x ++ y → y ≠ [] →
        occAt (str ("collections.") ++ (hA :: τ2)) (y ++ t) = false :=
      noOcc_append (str ("collections.") ++ (hA :: τ2)) t
        (w0 ++ str ("from") ++ w1 ++ str ("collections") ++ w2 ++ str ("import") ++ w3)
        (str ("abc"))
        (noOcc_append (str ("collections.") ++ (hA :: τ2)) (str ("abc") ++ t)
          (w0 ++ str ("from") ++ w1 ++ str ("collections") ++ w2 ++ str ("import")) w3
          (noOcc_append (str ("collections.") ++ (hA :: τ2))
            (w3 ++ (str ("abc") ++ t))
            (w0 ++ str ("from") ++ w1 ++ str ("collections") ++ w2) (str ("import"))
            (noOcc_append (str ("collections.") ++ (hA :: τ2))
              (str ("import") ++ (w3 ++ (str ("abc") ++ t)))
              (w0 ++ str ("from") ++ w1 ++ str ("collections")) w2
              (noOcc_append (str ("collections.") ++ (hA :: τ2))
                (w2 ++ (str ("import") ++ (w3 ++ (str ("abc") ++ t))))
                (w0 ++ str ("from") ++ w1) (str ("collections"))
                (noOcc_append (str ("collections.") ++ (hA :: τ2))
                  (str ("collections") ++ (w2 ++ (str ("import")
                    ++ (w3 ++ (str ("abc") ++ t)))))
                  (w0 ++ str ("from")) w1
                  (noOcc_append (str ("collections.") ++ (hA :: τ2))
                    (w1 ++ (str ("collections") ++ (w2 ++ (str ("import")
                      ++ (w3 ++ (str ("abc") ++ t))))))
                    w0 (str ("from"))
                    (noOcc_spaces (hA :: τ2) _ w0 h0)
                    (noOcc_from (hA :: τ2) _))
                  (noOcc_spaces (hA :: τ2) _ w1 h1))
                (noOcc_collections_ws (hA :: τ2) _ hbC))
              (noOcc_spaces (hA :: τ2) _ w2 h2))
            (noOcc_import (hA :: τ2) _))
          (noOcc_spaces (hA :: τ2) _ w3 h3))
        (noOcc_abc (hA :: τ2) t ht)
    have hlastC : (w0 ++ str ("from") ++ w1 ++ str ("collections") ++ w2
        ++ str ("import") ++ w3 ++ str ("abc")).getLast? = some 'c' := by
      rw [List.getLast?_append]
      rfl
    rw [substAux_prefix_inert (str ("collections.") ++ (hA :: τ2))
        (str ("collections.abc.") ++ (hA :: τ2)) t
        (w0 ++ str ("from") ++ w1 ++ str ("collections") ++ w2 ++ str ("import")
          ++ w3 ++ str ("abc"))
        none 'c' hnoC hlastC]
    dsimp only
    have hnw : noWordAhead ((substAux (str ("collections.") ++ (hA :: τ2))
        (str ("collections.abc.") ++ (hA :: τ2)) (some 'c') 0 t).1) = true :=
      substAux_head_nonword 'c' (str ("ollections.") ++ (hA :: τ2))
        (str ("collections.abc.") ++ (hA :: τ2)) (by decide) t (some 'c') ht
    exact abcMatch_build_from_abc w0 w1 w2 w3 _ h0 h1 h2 h3 hw1 hw2 hw3 hnw

theorem foldl_preserve_fst (P : Str → Prop) (ln : Nat) :
    ∀ (entries : List (Str × Str × Str)) (acc : Str × List Change),
      (∀ e ∈ entries, ∀ w, P w → P (pySub e.1 e.2.1 w).1) →
      P acc.1 →
      P ((entries.foldl (fun acc pr =>
          let s := pySub pr.1 pr.2.1 acc.1
          if s.2 then (s.1, acc.2 ++ [⟨ln, pr.2.2⟩]) else acc) acc).1) := by
  intro entries
  induction entries with
  | nil => intro acc hstep hacc; exact hacc
  | cons e es ih =>
    intro acc hstep hacc
    rw [List.foldl_cons]
    apply ih
    · exact fun e2 he2 => hstep e2 (List.mem_cons_of_mem _ he2)
    · dsimp only
      by_cases hs : (pySub e.1 e.2.1 acc.1).2 = true
      · rw [if_pos hs]
        exact hstep e (List.mem_cons_self _ _) acc.1 hacc
      · rw [if_neg hs]
        exact hacc

theorem replaceUsage_fam (z : Str) (ln : Nat) (hz : famMatch z = true) :
    famMatch (replaceCollectionsUsage z ln).1 = true := by
  unfold replaceCollectionsUsage
  refine foldl_preserve_fst (fun w => famMatch w = true) ln replacements (z, []) ?_ hz
  intro e he w hw
  simp only [replacements, List.mem_cons, List.not_mem_nil, or_false] at he
  rcases he with rfl | rfl | rfl
  · dsimp only
    rw [show str ("collections.MutableMapping")
        = str ("collections.") ++ str ("MutableMapping") from rfl,
        show str ("collections.abc.MutableMapping")
        = str ("collections.abc.") ++ str ("MutableMapping") from rfl]
    exact pySub_fam (str ("MutableMapping")) w hw
  · dsimp only
    rw [show str ("collections.Iterable")
        = str ("collections.") ++ str ("Iterable") from rfl,
        show str ("collections.abc.Iterable")
        = str ("collections.abc.") ++ str ("Iterable") from rfl]
    exact pySub_fam (str ("Iterable")) w hw
  · dsimp only
    rw [show str ("collections.Callable")
        = str ("collections.") ++ str ("Callable") from rfl,
        show str ("collections.abc.Callable")
        = str ("collections.abc.") ++ str ("Callable") from rfl]
    exact pySub_fam (str ("Callable")) w hw

theorem replaceUsage_abc (z : Str) (ln : Nat) (hz : abcMatch z = true) :
    abcMatch (replaceCollectionsUsage z ln).1 = true := by
  unfold replaceCollectionsUsage
  refine foldl_preserve_fst (fun w => abcMatch w = true) ln replacements (z, []) ?_ hz
  intro e he w hw
  simp only [replacements, List.mem_cons, List.not_mem_nil, or_false] at he
  rcases he with rfl | rfl | rfl
  · dsimp only
    rw [show str ("collections.MutableMapping")
        = str ("collections.") ++ ('M' :: str ("utableMapping")) from rfl,
        show str ("collections.abc.MutableMapping")
        = str ("collections.abc.") ++ ('M' :: str ("utableMapping")) from rfl]
    exact pySub_abc 'M' (str ("utableMapping")) w (by decide) hw
  · dsimp only
    rw [show str ("collections.Iterable")
        = str ("collections.") ++ ('I' :: str ("terable")) from rfl,
        show str ("collections.abc.Iterable")
        = str ("collections.abc.") ++ ('I' :: str ("terable")) from rfl]
    exact pySub_abc 'I' (str ("terable")) w (by decide) hw
  · dsimp only
    rw [show str ("collections.Callable")
        = str ("collections.") ++ ('C' :: str ("allable")) from rfl,
        show str ("collections.abc.Callable")
        = str ("collections.abc.") ++ ('C' :: str ("allable")) from rfl]
    exact pySub_abc 'C' (str ("allable")) w (by decide) hw

theorem matchFromCollections_indent (s : Str) (pr : Str × Str)
    (h : matchFromCollections s = some pr) :
    ∀ c ∈ pr.1, pySpace c = true := by
  unfold matchFromCollections at h
  cases h1 : dropLit (str ("from")) (lstrip s) with
  | none => rw [h1] at h; dsimp only at h; exact Option.noConfusion h
  | some r1 =>
    rw [h1] at h
    dsimp only at h
    cases h2 : wsLit (str ("collections")) r1 with
    | none => rw [h2] at h; dsimp only at h; exact Option.noConfusion h
    | some r2 =>
      rw [h2] at h
      dsimp only at h
      cases h3 : wsLit (str ("import")) r2 with
      | none => rw [h3] at h; dsimp only at h; exact Option.noConfusion h
      | some r3 =>
        rw [h3] at h
        dsimp only at h
        cases h4 : capRest r3 with
        | none => rw [h4] at h; dsimp only at h; exact Option.noConfusion h
        | some g =>
          rw [h4] at h
          dsimp only at h
          injection h with h5
          rw [← h5]
          intro c hc
          exact List.mem_takeWhile_imp hc

theorem processFrom_out_fam (l : Str) (ln : Nat) (hf : famMatch l = true) :
    (∃ z ∈ (processFromCollectionsImport l ln).1, famMatch z = true)
    ∨ (∃ z ∈ (processFromCollectionsImport l ln).1, abcMatch z = true) := by
  unfold processFromCollectionsImport
  dsimp only
  cases hm : matchFromCollections (rstripRN l) with
  | none =>
    dsimp only
    exact Or.inl ⟨l, List.mem_singleton_self l, hf⟩
  | some pr =>
    obtain ⟨indent, importsPart⟩ := pr
    dsimp only
    have hind : ∀ c ∈ indent, pySpace c = true :=
      matchFromCollections_indent (rstripRN l) (indent, importsPart) hm
    have hfam_line : ∀ (rest : Str),
        famMatch (indent ++ (str ("from collections import ") ++ rest)) = true := by
      intro rest
      have hb := famMatch_build_from indent (str (" ")) (str (" ")) (str (" ") ++ rest)
        hind (by decide) (by decide) (by decide) (by decide) rfl
      have heq : indent ++ str ("from") ++ str (" ") ++ str ("collections") ++ str (" ")
            ++ str ("import") ++ (str (" ") ++ rest)
          = indent ++ (str ("from collections import ") ++ rest) := by
        simp only [List.append_assoc]
        rfl
      rw [heq] at hb
      exact hb
    have habc_line : ∀ (rest : Str),
        abcMatch (indent ++ (str ("from collections.abc import ") ++ rest)) = true := by
      intro rest
      have hb := abcMatch_build_from indent (str (" ")) (str (" ")) (str (" ") ++ rest)
        hind (by decide) (by decide) (by decide) (by decide) rfl
      have heq : indent ++ str ("from") ++ str (" ") ++ str ("collections.abc")
            ++ str (" ") ++ str ("import") ++ (str (" ") ++ rest)
          = indent ++ (str ("from collections.abc import ") ++ rest) := by
        simp only [List.append_assoc]
        rfl
      rw [heq] at hb
      exact hb
    obtain ⟨cd, cm, hsc⟩ : ∃ a b, splitComment importsPart = (a, b) := ⟨_, _, rfl⟩
    rw [hsc]
    dsimp only
    by_cases hI : ((parseImportItems cd).isEmpty
        || (parseImportItems cd).contains (str ("*"))) = true
    · rw [if_pos hI]
      exact Or.inl ⟨l, List.mem_singleton_self l, hf⟩
    · rw [if_neg hI]
      by_cases hM : ((parseImportItems cd).filter
          (fun it => baseImportName it == str ("MutableMapping"))).isEmpty = true
      · rw [if_pos hM]
        exact Or.inl ⟨l, List.mem_singleton_self l, hf⟩
      · rw [if_neg hM]
        by_cases hR : (!((parseImportItems cd).filter
            (fun it => !(baseImportName it == str ("MutableMapping")))).isEmpty) = true
        · rw [if_pos hR]
          left
          refine ⟨_, List.mem_cons_self _ _, ?_⟩
          simp only [List.append_assoc]
          exact hfam_line _
        · rw [if_neg hR]
          right
          refine ⟨_, List.mem_cons_self _ _, ?_⟩
          simp only [List.append_assoc]
          exact habc_line _

theorem transformLine_out_fam (ln : Nat) (l : Str) (hf : famMatch l = true) :
    (∃ y ∈ (transformLine ln l).1, famMatch y = true)
    ∨ (∃ y ∈ (transformLine ln l).1, abcMatch y = true) := by
  have hmem : ∀ z, z ∈ (processFromCollectionsImport l ln).1 →
      (replaceCollectionsUsage z ln).1 ∈ (transformLine ln l).1 := by
    intro z hz
    unfold transformLine
    dsimp only
    rw [List.map_map]
    exact List.mem_map_of_mem _ hz
  rcases processFrom_out_fam l ln hf with ⟨z, hz, hzf⟩ | ⟨z, hz, hza⟩
  · exact Or.inl ⟨_, hmem z hz, replaceUsage_fam z ln hzf⟩
  · exact Or.inr ⟨_, hmem z hz, replaceUsage_abc z ln hza⟩

theorem hasCollectionsImport_mem (ls : List Str) (h : hasCollectionsImport ls = true) :
    ∃ l ∈ ls, famMatch l = true := by
  induction ls with
  | nil => exact absurd h (by decide)
  | cons l rest ih =>
    cases hf : famMatch l with
    | true => exact ⟨l, List.mem_cons_self _ _, hf⟩
    | false =>
      have hstep : hasCollectionsImport (l :: rest) = hasCollectionsImport rest := by
        simp [hasCollectionsImport, hf]
      rw [hstep] at h
      obtain ⟨l2, hl2, hf2⟩ := ih h
      exact ⟨l2, List.mem_cons_of_mem _ hl2, hf2⟩

theorem withIdxFrom_mem : ∀ (ls : List Str) (k : Nat) (l : Str), l ∈ ls →
    ∃ i, (i, l) ∈ withIdxFrom k ls := by
  intro ls
  induction ls with
  | nil => intro k l h; cases h
  | cons a as ih =>
    intro k l h
    rcases List.mem_cons.mp h with rfl | h2
    · exact ⟨k, List.mem_cons_self _ _⟩
    · obtain ⟨i, hi⟩ := ih (k + 1) l h2
      exact ⟨i, List.mem_cons_of_mem _ hi⟩

theorem mem_updatedLines (content : Str) (i : Nat) (l y : Str)
    (hp : (i, l) ∈ withIdxFrom 1 (splitLinesKeep content))
    (hy : y ∈ (transformLine i l).1) :
    y ∈ updatedLinesOf content := by
  unfold updatedLinesOf
  refine List.mem_flatten.mpr ⟨(transformLine i l).1, ?_, hy⟩
  have h2 : (fun p => transformLine p.1 p.2) (i, l)
      ∈ (withIdxFrom 1 (splitLinesKeep content)).map (fun p => transformLine p.1 p.2) :=
    List.mem_map_of_mem _ hp
  have h3 := List.mem_map_of_mem Prod.fst h2
  exact h3

theorem hasAbc_of_mem (ls : List Str) (y : Str) (hy : y ∈ ls) (ha : abcMatch y = true) :
    hasCollectionsAbcImport ls = true := by
  unfold hasCollectionsAbcImport
  rw [List.any_eq_true]
  exact ⟨y, hy, ha⟩

theorem updated_has_fam (content : Str)
    (hci : hasCollectionsImport (splitLinesKeep content) = true)
    (hna : hasCollectionsAbcImport (updatedLinesOf content) = false) :
    ∃ y ∈ updatedLinesOf content, famMatch y = true := by
  obtain ⟨l, hl, hf⟩ := hasCollectionsImport_mem _ hci
  obtain ⟨i, hp⟩ := withIdxFrom_mem _ 1 l hl
  rcases transformLine_out_fam i l hf with ⟨y, hy, hyf⟩ | ⟨y, hy, hya⟩
  · exact ⟨y, mem_updatedLines content i l y hp hy, hyf⟩
  · have habc := hasAbc_of_mem _ y (mem_updatedLines content i l y hp hy) hya
    rw [habc] at hna
    exact Bool.noConfusion hna

theorem insertAtPos_go_none : ∀ (ls : List Str) (i : Nat) (acc : Option Nat),
    insertAtPos.go i acc ls = none → acc = none ∧ ∀ l2 ∈ ls, famMatch l2 = false := by
  intro ls
  induction ls with
  | nil =>
    intro i acc h
    exact ⟨h, by intro l2 hl2; cases hl2⟩
  | cons l rest ih =>
    intro i acc h
    rw [show insertAtPos.go i acc (l :: rest)
        = insertAtPos.go (i + 1) (if famMatch l then some (i + 1) else acc) rest
        from rfl] at h
    obtain ⟨hacc, hrest⟩ := ih (i + 1) _ h
    cases hf : famMatch l with
    | true =>
      rw [if_pos hf] at hacc
      exact Option.noConfusion hacc
    | false =>
      have hf2 : ¬(famMatch l = true) := by rw [hf]; exact Bool.false_ne_true
      rw [if_neg hf2] at hacc
      refine ⟨hacc, ?_⟩
      intro l2 hl2
      rcases List.mem_cons.mp hl2 with rfl | h2
      · exact hf
      · exact hrest l2 h2

theorem insertAtPos_go_some : ∀ (ls : List Str) (i : Nat) (acc : Option Nat) (k : Nat),
    insertAtPos.go i acc ls = some k →
    (∃ pre l post, ls = pre ++ l :: post ∧ famMatch l = true
      ∧ (∀ l2 ∈ post, famMatch l2 = false) ∧ k = i + pre.length + 1)
    ∨ (acc = some k ∧ ∀ l2 ∈ ls, famMatch l2 = false) := by
  intro ls
  induction ls with
  | nil =>
    intro i acc k h
    exact Or.inr ⟨h, by intro l2 hl2; cases hl2⟩
  | cons l rest ih =>
    intro i acc k h
    rw [show insertAtPos.go i acc (l :: rest)
        = insertAtPos.go (i + 1) (if famMatch l then some (i + 1) else acc) rest
        from rfl] at h
    rcases ih (i + 1) _ k h with ⟨pre, l0, post, hsplit, hf0, hpost, hk⟩ | ⟨hacc, hrest⟩
    · left
      refine ⟨l :: pre, l0, post, by rw [hsplit, List.cons_append], hf0, hpost, ?_⟩
      rw [hk]
      simp only [List.length_cons]
      omega
    · cases hf : famMatch l with
      | true =>
        rw [if_pos hf] at hacc
        injection hacc with h2
        left
        refine ⟨[], l, rest, rfl, hf, hrest, ?_⟩
        simp only [List.length_nil]
        omega
      | false =>
        have hf2 : ¬(famMatch l = true) := by rw [hf]; exact Bool.false_ne_true
        rw [if_neg hf2] at hacc
        right
        refine ⟨hacc, ?_⟩
        intro l2 hl2
        rcases List.mem_cons.mp hl2 with rfl | h2
        · exact hf
        · exact hrest l2 h2

theorem insertAtPos_some_spec (ls : List Str) (k : Nat) (h : insertAtPos ls = some k) :
    ∃ pre l post, ls = pre ++ l :: post ∧ famMatch l = true
      ∧ (∀ l2 ∈ post, famMatch l2 = false) ∧ k = pre.length + 1 := by
  unfold insertAtPos at h
  rcases insertAtPos_go_some ls 0 none k h with ⟨pre, l, post, hs, hf, hp, hk⟩ | ⟨hacc, hall⟩
  · exact ⟨pre, l, post, hs, hf, hp, by omega⟩
  · exact Option.noConfusion hacc

theorem insertAtPos_exists (ls : List Str) (l : Str) (hl : l ∈ ls)
    (hf : famMatch l = true) :
    ∃ k, insertAtPos ls = some k := by
  cases hi : insertAtPos ls with
  | none =>
    unfold insertAtPos at hi
    obtain ⟨_, hall⟩ := insertAtPos_go_none ls 0 none hi
    rw [hall l hl] at hf
    exact Bool.noConfusion hf
  | some k => exact ⟨k, rfl⟩

theorem insertAtIdx_split (pre post : List Str) (l x : Str) :
    insertAtIdx (pre.length + 1) x (pre ++ l :: post) = pre ++ l :: x :: post := by
  unfold insertAtIdx
  rw [show pre ++ l :: post = (pre ++ [l]) ++ post from by simp]
  rw [List.take_left' (by simp), List.drop_left' (by simp)]
  simp

theorem processFrom_changes_ne (l : Str) (ln : Nat) :
    ∀ ch ∈ (processFromCollectionsImport l ln).2,
      ch.descr ≠ str ("added import collections.abc") := by
  intro ch hch
  unfold processFromCollectionsImport at hch
  dsimp only at hch
  cases hm : matchFromCollections (rstripRN l) with
  | none =>
    rw [hm] at hch
    dsimp only at hch
    cases hch
  | some pr =>
    obtain ⟨indent, importsPart⟩ := pr
    rw [hm] at hch
    dsimp only at hch
    obtain ⟨cd, cm, hsc⟩ : ∃ a b, splitComment importsPart = (a, b) := ⟨_, _, rfl⟩
    rw [hsc] at hch
    dsimp only at hch
    by_cases hI : ((parseImportItems cd).isEmpty
        || (parseImportItems cd).contains (str ("*"))) = true
    · rw [if_pos hI] at hch
      cases hch
    · rw [if_neg hI] at hch
      by_cases hM : ((parseImportItems cd).filter
          (fun it => baseImportName it == str ("MutableMapping"))).isEmpty = true
      · rw [if_pos hM] at hch
        cases hch
      · rw [if_neg hM] at hch
        by_cases hR : (!((parseImportItems cd).filter
            (fun it => !(baseImportName it == str ("MutableMapping")))).isEmpty) = true
        · rw [if_pos hR] at hch
          dsimp only at hch
          rw [List.mem_singleton.mp hch]
          show str ("removed MutableMapping from collections import")
            ≠ str ("added import collections.abc")
          decide
        · rw [if_neg hR] at hch
          dsimp only at hch
          rw [List.mem_singleton.mp hch]
          show str ("replaced collections import with collections.abc for MutableMapping")
            ≠ str ("added import collections.abc")
          decide

theorem foldl_changes_ne (ln : Nat) :
    ∀ (entries : List (Str × Str × Str)) (acc : Str × List Change),
      (∀ ch ∈ acc.2, ch.descr ≠ str ("added import collections.abc")) →
      (∀ e ∈ entries, e.2.2 ≠ str ("added import collections.abc")) →
      ∀ ch ∈ (entries.foldl (fun acc pr =>
          let s := pySub pr.1 pr.2.1 acc.1
          if s.2 then (s.1, acc.2 ++ [⟨ln, pr.2.2⟩]) else acc) acc).2,
        ch.descr ≠ str ("added import collections.abc") := by
  intro entries
  induction entries with
  | nil => intro acc hacc hent ch hch; exact hacc ch hch
  | cons e es ih =>
    intro acc hacc hent ch hch
    rw [List.foldl_cons] at hch
    refine ih _ ?_ (fun e2 he2 => hent e2 (List.mem_cons_of_mem _ he2)) ch hch
    intro ch2 hch2
    dsimp only at hch2
    by_cases hs : (pySub e.1 e.2.1 acc.1).2 = true
    · rw [if_pos hs] at hch2
      dsimp only at hch2
      rcases List.mem_append.mp hch2 with h2 | h2
      · exact hacc ch2 h2
      · rw [List.mem_singleton.mp h2]
        exact hent e (List.mem_cons_self _ _)
    · rw [if_neg hs] at hch2
      exact hacc ch2 hch2

theorem replaceUsage_changes_ne (z : Str) (ln : Nat) :
    ∀ ch ∈ (replaceCollectionsUsage z ln).2,
      ch.descr ≠ str ("added import collections.abc") := by
  unfold replaceCollectionsUsage
  refine foldl_changes_ne ln replacements (z, []) ?_ ?_
  · intro ch hch
    cases hch
  · intro e he
    simp only [replacements, List.mem_cons, List.not_mem_nil, or_false] at he
    rcases he with rfl | rfl | rfl <;> decide

theorem transformLine_changes_ne (ln : Nat) (l : Str) :
    ∀ ch ∈ (transformLine ln l).2, ch.descr ≠ str ("added import collections.abc") := by
  intro ch hch
  unfold transformLine at hch
  dsimp only at hch
  rcases List.mem_append.mp hch with h2 | h2
  · exact processFrom_changes_ne l ln ch h2
  · rw [List.map_map] at h2
    obtain ⟨cl, hcl, hch2⟩ := List.mem_flatten.mp h2
    obtain ⟨z, hz, hzeq⟩ := List.mem_map.mp hcl
    rw [← hzeq] at hch2
    exact replaceUsage_changes_ne z ln ch hch2

theorem lineChanges_ne (content : Str) :
    ∀ ch ∈ lineChangesOf content, ch.descr ≠ str ("added import collections.abc") := by
  intro ch hch
  unfold lineChangesOf at hch
  rw [List.map_map] at hch
  obtain ⟨cl, hcl, hch2⟩ := List.mem_flatten.mp hch
  obtain ⟨p, hp, hpeq⟩ := List.mem_map.mp hcl
  rw [← hpeq] at hch2
  exact transformLine_changes_ne p.1 p.2 ch hch2

theorem processContent_ins (content : Str)
    (hg : (hasCollectionsImport (splitLinesKeep content)
        && !hasCollectionsAbcImport (splitLinesKeep content)
        && !hasCollectionsAbcImport (updatedLinesOf content)) = true) :
    processContent content
      = (joinStr (insertCollectionsAbcImport (updatedLinesOf content)
            (newlineOf content)).1,
         lineChangesOf content
           ++ (insertCollectionsAbcImport (updatedLinesOf content)
            (newlineOf content)).2) := by
  unfold processContent
  dsimp only
  rw [hg]
  rfl

theorem processContent_noins (content : Str)
    (hg : (hasCollectionsImport (splitLinesKeep content)
        && !hasCollectionsAbcImport (splitLinesKeep content)
        && !hasCollectionsAbcImport (updatedLinesOf content)) = false) :
    processContent content
      = (joinStr (updatedLinesOf content), lineChangesOf content) := by
  unfold processContent
  dsimp only
  rw [hg]
  rfl

/-- C7: the missing-import insertion of the transformation engine.  When
the file already imports `collections.abc`, or the other rules of the
same pass made the rewritten lines import it, no insertion happens and no
`added import collections.abc` record is emitted (never duplicated).
When the file imports the `collections` top level but `collections.abc`
is imported neither before nor after the other rules ran, the rewritten
lines still contain a `collections`-family import line, and exactly one
`import collections.abc` line (in the detected newline style) is inserted
immediately after the last such line, with one change record naming the
inserted line's position. -/
theorem C7_abc_insertion (content : Str) :
    ((hasCollectionsAbcImport (splitLinesKeep content) = true ∨
      hasCollectionsAbcImport (updatedLinesOf content) = true) →
      processContent content = (joinStr (updatedLinesOf content), lineChangesOf content)
      ∧ ∀ ch ∈ (processContent content).2,
          ch.descr ≠ str ("added import collections.abc"))
    ∧ (hasCollectionsImport (splitLinesKeep content) = true →
       hasCollectionsAbcImport (splitLinesKeep content) = false →
       hasCollectionsAbcImport (updatedLinesOf content) = false →
      ∃ pre l post,
        updatedLinesOf content = pre ++ l :: post ∧ famMatch l = true ∧
        (∀ l2 ∈ post, famMatch l2 = false) ∧
        processContent content
          = (joinStr (pre ++ l :: (str ("import collections.abc") ++ newlineOf content)
                :: post),
             lineChangesOf content
               ++ [⟨pre.length + 2, str ("added import collections.abc")⟩])) := by
  constructor
  · intro hOr
    have hg : (hasCollectionsImport (splitLinesKeep content)
        && !hasCollectionsAbcImport (splitLinesKeep content)
        && !hasCollectionsAbcImport (updatedLinesOf content)) = false := by
      rcases hOr with h | h
      · rw [h]; simp
      · rw [h]; simp
    have hpc := processContent_noins content hg
    refine ⟨hpc, ?_⟩
    rw [hpc]
    exact fun ch hch => lineChanges_ne content ch hch
  · intro hci hna hnu
    have hg : (hasCollectionsImport (splitLinesKeep content)
        && !hasCollectionsAbcImport (splitLinesKeep content)
        && !hasCollectionsAbcImport (updatedLinesOf content)) = true := by
      rw [hci, hna, hnu]
      rfl
    obtain ⟨yy, hyy, hyf⟩ := updated_has_fam content hci hnu
    obtain ⟨k, hk⟩ := insertAtPos_exists (updatedLinesOf content) yy hyy hyf
    obtain ⟨pre, l, post, hsplit, hlf, hpost, hkv⟩ := insertAtPos_some_spec _ k hk
    refine ⟨pre, l, post, hsplit, hlf, hpost, ?_⟩
    have hins : insertCollectionsAbcImport (updatedLinesOf content) (newlineOf content)
        = (pre ++ l :: (str ("import collections.abc") ++ newlineOf content) :: post,
           [⟨pre.length + 2, str ("added import collections.abc")⟩]) := by
      unfold insertCollectionsAbcImport
      rw [hk]
      dsimp only
      rw [hkv, hsplit, insertAtIdx_split pre post l _]
    rw [processContent_ins content hg, hins]

/-- C7 witness: on a file reading `import collections` then a use line,
the insertion lands directly after the import with position 2, one line,
no duplicate. -/
theorem C7_witness :
    ∃ pre l post,
      updatedLinesOf c7Content = pre ++ l :: post ∧ famMatch l = true ∧
      (∀ l2 ∈ post, famMatch l2 = false) ∧
      processContent c7Content
        = (joinStr (pre ++ l :: (str ("import collections.abc") ++ newlineOf c7Content)
              :: post),
           lineChangesOf c7Content
             ++ [⟨pre.length + 2, str ("added import collections.abc")⟩]) :=
  (C7_abc_insertion c7Content).2 (by decide) (by decide) (by decide)

/-! ## Rollback restores a clean tree: fold lemmas over the restore and
deletion phases -/

theorem isPre_exists (p s : Str) (h : isPre p s = true) : ∃ t, s = p ++ t := by
  induction p generalizing s with
  | nil => exact ⟨s, rfl⟩
  | cons a as ih =>
    cases s with
    | nil => exact Bool.noConfusion h
    | cons b bs =>
      unfold isPre at h
      obtain ⟨h1, h2⟩ := Bool.and_eq_true_iff.mp h
      have hab : a = b := beq_iff_eq.mp h1
      subst hab
      obtain ⟨t, ht⟩ := ih bs h2
      exact ⟨t, by rw [ht]; rfl⟩

theorem endsWith_decomp (p s : Str) (h : endsWith p s = true) :
    s = s.take (s.length - p.length) ++ p := by
  unfold endsWith at h
  obtain ⟨t, ht⟩ := isPre_exists p.reverse s.reverse h
  have hs : s = t.reverse ++ p := by
    have h2 := congrArg List.reverse ht
    rw [List.reverse_reverse, List.reverse_append, List.reverse_reverse] at h2
    exact h2
  rw [hs, List.length_append, Nat.add_sub_cancel, List.take_left]

theorem bak_take (q : Str) :
    (q ++ BACKUP_EXT).take ((q ++ BACKUP_EXT).length - BACKUP_EXT.length) = q := by
  rw [List.length_append, Nat.add_sub_cancel, List.take_left]

theorem ne_of_endsWith_mismatch (a b : Str) (ha : endsWith BACKUP_EXT a = false)
    (hb : endsWith BACKUP_EXT b = true) : a ≠ b := by
  intro h
  rw [h, hb] at ha
  exact Bool.noConfusion ha

theorem self_ne_append_bak (q : Str) : q ≠ q ++ BACKUP_EXT := by
  intro h
  have hlen := congrArg List.length h
  rw [List.length_append] at hlen
  have hb : BACKUP_EXT.length = 18 := by decide
  omega

theorem restore_one_other (fs : Fs) (bak p : Str) (hpb : p ≠ bak)
    (hpo : p ≠ bak.take (bak.length - BACKUP_EXT.length)) :
    fsRead (restore_one fs bak) p = fsRead fs p := by
  unfold restore_one
  by_cases h : fsHas fs bak = true
  · rw [if_neg (by simp [h])]
    dsimp only
    rw [fsRead_fsDel_ne bak p _ hpb, fsRead_fsSet_ne _ _ p _ hpo]
  · rw [if_pos (by simp [h])]

theorem restore_one_self (fs : Fs) (bak : Str) :
    fsRead (restore_one fs bak) bak = none := by
  unfold restore_one
  by_cases h : fsHas fs bak = true
  · rw [if_neg (by simp [h])]
    dsimp only
    exact fsRead_fsDel_self _ _
  · rw [if_pos (by simp [h])]
    cases hr : fsRead fs bak with
    | none => rfl
    | some v => exact absurd (by unfold fsHas; rw [hr]; rfl) h

theorem restore_one_write (fs : Fs) (q c : Str)
    (hr : fsRead fs (q ++ BACKUP_EXT) = some c) :
    fsRead (restore_one fs (q ++ BACKUP_EXT)) q = some c := by
  unfold restore_one
  rw [if_neg (by unfold fsHas; rw [hr]; simp)]
  dsimp only
  rw [bak_take, fsRead_fsDel_ne _ _ _ (self_ne_append_bak q), fsRead_fsSet_self, hr]
  rfl

theorem restore_fold_other (p : Str) : ∀ (l : List Str) (fs : Fs),
    (∀ b ∈ l, p ≠ b ∧ p ≠ b.take (b.length - BACKUP_EXT.length)) →
    fsRead (l.foldl restore_one fs) p = fsRead fs p := by
  intro l
  induction l with
  | nil => intro fs _; rfl
  | cons b bs ih =>
    intro fs h
    simp only [List.foldl_cons]
    rw [ih _ (fun r hr => h r (List.mem_cons_of_mem _ hr)),
      restore_one_other fs b p (h b (List.mem_cons_self _ _)).1
        (h b (List.mem_cons_self _ _)).2]

theorem restore_fold_bak_none (p : Str) (hp : endsWith BACKUP_EXT p = true) :
    ∀ (l : List Str) (fs : Fs),
      (∀ b ∈ l, endsWith BACKUP_EXT (b.take (b.length - BACKUP_EXT.length)) = false) →
      (fsRead fs p = none ∨ p ∈ l) →
      fsRead (l.foldl restore_one fs) p = none := by
  intro l
  induction l with
  | nil =>
    intro fs _ h0
    rcases h0 with h | h
    · exact h
    · cases h
  | cons b bs ih =>
    intro fs hl h0
    simp only [List.foldl_cons]
    rcases h0 with h | h
    · by_cases hpb : p = b
      · subst hpb
        exact ih _ (fun r hr => hl r (List.mem_cons_of_mem _ hr))
          (Or.inl (restore_one_self fs p))
      · have hpo : p ≠ b.take (b.length - BACKUP_EXT.length) := by
          intro he
          have h2 := hl b (List.mem_cons_self _ _)
          rw [← he] at h2
          rw [h2] at hp
          exact Bool.noConfusion hp
        exact ih _ (fun r hr => hl r (List.mem_cons_of_mem _ hr))
          (Or.inl (by rw [restore_one_other fs b p hpb hpo]; exact h))
    · rcases List.mem_cons.mp h with h | h
      · subst h
        exact ih _ (fun r hr => hl r (List.mem_cons_of_mem _ hr))
          (Or.inl (restore_one_self fs p))
      · exact ih _ (fun r hr => hl r (List.mem_cons_of_mem _ hr)) (Or.inr h)

theorem restore_fold_write (q c : Str) (hq : endsWith BACKUP_EXT q = false) :
    ∀ (l : List Str) (fs : Fs), l.Nodup → (q ++ BACKUP_EXT) ∈ l →
      (∀ b ∈ l, endsWith BACKUP_EXT b = true) →
      (∀ b ∈ l, endsWith BACKUP_EXT (b.take (b.length - BACKUP_EXT.length)) = false) →
      fsRead fs (q ++ BACKUP_EXT) = some c →
      fsRead (l.foldl restore_one fs) q = some c := by
  intro l
  induction l with
  | nil => intro fs _ hmem _ _ _; cases hmem
  | cons b bs ih =>
    intro fs hnd hmem hl hl2 hc
    simp only [List.foldl_cons]
    rcases List.mem_cons.mp hmem with h | h
    · subst h
      have havoid : ∀ r ∈ bs, q ≠ r ∧ q ≠ r.take (r.length - BACKUP_EXT.length) := by
        intro r hr
        have hrb : endsWith BACKUP_EXT r = true := hl r (List.mem_cons_of_mem _ hr)
        refine ⟨ne_of_endsWith_mismatch q r hq hrb, ?_⟩
        intro hqr
        have hdec := endsWith_decomp BACKUP_EXT r hrb
        rw [← hqr] at hdec
        exact (List.nodup_cons.mp hnd).1 (hdec ▸ hr)
      rw [restore_fold_other q bs (restore_one fs (q ++ BACKUP_EXT)) havoid]
      exact restore_one_write fs q c hc
    · have hbne : b ≠ q ++ BACKUP_EXT := fun hb => (List.nodup_cons.mp hnd).1 (hb ▸ h)
      have hkeep : fsRead (restore_one fs b) (q ++ BACKUP_EXT) = some c := by
        have h1 : q ++ BACKUP_EXT ≠ b := fun hh => hbne hh.symm
        have h2 : q ++ BACKUP_EXT ≠ b.take (b.length - BACKUP_EXT.length) := by
          have hstrip := hl2 b (List.mem_cons_self _ _)
          exact (ne_of_endsWith_mismatch (b.take (b.length - BACKUP_EXT.length))
            (q ++ BACKUP_EXT) hstrip (endsWith_append_self _ _)).symm
        rw [restore_one_other fs b (q ++ BACKUP_EXT) h1 h2]
        exact hc
      exact ih (restore_one fs b) (List.nodup_cons.mp hnd).2 h
        (fun r hr => hl r (List.mem_cons_of_mem _ hr))
        (fun r hr => hl2 r (List.mem_cons_of_mem _ hr)) hkeep

theorem del_step_other (fs : Fs) (c p : Str) (h : p ≠ c) :
    fsRead (if fsHas fs c then fsDel c fs else fs) p = fsRead fs p := by
  by_cases hc : fsHas fs c = true
  · rw [if_pos hc]
    exact fsRead_fsDel_ne c p fs h
  · rw [if_neg hc]

theorem del_step_self (fs : Fs) (c : Str) :
    fsRead (if fsHas fs c then fsDel c fs else fs) c = none := by
  by_cases hc : fsHas fs c = true
  · rw [if_pos hc]
    exact fsRead_fsDel_self c fs
  · rw [if_neg hc]
    cases hr : fsRead fs c with
    | none => rfl
    | some v => exact absurd (by unfold fsHas; rw [hr]; rfl) hc

theorem del_fold_none (p : Str) : ∀ (l : List Str) (fs : Fs), fsRead fs p = none →
    fsRead (l.foldl (fun fs c => if fsHas fs c then fsDel c fs else fs) fs) p = none := by
  intro l
  induction l with
  | nil => intro fs h; exact h
  | cons b bs ih =>
    intro fs h
    simp only [List.foldl_cons]
    apply ih
    by_cases hpb : p = b
    · subst hpb
      exact del_step_self fs p
    · rw [del_step_other fs b p hpb]
      exact h

theorem del_fold_mem (p : Str) : ∀ (l : List Str) (fs : Fs), p ∈ l →
    fsRead (l.foldl (fun fs c => if fsHas fs c then fsDel c fs else fs) fs) p = none := by
  intro l
  induction l with
  | nil => intro fs h; cases h
  | cons b bs ih =>
    intro fs h
    simp only [List.foldl_cons]
    rcases List.mem_cons.mp h with h | h
    · subst h
      exact del_fold_none p bs _ (del_step_self fs p)
    · exact ih _ h

theorem del_fold_other (p : Str) : ∀ (l : List Str) (fs : Fs), p ∉ l →
    fsRead (l.foldl (fun fs c => if fsHas fs c then fsDel c fs else fs) fs) p
      = fsRead fs p := by
  intro l
  induction l with
  | nil => intro fs _; rfl
  | cons b bs ih =>
    intro fs h
    simp only [List.foldl_cons]
    rw [ih _ (fun hh => h (List.mem_cons_of_mem _ hh)),
      del_step_other fs b p (fun hh => h (by rw [hh]; exact List.mem_cons_self _ _))]

/-- Rollback against a ledger satisfying the restore-correctness invariant
restores every path of the pre-session tree and deletes the ledger file. -/
theorem rollback_restores (fs0 fs : Fs) (st : Ledger)
    (hnb : ∀ b, endsWith BACKUP_EXT b = true → fsRead fs0 b = none)
    (hInv : RbInv fs0 fs st) :
    (∀ p, fsRead (rollback fs (some st)).fs p = fsRead fs0 p) ∧
    (rollback fs (some st)).led = none := by
  obtain ⟨h0, h1, h2, h3, h4, hnd, h6⟩ := hInv
  have hl1 : ∀ b ∈ st.backups, endsWith BACKUP_EXT b = true := by
    intro b hb
    obtain ⟨qq, hbq, _, _⟩ := h2 b hb
    rw [hbq]
    exact endsWith_append_self _ _
  have hl2 : ∀ b ∈ st.backups,
      endsWith BACKUP_EXT (b.take (b.length - BACKUP_EXT.length)) = false := by
    intro b hb
    obtain ⟨qq, hbq, hqn, _⟩ := h2 b hb
    rw [hbq, bak_take]
    exact hqn
  constructor
  · intro p
    unfold rollback
    dsimp only
    by_cases hp : endsWith BACKUP_EXT p = true
    · have hpc : p ∉ st.created_files := by
        intro hcr
        have h5 := (h4 p hcr).1
        rw [h5] at hp
        exact Bool.noConfusion hp
      rw [del_fold_other p st.created_files _ hpc, hnb p hp]
      apply restore_fold_bak_none p hp st.backups fs hl2
      by_cases hmem : p ∈ st.backups
      · exact Or.inr hmem
      · left
        cases hr : fsRead fs p with
        | none => rfl
        | some v =>
          exact absurd (h3 p hp (fun hh => by rw [hr] at hh; exact Option.noConfusion hh))
            hmem
    · have hp' : endsWith BACKUP_EXT p = false := by
        cases h : endsWith BACKUP_EXT p
        · rfl
        · exact absurd h hp
      by_cases hpc : p ∈ st.created_files
      · rw [del_fold_mem p st.created_files _ hpc, (h4 p hpc).2]
      · rw [del_fold_other p st.created_files _ hpc]
        by_cases hbb : (p ++ BACKUP_EXT) ∈ st.backups
        · obtain ⟨qq, hq, hqn, hcase⟩ := h2 _ hbb
          have hqp : qq = p := (List.append_cancel_right hq).symm
          rw [hqp] at hcase
          rcases hcase with hcr | ⟨hcv, hnz⟩
          · exact absurd hcr hpc
          · cases hv : fsRead fs0 p with
            | none => exact absurd hv hnz
            | some v =>
              exact restore_fold_write p v hp' st.backups fs hnd hbb hl1 hl2
                (by rw [hcv, hv])
        · rcases h1 p hp' with hu | hb | hcr
          · have havoid : ∀ b ∈ st.backups,
                p ≠ b ∧ p ≠ b.take (b.length - BACKUP_EXT.length) := by
              intro b hb2
              obtain ⟨qq, hbq, hqn, _⟩ := h2 b hb2
              constructor
              · rw [hbq]
                exact ne_of_endsWith_mismatch p (qq ++ BACKUP_EXT) hp'
                  (endsWith_append_self _ _)
              · rw [hbq, bak_take]
                intro hpq
                apply hbb
                rw [hpq, ← hbq]
                exact hb2
            rw [restore_fold_other p st.backups fs havoid]
            exact hu
          · exact absurd hb hbb
          · exact absurd hcr hpc
  · rfl

/-! ## The collections-fixer stage establishes the restore invariant -/

theorem backup_path_plain (fs : Fs) (p ext : Str) (h : fsHas fs (p ++ ext) = false) :
    backup_path fs p ext = some (p ++ ext) := by
  unfold backup_path
  dsimp only
  rw [h]
  rfl

theorem fsSet_ne_none (x v : Str) (fs : Fs) (b : Str) (h : fsRead fs b ≠ none) :
    fsRead (fsSet x v fs) b ≠ none := by
  by_cases hbx : b = x
  · subst hbx
    rw [fsRead_fsSet_self]
    exact fun hh => Option.noConfusion hh
  · rw [fsRead_fsSet_ne _ _ _ _ hbx]
    exact h

theorem not_mem_keys_of_read_none (fs : Fs) (q : Str) (h : fsRead fs q = none) :
    q ∉ fs.map Prod.fst := by
  intro hm
  have h2 := fsRead_isSome_of_mem fs q hm
  rw [h] at h2
  exact Bool.noConfusion h2

theorem bak_absent_of_keys (fs0 : Fs)
    (hnobak : ∀ p ∈ fs0.map Prod.fst, endsWith BACKUP_EXT p = false) :
    ∀ b, endsWith BACKUP_EXT b = true → fsRead fs0 b = none := by
  intro b hb
  cases hr : fsRead fs0 b with
  | none => rfl
  | some v =>
    have hm := mem_of_fsRead_some fs0 b v hr
    rw [hnobak b hm] at hb
    exact Bool.noConfusion hb

theorem nodup_keys_snoc (l : List Str) (p : Str) (hnd : l.Nodup) (hp : p ∉ l) :
    (l ++ [p]).Nodup := by
  induction l with
  | nil => exact List.nodup_singleton p
  | cons a as ih =>
    rw [List.cons_append]
    apply List.nodup_cons.mpr
    constructor
    · intro hm
      rcases List.mem_append.mp hm with h | h
      · exact (List.nodup_cons.mp hnd).1 h
      · rw [List.mem_singleton] at h
        exact hp (by rw [h]; exact List.mem_cons_self _ _)
    · exact ih (List.nodup_cons.mp hnd).2 (fun hh => hp (List.mem_cons_of_mem _ hh))

theorem fsSet_keys_fresh (p c : Str) : ∀ (fs : Fs), fsRead fs p = none →
    (fsSet p c fs).map Prod.fst = fs.map Prod.fst ++ [p] := by
  intro fs
  induction fs with
  | nil => intro _; rfl
  | cons e rest ih =>
    obtain ⟨q, d⟩ := e
    intro h
    unfold fsSet
    unfold fsRead at h
    by_cases he : q = p
    · rw [if_pos he] at h
      exact Option.noConfusion h
    · rw [if_neg he] at h
      rw [if_neg he, List.map_cons, List.map_cons, ih h, List.cons_append]

theorem iter_mem_props (fs' : Fs) (dirPre ext p : Str)
    (h : p ∈ iter_py_files fs' dirPre ext) :
    p ∈ fs'.map Prod.fst ∧ isPre dirPre p = true ∧ endsWith ext p = false := by
  unfold iter_py_files at h
  obtain ⟨hm, hf⟩ := List.mem_filter.mp h
  refine ⟨hm, ?_, ?_⟩
  · exact (Bool.and_eq_true_iff.mp (Bool.and_eq_true_iff.mp hf).1).1
  · have h2 := (Bool.and_eq_true_iff.mp hf).2
    cases he : endsWith ext p
    · rfl
    · rw [he] at h2
      exact Bool.noConfusion h2

theorem iter_nodup (fs' : Fs) (dirPre ext : Str) (hnd : (fs'.map Prod.fst).Nodup) :
    (iter_py_files fs' dirPre ext).Nodup :=
  hnd.filter _

theorem process_file_fs_cases (p : Str) (s : SState)
    (hfree : fsRead s.fs (p ++ BACKUP_EXT) = none) :
    (process_file p BACKUP_EXT s).1.fs = s.fs ∨
    ∃ content, fsRead s.fs p = some content ∧
      (process_file p BACKUP_EXT s).1.fs
        = fsSet p (processFilePure content).1
            (fsSet (p ++ BACKUP_EXT) content s.fs) := by
  unfold process_file
  cases hr : fsRead s.fs p with
  | none => left; rfl
  | some content =>
    dsimp only
    cases hu : (processFilePure content).2.updated with
    | false =>
      left
      rw [if_pos (by rfl)]
    | true =>
      right
      refine ⟨content, rfl, ?_⟩
      have hbp : backup_path s.fs p BACKUP_EXT = some (p ++ BACKUP_EXT) :=
        backup_path_plain s.fs p BACKUP_EXT (by unfold fsHas; rw [hfree]; rfl)
      rw [if_neg (by decide)]
      dsimp only
      rw [hbp]
      rfl

theorem FixInv_step (fs0 : Fs) (p : Str) (rem : List Str) (s : SState)
    (hp : endsWith BACKUP_EXT p = false)
    (hplog : ¬ p = COLLECTIONS_LOG)
    (hnotin : p ∉ rem)
    (hremn : ∀ r ∈ rem, endsWith BACKUP_EXT r = false)
    (hInv : FixInv fs0 s.fs (p :: rem)) :
    FixInv fs0 (process_file p BACKUP_EXT s).1.fs rem := by
  obtain ⟨k1, k2, k3, k0, k4⟩ := hInv
  have hfree : fsRead s.fs (p ++ BACKUP_EXT) = none := (k1 p (List.mem_cons_self _ _)).2
  rcases process_file_fs_cases p s hfree with he | ⟨content, hrc, he⟩
  · rw [he]
    exact ⟨fun r hr => k1 r (List.mem_cons_of_mem _ hr), k2, k3, k0, k4⟩
  · rw [he]
    have hfs0p : fsRead fs0 p = some content := by
      rw [← (k1 p (List.mem_cons_self _ _)).1]
      exact hrc
    have hselfne : p ++ BACKUP_EXT ≠ p := (self_ne_append_bak p).symm
    refine ⟨?_, ?_, ?_, ?_, ?_⟩
    · intro r hr
      have hrnb : endsWith BACKUP_EXT r = false := hremn r hr
      have hrp : r ≠ p := fun hh => hnotin (hh ▸ hr)
      have hrbak : r ≠ p ++ BACKUP_EXT :=
        ne_of_endsWith_mismatch r (p ++ BACKUP_EXT) hrnb (endsWith_append_self _ _)
      constructor
      · rw [fsRead_fsSet_ne _ _ _ _ hrp, fsRead_fsSet_ne _ _ _ _ hrbak]
        exact (k1 r (List.mem_cons_of_mem _ hr)).1
      · have h1 : r ++ BACKUP_EXT ≠ p :=
          (ne_of_endsWith_mismatch p (r ++ BACKUP_EXT) hp (endsWith_append_self _ _)).symm
        have h2 : r ++ BACKUP_EXT ≠ p ++ BACKUP_EXT :=
          fun hh => hrp (List.append_cancel_right hh)
        rw [fsRead_fsSet_ne _ _ _ _ h1, fsRead_fsSet_ne _ _ _ _ h2]
        exact (k1 r (List.mem_cons_of_mem _ hr)).2
    · intro q hqn hql
      by_cases hqp : q = p
      · subst hqp
        right
        constructor
        · rw [fsRead_fsSet_ne _ _ _ _ hselfne, fsRead_fsSet_self, hfs0p]
        · rw [hfs0p]
          exact fun hh => Option.noConfusion hh
      · have hq1 : q ≠ p ++ BACKUP_EXT :=
          ne_of_endsWith_mismatch q (p ++ BACKUP_EXT) hqn (endsWith_append_self _ _)
        have hq2 : q ++ BACKUP_EXT ≠ p :=
          (ne_of_endsWith_mismatch p (q ++ BACKUP_EXT) hp (endsWith_append_self _ _)).symm
        have hq3 : q ++ BACKUP_EXT ≠ p ++ BACKUP_EXT :=
          fun hh => hqp (List.append_cancel_right hh)
        rcases k2 q hqn hql with h | ⟨ha, hb⟩
        · left
          rw [fsRead_fsSet_ne _ _ _ _ hqp, fsRead_fsSet_ne _ _ _ _ hq1]
          exact h
        · right
          rw [fsRead_fsSet_ne _ _ _ _ hq2, fsRead_fsSet_ne _ _ _ _ hq3]
          exact ⟨ha, hb⟩
    · intro b hbk
      by_cases hbp : b = p ++ BACKUP_EXT
      · subst hbp
        right
        refine ⟨p, rfl, hp, ?_, ?_⟩
        · rw [fsRead_fsSet_ne _ _ _ _ hselfne, fsRead_fsSet_self, hfs0p]
        · rw [hfs0p]
          exact fun hh => Option.noConfusion hh
      · have hb1 : b ≠ p := (ne_of_endsWith_mismatch p b hp hbk).symm
        rw [fsRead_fsSet_ne _ _ _ _ hb1, fsRead_fsSet_ne _ _ _ _ hbp]
        exact k3 b hbk
    · intro q hq
      apply k0
      by_cases h1 : q = p
      · subst h1
        rw [fsRead_fsSet_self] at hq
        exact Option.noConfusion hq
      · by_cases h2 : q = p ++ BACKUP_EXT
        · subst h2
          rw [fsRead_fsSet_ne _ _ _ _ hselfne, fsRead_fsSet_self] at hq
          exact Option.noConfusion hq
        · rw [fsRead_fsSet_ne _ _ _ _ h1, fsRead_fsSet_ne _ _ _ _ h2] at hq
          exact hq
    · have hlg : endsWith BACKUP_EXT COLLECTIONS_LOG = false := by decide
      rw [fsRead_fsSet_ne _ _ _ _ (fun hh => hplog hh.symm),
        fsRead_fsSet_ne _ _ _ _ (ne_of_endsWith_mismatch COLLECTIONS_LOG (p ++ BACKUP_EXT)
          hlg (endsWith_append_self _ _))]
      exact k4

theorem fixer_fold_inv (fs0 : Fs) : ∀ (L : List Str) (s : SState),
    L.Nodup →
    (∀ p ∈ L, endsWith BACKUP_EXT p = false ∧ ¬ p = COLLECTIONS_LOG) →
    FixInv fs0 s.fs L →
    FixInv fs0 ((L.foldl (fun acc p => (process_file p BACKUP_EXT acc).1) s).fs) [] := by
  intro L
  induction L with
  | nil => intro s _ _ h; exact h
  | cons p ps ih =>
    intro s hnd hprop hInv
    simp only [List.foldl_cons]
    apply ih _ (List.nodup_cons.mp hnd).2 (fun r hr => hprop r (List.mem_cons_of_mem _ hr))
    exact FixInv_step fs0 p ps s (hprop p (List.mem_cons_self _ _)).1
      (hprop p (List.mem_cons_self _ _)).2 (List.nodup_cons.mp hnd).1
      (fun r hr => (hprop r (List.mem_cons_of_mem _ hr)).1) hInv

theorem FixInv_init (fs0 : Fs) (c : Str) (L : List Str)
    (hnobak : ∀ p ∈ fs0.map Prod.fst, endsWith BACKUP_EXT p = false)
    (hnolog : fsRead fs0 COLLECTIONS_LOG = none)
    (hL : ∀ p ∈ L, isPre (str ("ryu/")) p = true) :
    FixInv fs0 (fsSet COLLECTIONS_LOG c fs0) L := by
  have hbnone := bak_absent_of_keys fs0 hnobak
  have hlg : endsWith BACKUP_EXT COLLECTIONS_LOG = false := by decide
  refine ⟨?_, ?_, ?_, ?_, ?_⟩
  · intro p hp
    have hpre := hL p hp
    have hplog : p ≠ COLLECTIONS_LOG := by
      intro hh
      rw [hh] at hpre
      exact absurd hpre (by decide)
    constructor
    · rw [fsRead_fsSet_ne _ _ _ _ hplog]
    · have hpbne : p ++ BACKUP_EXT ≠ COLLECTIONS_LOG :=
        (ne_of_endsWith_mismatch COLLECTIONS_LOG (p ++ BACKUP_EXT) hlg
          (endsWith_append_self _ _)).symm
      rw [fsRead_fsSet_ne _ _ _ _ hpbne]
      exact hbnone _ (endsWith_append_self _ _)
  · intro q hqn hql
    left
    exact fsRead_fsSet_ne _ _ _ _ hql
  · intro b hb
    left
    have hbl : b ≠ COLLECTIONS_LOG :=
      (ne_of_endsWith_mismatch COLLECTIONS_LOG b hlg hb).symm
    rw [fsRead_fsSet_ne _ _ _ _ hbl]
    exact hbnone b hb
  · intro q hq
    by_cases hql : q = COLLECTIONS_LOG
    · rw [hql]
      exact hnolog
    · rw [fsRead_fsSet_ne _ _ _ _ hql] at hq
      exact hq
  · rw [fsRead_fsSet_self]
    exact fun hh => Option.noConfusion hh

theorem reg_fold_backups : ∀ (baks : List Str) (s : SState) (b : Str),
    b ∈ ((baks.foldl (fun acc b => if b ∈ acc.st.backups then acc
      else { acc with st := { acc.st with backups := acc.st.backups ++ [b] } }) s)).st.backups
    ↔ b ∈ s.st.backups ∨ b ∈ baks := by
  intro baks
  induction baks with
  | nil =>
    intro s b
    simp
  | cons x xs ih =>
    intro s b
    simp only [List.foldl_cons]
    by_cases hx : x ∈ s.st.backups
    · rw [if_pos hx, ih s b]
      constructor
      · rintro (h | h)
        · exact Or.inl h
        · exact Or.inr (List.mem_cons_of_mem _ h)
      · rintro (h | h)
        · exact Or.inl h
        · rcases List.mem_cons.mp h with h | h
          · exact Or.inl (h ▸ hx)
          · exact Or.inr h
    · rw [if_neg hx, ih _ b]
      dsimp only
      rw [List.mem_append, List.mem_singleton, List.mem_cons]
      constructor
      · rintro ((h | h) | h)
        · exact Or.inl h
        · exact Or.inr (Or.inl h)
        · exact Or.inr (Or.inr h)
      · rintro (h | h | h)
        · exact Or.inl (Or.inl h)
        · exact Or.inl (Or.inr h)
        · exact Or.inr h

theorem reg_fold_nodup : ∀ (baks : List Str) (s : SState), s.st.backups.Nodup →
    ((baks.foldl (fun acc b => if b ∈ acc.st.backups then acc
      else { acc with st := { acc.st with backups := acc.st.backups ++ [b] } }) s)).st.backups.Nodup := by
  intro baks
  induction baks with
  | nil => intro s h; exact h
  | cons x xs ih =>
    intro s h
    simp only [List.foldl_cons]
    by_cases hx : x ∈ s.st.backups
    · rw [if_pos hx]
      exact ih s h
    · rw [if_neg hx]
      exact ih _ (nodup_keys_snoc _ _ h hx)

theorem acfRegisterStage_backups (s : SState) (b : Str) :
    b ∈ (acfRegisterStage s).st.backups ↔
      b ∈ s.st.backups ∨ b ∈ (s.fs.map Prod.fst).filter (fun p => endsWith BACKUP_EXT p) := by
  unfold acfRegisterStage
  exact reg_fold_backups _ s b

theorem acfRegisterStage_nodup (s : SState) (h : s.st.backups.Nodup) :
    (acfRegisterStage s).st.backups.Nodup := by
  unfold acfRegisterStage
  exact reg_fold_nodup _ s h

theorem acfLogStage_created (s : SState) (hhas : fsHas s.fs COLLECTIONS_LOG = true)
    (hnc : COLLECTIONS_LOG ∉ s.st.created_files) :
    acfLogStage s = ({ s with st := { s.st with
      created_files := s.st.created_files ++ [COLLECTIONS_LOG] } }, some COLLECTIONS_LOG) := by
  unfold acfLogStage
  rw [if_pos (by rw [hhas, decide_eq_false hnc]; rfl)]

/-- After the register and log stages, the file tree produced by the fixer
satisfies the restore-correctness invariant. -/
theorem RbInv_after_register_log (fs0 : Fs) (s : SState)
    (hfix : FixInv fs0 s.fs [])
    (hst : s.st = ⟨[], []⟩)
    (hnolog : fsRead fs0 COLLECTIONS_LOG = none) :
    RbInv fs0 (acfLogStage (acfRegisterStage s)).1.fs
      (acfLogStage (acfRegisterStage s)).1.st := by
  obtain ⟨k1, k2, k3, k0, k4⟩ := hfix
  obtain ⟨hrfs, _, _, _, hrcr⟩ := acfRegisterStage_shape s
  have hhas : fsHas (acfRegisterStage s).fs COLLECTIONS_LOG = true := by
    rw [hrfs]
    unfold fsHas
    cases hr : fsRead s.fs COLLECTIONS_LOG with
    | none => exact absurd hr k4
    | some v => rfl
  have hnc : COLLECTIONS_LOG ∉ (acfRegisterStage s).st.created_files := by
    rw [hrcr, hst]
    exact List.not_mem_nil _
  rw [acfLogStage_created _ hhas hnc]
  dsimp only
  have hmemb : ∀ b, b ∈ (acfRegisterStage s).st.backups ↔
      (endsWith BACKUP_EXT b = true ∧ fsRead s.fs b ≠ none) := by
    intro b
    rw [acfRegisterStage_backups s b, hst]
    constructor
    · rintro (h | h)
      · exact absurd h (List.not_mem_nil _)
      · obtain ⟨hm, hf⟩ := List.mem_filter.mp h
        refine ⟨hf, ?_⟩
        have h2 := fsRead_isSome_of_mem s.fs b hm
        intro hh
        rw [hh] at h2
        exact Bool.noConfusion h2
    · rintro ⟨hb, hr⟩
      right
      apply List.mem_filter.mpr
      refine ⟨?_, hb⟩
      cases hv : fsRead s.fs b with
      | none => exact absurd hv hr
      | some v => exact mem_of_fsRead_some s.fs b v hv
  have hcreq : (acfRegisterStage s).st.created_files ++ [COLLECTIONS_LOG]
      = [COLLECTIONS_LOG] := by
    rw [hrcr, hst]
    rfl
  refine ⟨?_, ?_, ?_, ?_, ?_, ?_, ?_⟩
  · intro q hq
    rw [hrfs] at hq
    exact k0 q hq
  · intro q hqn
    rw [hrfs, hcreq]
    by_cases hql : q = COLLECTIONS_LOG
    · right; right
      rw [hql]
      exact List.mem_cons_self _ _
    · rcases k2 q hqn hql with h | ⟨ha, hb⟩
      · exact Or.inl h
      · right; left
        apply (hmemb _).mpr
        refine ⟨endsWith_append_self _ _, ?_⟩
        rw [ha]
        exact hb
  · intro b hb
    have h2 := (hmemb b).mp hb
    rcases k3 b h2.1 with h | ⟨q, hbq, hqn, hc, hnz⟩
    · exact absurd h h2.2
    · refine ⟨q, hbq, hqn, Or.inr ⟨?_, hnz⟩⟩
      rw [hrfs]
      exact hc
  · intro b hbk hbr
    rw [hrfs] at hbr
    exact (hmemb b).mpr ⟨hbk, hbr⟩
  · intro p hp
    rw [hcreq, List.mem_singleton] at hp
    rw [hp]
    exact ⟨by decide, hnolog⟩
  · apply acfRegisterStage_nodup
    rw [hst]
    exact List.nodup_nil
  · intro b hb
    rw [hrfs]
    exact ((hmemb b).mp hb).2

/-- The entire collections-fix stage, started on a clean tree, establishes
the restore-correctness invariant. -/
theorem RbInv_after_acf (fs0 : Fs) (led0 : Option Ledger)
    (hnodup : (fs0.map Prod.fst).Nodup)
    (hnobak : ∀ p ∈ fs0.map Prod.fst, endsWith BACKUP_EXT p = false)
    (hnolog : fsRead fs0 COLLECTIONS_LOG = none) :
    RbInv fs0 (apply_collections_fix ⟨fs0, led0, ⟨[], []⟩, [], []⟩).1.fs
      (apply_collections_fix ⟨fs0, led0, ⟨[], []⟩, [], []⟩).1.st := by
  unfold apply_collections_fix
  apply RbInv_after_register_log fs0 (acfFixerStage ⟨fs0, led0, ⟨[], []⟩, [], []⟩)
    ?hfix ?hst hnolog
  case hst => exact (acfFixerStage_meta _).2.1
  case hfix =>
    unfold acfFixerStage
    have hkeys : ((sWrite COLLECTIONS_LOG (str ("collections fix log"))
        (⟨fs0, led0, ⟨[], []⟩, [], []⟩ : SState)).fs).map Prod.fst
        = fs0.map Prod.fst ++ [COLLECTIONS_LOG] :=
      fsSet_keys_fresh _ _ fs0 hnolog
    have hknd : (((sWrite COLLECTIONS_LOG (str ("collections fix log"))
        (⟨fs0, led0, ⟨[], []⟩, [], []⟩ : SState)).fs).map Prod.fst).Nodup := by
      rw [hkeys]
      exact nodup_keys_snoc _ _ hnodup (not_mem_keys_of_read_none fs0 _ hnolog)
    apply fixer_fold_inv
    · exact iter_nodup _ _ _ hknd
    · intro p hp
      obtain ⟨hm, hpre, hnb⟩ := iter_mem_props _ _ _ p hp
      refine ⟨hnb, ?_⟩
      intro hh
      rw [hh] at hpre
      exact absurd hpre (by decide)
    · exact FixInv_init fs0 _ _ hnobak hnolog
        (fun p hp => (iter_mem_props _ _ _ p hp).2.1)

/-! ## The restore invariant is preserved by every later stage of `apply` -/

theorem read_none_of_not_fsHas (fs : Fs) (q : Str) (h : ¬ fsHas fs q = true) :
    fsRead fs q = none := by
  cases hr : fsRead fs q with
  | none => rfl
  | some v => exact absurd (by unfold fsHas; rw [hr]; rfl) h

theorem ensure_backup_registers (p : Str) (s : SState) (h : fsHas s.fs p = true) :
    (p ++ BACKUP_EXT) ∈ (ensure_backup p s).st.backups := by
  rcases ensure_backup_spec p s with ⟨h1, h2, he⟩ | ⟨h1, h2, he⟩ | ⟨h1, h2, he⟩
    | ⟨h1, h2, he⟩
  · rw [he]
    exact h2
  · rw [he]
    exact List.mem_append.mpr (Or.inr (List.mem_singleton_self _))
  · rw [h] at h2
    exact Bool.noConfusion h2
  · rw [he]
    exact List.mem_append.mpr (Or.inr (List.mem_singleton_self _))

theorem ensure_backup_st_mono (p : Str) (s : SState) :
    (∀ b ∈ s.st.backups, b ∈ (ensure_backup p s).st.backups) ∧
    (ensure_backup p s).st.created_files = s.st.created_files := by
  rcases ensure_backup_spec p s with ⟨h1, h2, he⟩ | ⟨h1, h2, he⟩ | ⟨h1, h2, he⟩
    | ⟨h1, h2, he⟩ <;> rw [he]
  · exact ⟨fun b hb => hb, rfl⟩
  · exact ⟨fun b hb => List.mem_append.mpr (Or.inl hb), rfl⟩
  · exact ⟨fun b hb => hb, rfl⟩
  · exact ⟨fun b hb => List.mem_append.mpr (Or.inl hb), rfl⟩

theorem RbInv_backup_write (fs0 : Fs) (p cp : Str) (s : SState)
    (hp : endsWith BACKUP_EXT p = false)
    (hcp : fsRead s.fs p = some cp)
    (hbread : fsRead s.fs (p ++ BACKUP_EXT) = none)
    (hInv : RbInv fs0 s.fs s.st) :
    RbInv fs0 (fsSet (p ++ BACKUP_EXT) ((fsRead s.fs p).getD []) s.fs)
      ⟨s.st.backups ++ [p ++ BACKUP_EXT], s.st.created_files⟩ := by
  obtain ⟨h0, h1, h2, h3, h4, h5, h6⟩ := hInv
  have hbakp : endsWith BACKUP_EXT (p ++ BACKUP_EXT) = true := endsWith_append_self _ _
  have hnotin : (p ++ BACKUP_EXT) ∉ s.st.backups := fun hm => h6 _ hm hbread
  refine ⟨?_, ?_, ?_, ?_, ?_, ?_, ?_⟩
  · intro q hq
    apply h0
    by_cases hqb : q = p ++ BACKUP_EXT
    · subst hqb
      rw [fsRead_fsSet_self] at hq
      exact Option.noConfusion hq
    · rw [fsRead_fsSet_ne _ _ _ _ hqb] at hq
      exact hq
  · intro q hqn
    have hqb : q ≠ p ++ BACKUP_EXT := ne_of_endsWith_mismatch q _ hqn hbakp
    rcases h1 q hqn with h | h | h
    · left
      rw [fsRead_fsSet_ne _ _ _ _ hqb]
      exact h
    · exact Or.inr (Or.inl (List.mem_append.mpr (Or.inl h)))
    · exact Or.inr (Or.inr h)
  · intro b hb
    rcases List.mem_append.mp hb with h | h
    · obtain ⟨q, hbq, hqn, hcase⟩ := h2 b h
      refine ⟨q, hbq, hqn, ?_⟩
      rcases hcase with hcr | ⟨hcv, hnz⟩
      · exact Or.inl hcr
      · right
        have hbne : b ≠ p ++ BACKUP_EXT := fun hh => hnotin (hh ▸ h)
        rw [fsRead_fsSet_ne _ _ _ _ hbne]
        exact ⟨hcv, hnz⟩
    · rw [List.mem_singleton] at h
      subst h
      refine ⟨p, rfl, hp, ?_⟩
      by_cases hpc : p ∈ s.st.created_files
      · exact Or.inl hpc
      · right
        rcases h1 p hp with hu | hbm | hcr
        · have hf0 : fsRead fs0 p = some cp := by
            rw [← hu]
            exact hcp
          constructor
          · rw [fsRead_fsSet_self, hcp, hf0]
            rfl
          · rw [hf0]
            exact fun hh => Option.noConfusion hh
        · exact absurd hbread (h6 _ hbm)
        · exact absurd hcr hpc
  · intro b hbk hbr
    by_cases hbp : b = p ++ BACKUP_EXT
    · subst hbp
      exact List.mem_append.mpr (Or.inr (List.mem_singleton_self _))
    · rw [fsRead_fsSet_ne _ _ _ _ hbp] at hbr
      exact List.mem_append.mpr (Or.inl (h3 b hbk hbr))
  · exact h4
  · exact nodup_keys_snoc _ _ h5 hnotin
  · intro b hb
    rcases List.mem_append.mp hb with h | h
    · exact fsSet_ne_none _ _ _ _ (h6 b h)
    · rw [List.mem_singleton] at h
      subst h
      rw [fsRead_fsSet_self]
      exact fun hh => Option.noConfusion hh

theorem RbInv_ensure_backup (fs0 : Fs) (p : Str) (s : SState)
    (hp : endsWith BACKUP_EXT p = false)
    (hInv : RbInv fs0 s.fs s.st) :
    RbInv fs0 (ensure_backup p s).fs (ensure_backup p s).st := by
  rcases ensure_backup_spec p s with ⟨hc1, hc2, he⟩ | ⟨hc1, hc2, he⟩ | ⟨hc1, hc2, he⟩
    | ⟨hc1, hc2, he⟩
  · rw [he]
    exact hInv
  · exfalso
    apply hc2
    apply hInv.2.2.2.1 _ (endsWith_append_self _ _)
    intro hn
    unfold fsHas at hc1
    rw [hn] at hc1
    exact Bool.noConfusion hc1
  · rw [he]
    exact hInv
  · have hbread : fsRead s.fs (p ++ BACKUP_EXT) = none := by
      cases hn : fsRead s.fs (p ++ BACKUP_EXT) with
      | none => rfl
      | some v =>
        unfold fsHas at hc1
        rw [hn] at hc1
        exact Bool.noConfusion hc1
    obtain ⟨cp, hcp⟩ : ∃ cp, fsRead s.fs p = some cp := by
      unfold fsHas at hc2
      cases hn : fsRead s.fs p with
      | none =>
        rw [hn] at hc2
        exact Bool.noConfusion hc2
      | some v => exact ⟨v, rfl⟩
    rw [he]
    exact RbInv_backup_write fs0 p cp s hp hcp hbread hInv

theorem RbInv_sWrite (fs0 : Fs) (p c : Str) (s : SState)
    (hp : endsWith BACKUP_EXT p = false)
    (hcond : (p ++ BACKUP_EXT) ∈ s.st.backups ∨ p ∈ s.st.created_files)
    (hInv : RbInv fs0 s.fs s.st) :
    RbInv fs0 (sWrite p c s).fs (sWrite p c s).st := by
  obtain ⟨h0, h1, h2, h3, h4, h5, h6⟩ := hInv
  show RbInv fs0 (fsSet p c s.fs) s.st
  refine ⟨?_, ?_, ?_, ?_, h4, h5, ?_⟩
  · intro q hq
    apply h0
    by_cases hqp : q = p
    · subst hqp
      rw [fsRead_fsSet_self] at hq
      exact Option.noConfusion hq
    · rw [fsRead_fsSet_ne _ _ _ _ hqp] at hq
      exact hq
  · intro q hqn
    by_cases hqp : q = p
    · subst hqp
      exact Or.inr hcond
    · rcases h1 q hqn with h | h | h
      · left
        rw [fsRead_fsSet_ne _ _ _ _ hqp]
        exact h
      · exact Or.inr (Or.inl h)
      · exact Or.inr (Or.inr h)
  · intro b hb
    obtain ⟨q, hbq, hqn, hcase⟩ := h2 b hb
    refine ⟨q, hbq, hqn, ?_⟩
    rcases hcase with hcr | ⟨hcv, hnz⟩
    · exact Or.inl hcr
    · right
      have hbne : b ≠ p := by
        rw [hbq]
        exact (ne_of_endsWith_mismatch p (q ++ BACKUP_EXT) hp (endsWith_append_self _ _)).symm
      rw [fsRead_fsSet_ne _ _ _ _ hbne]
      exact ⟨hcv, hnz⟩
  · intro b hbk hbr
    by_cases hbp : b = p
    · subst hbp
      rw [hbk] at hp
      exact Bool.noConfusion hp
    · rw [fsRead_fsSet_ne _ _ _ _ hbp] at hbr
      exact h3 b hbk hbr
  · intro b hb
    exact fsSet_ne_none _ _ _ _ (h6 b hb)

theorem RbInv_sWrite2 (fs0 : Fs) (p1 c1 p2 c2 : Str) (s : SState)
    (hp1 : endsWith BACKUP_EXT p1 = false) (hp2 : endsWith BACKUP_EXT p2 = false)
    (hcond1 : (p1 ++ BACKUP_EXT) ∈ s.st.backups ∨ p1 ∈ s.st.created_files)
    (hcond2 : (p2 ++ BACKUP_EXT) ∈ s.st.backups ∨ p2 ∈ s.st.created_files)
    (hInv : RbInv fs0 s.fs s.st) :
    RbInv fs0 (sWrite p2 c2 (sWrite p1 c1 s)).fs (sWrite p2 c2 (sWrite p1 c1 s)).st :=
  RbInv_sWrite fs0 p2 c2 (sWrite p1 c1 s) hp2 hcond2
    (RbInv_sWrite fs0 p1 c1 s hp1 hcond1 hInv)

theorem RbInv_addCreated (fs0 : Fs) (p : Str) (s : SState)
    (hp : endsWith BACKUP_EXT p = false) (hnew : fsRead fs0 p = none)
    (hInv : RbInv fs0 s.fs s.st) :
    RbInv fs0 s.fs ⟨s.st.backups, s.st.created_files ++ [p]⟩ := by
  obtain ⟨h0, h1, h2, h3, h4, h5, h6⟩ := hInv
  refine ⟨h0, ?_, ?_, h3, ?_, h5, h6⟩
  · intro q hqn
    rcases h1 q hqn with h | h | h
    · exact Or.inl h
    · exact Or.inr (Or.inl h)
    · exact Or.inr (Or.inr (List.mem_append.mpr (Or.inl h)))
  · intro b hb
    obtain ⟨q, hbq, hqn, hcase⟩ := h2 b hb
    refine ⟨q, hbq, hqn, ?_⟩
    rcases hcase with h | h
    · exact Or.inl (List.mem_append.mpr (Or.inl h))
    · exact Or.inr h
  · intro r hr
    rcases List.mem_append.mp hr with h | h
    · exact h4 r h
    · rw [List.mem_singleton] at h
      subst h
      exact ⟨hp, hnew⟩

theorem RbInv_eventlet (fs0 : Fs) (path : Str) (s s2 : SState)
    (hpath : endsWith BACKUP_EXT path = false)
    (hInv : RbInv fs0 s.fs s.st)
    (hok : ensure_eventlet_already_handled path s = .ok s2) :
    RbInv fs0 s2.fs s2.st := by
  unfold ensure_eventlet_already_handled at hok
  cases hread : fsRead s.fs path with
  | none =>
    rw [hread] at hok
    exact absurd hok (by simp)
  | some content =>
    rw [hread] at hok
    dsimp only at hok
    cases hfind : find_class_block (splitLinesKeep content) (str ("_AlreadyHandledResponse")) with
    | none =>
      rw [hfind] at hok
      dsimp only at hok
      injection hok with h2
      subst h2
      exact hInv
    | some se =>
      rw [hfind] at hok
      dsimp only at hok
      split at hok
      · injection hok with h2
        subst h2
        exact hInv
      · injection hok with h2
        subst h2
        have h1 := RbInv_ensure_backup fs0 path s hpath hInv
        have hreg := ensure_backup_registers path s (by unfold fsHas; rw [hread]; rfl)
        exact RbInv_sWrite fs0 path _ (ensure_backup path s) hpath (Or.inl hreg) h1

theorem RbInv_dnspython (fs0 : Fs) (path : Str) (s s2 : SState)
    (hpath : endsWith BACKUP_EXT path = false)
    (hInv : RbInv fs0 s.fs s.st)
    (hok : ensure_dnspython_compat path s = .ok s2) :
    RbInv fs0 s2.fs s2.st := by
  unfold ensure_dnspython_compat at hok
  cases hread : fsRead s.fs path with
  | none =>
    rw [hread] at hok
    exact absurd hok (by simp)
  | some content =>
    rw [hread] at hok
    dsimp only at hok
    split at hok
    · injection hok with h2
      subst h2
      exact hInv
    · split at hok
      · injection hok with h2
        subst h2
        exact hInv
      · injection hok with h2
        subst h2
        have h1 := RbInv_ensure_backup fs0 path s hpath hInv
        have hreg := ensure_backup_registers path s (by unfold fsHas; rw [hread]; rfl)
        exact RbInv_sWrite fs0 path _ (ensure_backup path s) hpath (Or.inl hreg) h1

theorem RbInv_update_requirements (fs0 : Fs) (s : SState)
    (hInv : RbInv fs0 s.fs s.st) :
    RbInv fs0 (update_requirements requirementsPath s).fs
      (update_requirements requirementsPath s).st := by
  unfold update_requirements
  dsimp only
  split
  · exact hInv
  · split
    · rename_i hpe
      have h1 := RbInv_ensure_backup fs0 requirementsPath s (by decide) hInv
      have hreg := ensure_backup_registers requirementsPath s hpe
      exact RbInv_sWrite fs0 requirementsPath _ (ensure_backup requirementsPath s)
        (by decide) (Or.inl hreg) h1
    · rename_i hpe
      have hnew : fsRead fs0 requirementsPath = none :=
        hInv.1 requirementsPath (read_none_of_not_fsHas s.fs requirementsPath hpe)
      have h1 := RbInv_addCreated fs0 requirementsPath s (by decide) hnew hInv
      exact RbInv_sWrite fs0 requirementsPath _
        ({ s with st := { s.st with
            created_files := s.st.created_files ++ [requirementsPath] } })
        (by decide)
        (Or.inr (List.mem_append.mpr (Or.inr (List.mem_singleton_self _)))) h1

theorem RbInv_write_report (fs0 : Fs) (prm : ApplyParams) (tests : TestsR) (s : SState)
    (hInv : RbInv fs0 s.fs s.st) :
    RbInv fs0 (write_report prm tests s).fs (write_report prm tests s).st := by
  unfold write_report
  dsimp only
  split
  · rename_i hJ
    have hI1 := RbInv_ensure_backup fs0 REPORT_JSON s (by decide) hInv
    have hregJ := ensure_backup_registers REPORT_JSON s hJ
    split
    · rename_i hT
      have hI2 := RbInv_ensure_backup fs0 REPORT_TXT (ensure_backup REPORT_JSON s)
        (by decide) hI1
      have hregT := ensure_backup_registers REPORT_TXT (ensure_backup REPORT_JSON s) hT
      have hregJ2 := (ensure_backup_st_mono REPORT_TXT (ensure_backup REPORT_JSON s)).1
        _ hregJ
      exact RbInv_sWrite2 fs0 REPORT_JSON _ REPORT_TXT _
        (ensure_backup REPORT_TXT (ensure_backup REPORT_JSON s))
        (by decide) (by decide) (Or.inl hregJ2) (Or.inl hregT) hI2
    · rename_i hT
      have hnewT : fsRead fs0 REPORT_TXT = none :=
        hI1.1 REPORT_TXT (read_none_of_not_fsHas _ REPORT_TXT hT)
      have hI2 := RbInv_addCreated fs0 REPORT_TXT (ensure_backup REPORT_JSON s)
        (by decide) hnewT hI1
      exact RbInv_sWrite2 fs0 REPORT_JSON _ REPORT_TXT _
        ({ ensure_backup REPORT_JSON s with st := { (ensure_backup REPORT_JSON s).st with
            created_files := (ensure_backup REPORT_JSON s).st.created_files
              ++ [REPORT_TXT] } })
        (by decide) (by decide) (Or.inl hregJ)
        (Or.inr (List.mem_append.mpr (Or.inr (List.mem_singleton_self _)))) hI2
  · rename_i hJ
    have hnewJ : fsRead fs0 REPORT_JSON = none :=
      hInv.1 REPORT_JSON (read_none_of_not_fsHas s.fs REPORT_JSON hJ)
    have hI1 := RbInv_addCreated fs0 REPORT_JSON s (by decide) hnewJ hInv
    split
    · rename_i hT
      have hI2 := RbInv_ensure_backup fs0 REPORT_TXT
        ({ s with st := { s.st with
            created_files := s.st.created_files ++ [REPORT_JSON] } }) (by decide) hI1
      have hregT := ensure_backup_registers REPORT_TXT
        ({ s with st := { s.st with
            created_files := s.st.created_files ++ [REPORT_JSON] } }) hT
      have hcJ : REPORT_JSON ∈ (ensure_backup REPORT_TXT
          ({ s with st := { s.st with
              created_files := s.st.created_files ++ [REPORT_JSON] } })).st.created_files := by
        rw [(ensure_backup_st_mono REPORT_TXT _).2]
        exact List.mem_append.mpr (Or.inr (List.mem_singleton_self _))
      exact RbInv_sWrite2 fs0 REPORT_JSON _ REPORT_TXT _
        (ensure_backup REPORT_TXT
          ({ s with st := { s.st with
              created_files := s.st.created_files ++ [REPORT_JSON] } }))
        (by decide) (by decide) (Or.inr hcJ) (Or.inl hregT) hI2
    · rename_i hT
      have hnewT : fsRead fs0 REPORT_TXT = none :=
        hI1.1 REPORT_TXT (read_none_of_not_fsHas _ REPORT_TXT hT)
      have hI2 := RbInv_addCreated fs0 REPORT_TXT
        ({ s with st := { s.st with
            created_files := s.st.created_files ++ [REPORT_JSON] } }) (by decide) hnewT hI1
      exact RbInv_sWrite2 fs0 REPORT_JSON _ REPORT_TXT _
        ({ { s with st := { s.st with
              created_files := s.st.created_files ++ [REPORT_JSON] } } with
            st := { ({ s with st := { s.st with
              created_files := s.st.created_files ++ [REPORT_JSON] } }).st with
              created_files := ({ s with st := { s.st with
                created_files := s.st.created_files ++ [REPORT_JSON] } }).st.created_files
                ++ [REPORT_TXT] } })
        (by decide) (by decide)
        (Or.inr (List.mem_append.mpr (Or.inl (List.mem_append.mpr
          (Or.inr (List.mem_singleton_self _))))))
        (Or.inr (List.mem_append.mpr (Or.inr (List.mem_singleton_self _)))) hI2

set_option maxHeartbeats 2000000 in
/-- C2 (amended): on a clean tree — distinct paths, no leftover
`*.ryu-modernize.bak` files and no leftover `collections_fix.log` from an
earlier session — a successful first-session `apply` followed by
`rollback` is lossless: every path reads back its pre-session bytes
(mutated files are restored, created files are removed) and the ledger
file is deleted. -/
theorem C2_clean_rollback_lossless (fs0 : Fs) (prm : ApplyParams) (s : SState)
    (hnodup : (fs0.map Prod.fst).Nodup)
    (hnobak : ∀ p ∈ fs0.map Prod.fst, endsWith BACKUP_EXT p = false)
    (hnolog : fsRead fs0 COLLECTIONS_LOG = none)
    (hok : apply fs0 none prm = .ok s) :
    (∀ p, fsRead (rollback s.fs s.led).fs p = fsRead fs0 p) ∧
    (rollback s.fs s.led).led = none := by
  unfold apply at hok
  dsimp only at hok
  set s0 : SState := ⟨fs0, none, load_state none, [], []⟩ with hs0
  have hmain : ∀ s1 : SState,
      s1.fs = (apply_collections_fix s0).1.fs → s1.st = (apply_collections_fix s0).1.st →
      ∀ s2, ensure_eventlet_already_handled wsgiPath s1 = .ok s2 →
      ∀ s3, ensure_dnspython_compat hubPath s2 = .ok s3 →
      s = save_state (write_report prm
        (if prm.skipTests then (⟨[], str ("skipped"), []⟩ : TestsR) else prm.testsResult)
        (update_requirements requirementsPath s3)) →
      (∀ p, fsRead (rollback s.fs s.led).fs p = fsRead fs0 p) ∧
      (rollback s.fs s.led).led = none := by
    intro s1 hfs1 hst1 s2 hev s3 hdns hfin
    have hI1 : RbInv fs0 s1.fs s1.st := by
      rw [hfs1, hst1]
      exact RbInv_after_acf fs0 none hnodup hnobak hnolog
    have hI2 := RbInv_eventlet fs0 wsgiPath s1 s2 (by decide) hI1 hev
    have hI3 := RbInv_dnspython fs0 hubPath s2 s3 (by decide) hI2 hdns
    have hI4 := RbInv_update_requirements fs0 s3 hI3
    have hI5 := RbInv_write_report fs0 prm
      (if prm.skipTests then (⟨[], str ("skipped"), []⟩ : TestsR) else prm.testsResult)
      (update_requirements requirementsPath s3) hI4
    have hsfs : s.fs = (write_report prm
        (if prm.skipTests then (⟨[], str ("skipped"), []⟩ : TestsR) else prm.testsResult)
        (update_requirements requirementsPath s3)).fs := by
      rw [hfin]
      rfl
    have hsled : s.led = some (write_report prm
        (if prm.skipTests then (⟨[], str ("skipped"), []⟩ : TestsR) else prm.testsResult)
        (update_requirements requirementsPath s3)).st := by
      rw [hfin]
      rfl
    rw [hsfs, hsled]
    exact rollback_restores fs0 _ _ (bak_absent_of_keys fs0 hnobak) hI5
  cases hacf : (apply_collections_fix s0).2 with
  | none =>
    rw [hacf] at hok
    dsimp only at hok
    cases hev : ensure_eventlet_already_handled wsgiPath (apply_collections_fix s0).1 with
    | err se msg => rw [hev] at hok; exact absurd hok (by simp)
    | ok s2 =>
      rw [hev] at hok
      dsimp only at hok
      cases hdns : ensure_dnspython_compat hubPath s2 with
      | err se msg => rw [hdns] at hok; exact absurd hok (by simp)
      | ok s3 =>
        rw [hdns] at hok
        dsimp only at hok
        injection hok with hfin
        exact hmain (apply_collections_fix s0).1 rfl rfl s2 hev s3 hdns hfin.symm
  | some lp =>
    rw [hacf] at hok
    dsimp only at hok
    cases hev : ensure_eventlet_already_handled wsgiPath
        { (apply_collections_fix s0).1 with
          changes := (apply_collections_fix s0).1.changes ++
            [⟨lp, str ("Collections import fix log generated")⟩] } with
    | err se msg => rw [hev] at hok; exact absurd hok (by simp)
    | ok s2 =>
      rw [hev] at hok
      dsimp only at hok
      cases hdns : ensure_dnspython_compat hubPath s2 with
      | err se msg => rw [hdns] at hok; exact absurd hok (by simp)
      | ok s3 =>
        rw [hdns] at hok
        dsimp only at hok
        injection hok with hfin
        exact hmain { (apply_collections_fix s0).1 with
            changes := (apply_collections_fix s0).1.changes ++
              [⟨lp, str ("Collections import fix log generated")⟩] }
          rfl rfl s2 hev s3 hdns hfin.symm

/-- C2 witness: the clean two-file tree of the C4 scenario, applied and
rolled back, reads back byte-for-byte with the ledger gone. -/
theorem C2_clean_rollback_lossless_witness :
    ((c4Fs.map Prod.fst).Nodup ∧ apply c4Fs none defaultParams = .ok c4Applied) ∧
    (∀ p, fsRead (rollback c4Applied.fs c4Applied.led).fs p = fsRead c4Fs p) ∧
    (rollback c4Applied.fs c4Applied.led).led = none :=
  ⟨⟨by decide, by decide⟩,
   C2_clean_rollback_lossless c4Fs defaultParams c4Applied (by decide)
     (by decide) (by decide) (by decide)⟩

/-- C1 (code-bug evidence): on `c1Input`, a file whose final line lacks a
trailing newline, the transformation engine is not idempotent.  The first
application glues the two halves of the split import together with no line
separator, and the second application then reports a further change
(inserting `import collections.abc`) and alters the content again, where
the claim requires a byte-identical no-op with zero changes. -/
theorem C1_second_apply_not_noop :
    (processContent c1Input).1
      = str ("from collections import OrderedDictfrom collections.abc import MutableMapping") ∧
    (processContent (processContent c1Input).1).2 ≠ [] ∧
    (processContent (processContent c1Input).1).1 ≠ (processContent c1Input).1 := by
  decide

/-- C8: the `rollback` function invoked when no ledger file exists returns
success (exit code 0), takes the nothing-to-rollback path, and leaves the
tree untouched. -/
theorem C8_rollback_without_ledger_noop (fs : Fs) :
    rollback fs none = ⟨0, true, fs, none⟩ := rfl

/-- C9: a file whose rewritten content is byte-identical to the original
produces zero change records, creates no backup, and is not written: the
tree is left unchanged. -/
theorem C9_identical_rewrite_no_effect (path backupExt content : Str) (s : SState)
    (hread : fsRead s.fs path = some content)
    (hfix : (processContent content).1 = content) :
    process_file path backupExt s = (s, ⟨[], false⟩) := by
  unfold process_file
  rw [hread]
  simp [processFilePure, hfix]

/-- C9 witness: an already-migrated file is left untouched. -/
theorem C9_witness :
    fsRead c9S.fs (str ("ryu/x.py")) = some c9Content ∧
    (processContent c9Content).1 = c9Content ∧
    process_file (str ("ryu/x.py")) BACKUP_EXT c9S = (c9S, ⟨[], false⟩) :=
  ⟨by decide, by decide,
   C9_identical_rewrite_no_effect (str ("ryu/x.py")) BACKUP_EXT c9Content c9S
     (by decide) (by decide)⟩

/-- C10: calling `ensure_backup` on a path whose original file does not
exist, when no backup file exists either, is a silent no-op: no copy, no
ledger registration, no error. -/
theorem C10_ensure_backup_silent_noop (path : Str) (s : SState)
    (hbak : fsRead s.fs (path ++ BACKUP_EXT) = none)
    (horig : fsRead s.fs path = none) :
    ensure_backup path s = s := by
  unfold ensure_backup
  simp [fsHas, hbak, horig]

/-- C10 witness: on the empty tree, `ensure_backup` does nothing. -/
theorem C10_witness :
    fsRead c10S.fs (str ("a.py") ++ BACKUP_EXT) = none ∧
    fsRead c10S.fs (str ("a.py")) = none ∧
    ensure_backup (str ("a.py")) c10S = c10S :=
  ⟨by decide, by decide,
   C10_ensure_backup_silent_noop (str ("a.py")) c10S (by decide) (by decide)⟩

/-- C2 counterexample: a session run on a tree still carrying the previous
session's backup of `ryu/a.py`.  `apply` mutates `ryu/a.py` but keeps the
stale backup, so rollback restores the first session's bytes instead of
the pre-apply bytes, and the fresh numeric-suffix backup the fixer created
survives rollback as an orphan. -/
theorem C2_counterexample :
    (apply c2Fs (some c2Led) defaultParams).isErr = false ∧
    fsRead c2Fs c2File = some c2PreContent ∧
    fsRead c2Applied.fs c2File ≠ some c2PreContent ∧
    fsRead c2RolledBack.fs c2File = some c2OldBackup ∧
    c2OldBackup ≠ c2PreContent ∧
    fsRead c2RolledBack.fs (c2File ++ BACKUP_EXT ++ str (".1")) = some c2PreContent := by
  decide

/-- C3 counterexample: `requirements.txt` is mutated in a second
back-to-back session while its plain-name backup exists, and no new backup
under any name is created: after `apply`, the only backup-like path for it
is the old one, still holding the first session's copy. -/
theorem C3_counterexample :
    (apply c3Fs (some c3Led) defaultParams).isErr = false ∧
    fsRead c3Applied.fs requirementsPath ≠ fsRead c3Fs requirementsPath ∧
    fsRead c3Applied.fs (requirementsPath ++ BACKUP_EXT) = some (str ("old backup")) ∧
    (c3Applied.fs.map Prod.fst).filter (fun p => isPre (requirementsPath ++ BACKUP_EXT) p)
      = [requirementsPath ++ BACKUP_EXT] := by
  decide

/-- C4 counterexample: the first three durable operations of the session
are the fixer log write, file A's backup copy, and A's mutation; at that
interruption point the on-disk ledger is still absent (`save_state` only
runs at the very end of `apply`), so it contains no entry for A's backup
and rollback restores nothing. -/
theorem C4_counterexample :
    (apply c4Fs none defaultParams).isErr = false ∧
    c4Applied.ops.take 3
      = [FsOp.writeFile COLLECTIONS_LOG (str ("collections fix log")),
         FsOp.writeFile (wsgiPath ++ BACKUP_EXT)
           (str ("class _AlreadyHandledResponse(Response):\n    pass\n")),
         FsOp.writeFile wsgiPath (eventletNewBlock (str ("\n")))] ∧
    fsHas c4Interrupted.1 (wsgiPath ++ BACKUP_EXT) = true ∧
    c4Interrupted.2 = none ∧
    (rollback c4Interrupted.1 c4Interrupted.2).nothingToDo = true ∧
    fsRead (rollback c4Interrupted.1 c4Interrupted.2).fs wsgiPath ≠ fsRead c4Fs wsgiPath := by
  decide

/-- C5 counterexample: with the eventlet patch's target file missing, the
session aborts with an uncaught error; the dnspython patch never runs (its
target stays unpatched and unrecorded), and no report or ledger is
written. -/
theorem C5_counterexample :
    c5Res.isErr = true ∧
    fsRead c5Res.state.fs hubPath = fsRead c5Fs hubPath ∧
    c5Res.state.changes.filter (fun c => c.path = hubPath) = [] ∧
    c5Res.state.led = none ∧
    fsRead c5Res.state.fs REPORT_JSON = none := by
  decide

end RyuModern
